import Mathlib

/-!
# Roller-coaster track and camera: a verification development

Shallow embedding of `Headers/track.hpp` (class `Track`) and `Headers/camera.hpp`
(class `Camera`).

Modelling conventions.

* C++ `float` arithmetic is idealised as exact arithmetic in a linearly ordered field `K`
  with a floor function (`ℚ` for evaluation, `ℝ` for analysis).  Rounding, infinities and
  NaN are outside the model, with one exception: the NaN that `sqrt` returns for a negative
  argument in `Camera::ProcessTrackMovement` is modelled by `budget` and
  `ProcessTrackMovementNaN`.
* `sqrt`, `sin`, `cos` and the degree-to-radian factor are passed to the functions that call
  them, so the definitions stay executable; the theorems instantiate `sqrt` with `Real.sqrt`.
* `std::vector::operator[]` with an index outside `[0, size)` is undefined behaviour; the
  model stops with `Fault.outOfRange`.  The functions named `_unchecked` model the run that
  goes on instead: such a read yields an arbitrary value `oob j`.
* A `while` loop runs on fuel; when the fuel is used up the model stops with
  `Fault.outOfFuel`.
* The `glm` types keep the library's conventions: a `mat4` built from 16 scalars is filled
  column by column, and `vec4 * mat4` pairs the vector with each column.
* The member `vertices` is passed through the mesh functions: each takes the list built so
  far and returns it with the new vertices appended.  `Vertex ret;` leaves `Normal` unset, so
  its initial content is a parameter `uninit` of the mesh functions.
-/

namespace RollerCoaster

/-- Ways in which a run of the model can stop without a result. -/
inductive Fault where
  | outOfRange
  | outOfFuel
  deriving DecidableEq

/-! ## glm vectors and matrices -/

/-- The type `glm::vec3`. -/
@[ext] structure Vec3 (K : Type) where
  x : K
  y : K
  z : K
  deriving DecidableEq

/-- The type `glm::vec4`. -/
@[ext] structure Vec4 (K : Type) where
  x : K
  y : K
  z : K
  w : K
  deriving DecidableEq

/-- The type `glm::mat4`: four columns, `m[j]` being column `j`. -/
structure Mat4 (K : Type) where
  c0 : Vec4 K
  c1 : Vec4 K
  c2 : Vec4 K
  c3 : Vec4 K

section Glm

variable {K : Type} [LinearOrderedField K]

instance : Zero (Vec3 K) := ⟨⟨0, 0, 0⟩⟩
instance : Add (Vec3 K) := ⟨fun a b => ⟨a.x + b.x, a.y + b.y, a.z + b.z⟩⟩
instance : Sub (Vec3 K) := ⟨fun a b => ⟨a.x - b.x, a.y - b.y, a.z - b.z⟩⟩
instance : Neg (Vec3 K) := ⟨fun a => ⟨-a.x, -a.y, -a.z⟩⟩
instance : SMul K (Vec3 K) := ⟨fun k a => ⟨k * a.x, k * a.y, k * a.z⟩⟩

/-- The function `glm::dot` on `vec3`. -/
def dot (a b : Vec3 K) : K := a.x * b.x + a.y * b.y + a.z * b.z

/-- The function `glm::cross`. -/
def cross (a b : Vec3 K) : Vec3 K :=
  ⟨a.y * b.z - b.y * a.z, a.z * b.x - b.z * a.x, a.x * b.y - b.x * a.y⟩

/-- The function `glm::length`: the square root of the dot product of the vector with itself. -/
def length (sqrt : K → K) (a : Vec3 K) : K := sqrt (dot a a)

/-- The function `glm::normalize`: the vector scaled by `inversesqrt(dot(v, v))`.
At the zero vector C++ yields NaN components; the idealised field yields whatever
`1 / sqrt 0` is there, and either way the result is not a unit vector. -/
def normalize (sqrt : K → K) (a : Vec3 K) : Vec3 K := (1 / sqrt (dot a a)) • a

/-- The function `glm::dot` on `vec4`. -/
def Vec4.dot (a b : Vec4 K) : K := a.x * b.x + a.y * b.y + a.z * b.z + a.w * b.w

/-- The 16-scalar constructor of `glm::mat4`: each consecutive group of four arguments is
one column. -/
def mat4 (x0 y0 z0 w0 x1 y1 z1 w1 x2 y2 z2 w2 x3 y3 z3 w3 : K) : Mat4 K :=
  ⟨⟨x0, y0, z0, w0⟩, ⟨x1, y1, z1, w1⟩, ⟨x2, y2, z2, w2⟩, ⟨x3, y3, z3, w3⟩⟩

/-- The operator `vec4 * mat4` of glm (row vector times matrix): component `j` of the result
is `dot(m[j], v)`, with `m[j]` the `j`-th column. -/
def Vec4.mulMat (v : Vec4 K) (m : Mat4 K) : Vec4 K :=
  ⟨Vec4.dot m.c0 v, Vec4.dot m.c1 v, Vec4.dot m.c2 v, Vec4.dot m.c3 v⟩

/-- Conversion `glm::vec3(vec4)`: the first three components. -/
def Vec4.toVec3 (v : Vec4 K) : Vec3 K := ⟨v.x, v.y, v.z⟩

end Glm

/-! ## class Track -/

section Track

variable {K : Type} [LinearOrderedField K]

/-- The method `Track::interpolate` (track.hpp, lines 130-150). -/
def interpolate (pointA pointB pointC pointD : Vec3 K) (tau u : K) : Vec3 K :=
  let catmull : Mat4 K := mat4
    0 (-tau) (2 * tau) (-tau)
    1 0 (tau - 3) (2 - tau)
    0 tau (3 - (2 * tau)) (tau - 2)
    0 0 (-tau) tau
  let pointABCD : Mat4 K := mat4
    pointA.x pointB.x pointC.x pointD.x
    pointA.y pointB.y pointC.y pointD.y
    pointA.z pointB.z pointC.z pointD.z
    0 0 0 0
  let vecU : Vec4 K := ⟨1, u, u * u, u * u * u⟩
  ((vecU.mulMat catmull).mulMat pointABCD).toVec3

/-- The C++ conversion `(int)s` of a float: truncation toward zero. -/
def toInt [FloorRing K] (s : K) : Int := if 0 ≤ s then ⌊s⌋ else ⌈s⌉

/-- The read `controlPoints[j]` with a signed index; an index outside the vector is a fault. -/
def readPoint (controlPoints : List (Vec3 K)) (j : Int) : Except Fault (Vec3 K) :=
  if 0 ≤ j then
    match controlPoints[j.toNat]? with
    | some p => .ok p
    | none => .error .outOfRange
  else .error .outOfRange

/-- The method `Track::get_point` (track.hpp, lines 90-99). -/
def get_point [FloorRing K] (controlPoints : List (Vec3 K)) (s : K) : Except Fault (Vec3 K) :=
  let sDecimal : K := s - ((toInt s : Int) : K)
  let pA : Int := toInt s - 1
  let pB : Int := toInt s
  let pC : Int := toInt s + 1
  let pD : Int := toInt s + 2
  match readPoint controlPoints pA, readPoint controlPoints pB,
      readPoint controlPoints pC, readPoint controlPoints pD with
  | .ok a, .ok b, .ok c, .ok d => .ok (interpolate a b c d (1 / 2) sDecimal)
  | _, _, _, _ => .error .outOfRange

/-- The read `controlPoints[j]` as `std::vector::operator[]` performs it: the index is not
checked, and a read outside `[0, size)` yields whatever lies there, the value `oob j`. -/
def readPoint_unchecked (oob : Int → Vec3 K) (controlPoints : List (Vec3 K)) (j : Int) :
    Vec3 K :=
  match readPoint controlPoints j with
  | .ok p => p
  | .error _ => oob j

/-- The method `Track::get_point` (track.hpp, lines 90-99) with unchecked reads. -/
def get_point_unchecked [FloorRing K] (oob : Int → Vec3 K) (controlPoints : List (Vec3 K))
    (s : K) : Vec3 K :=
  let sDecimal : K := s - ((toInt s : Int) : K)
  let pA : Int := toInt s - 1
  let pB : Int := toInt s
  let pC : Int := toInt s + 1
  let pD : Int := toInt s + 2
  interpolate (readPoint_unchecked oob controlPoints pA) (readPoint_unchecked oob controlPoints pB)
    (readPoint_unchecked oob controlPoints pC) (readPoint_unchecked oob controlPoints pD)
    (1 / 2) sDecimal

/-- The struct `Orientation` (track.hpp, lines 13-22). -/
structure Orientation (K : Type) where
  Front : Vec3 K
  Up : Vec3 K
  Right : Vec3 K
  position : Vec3 K

/-- The control-point loop of `Track::create_track` (track.hpp, lines 172-183): the running
sum `currentpos` of the loaded points, doubled, is pushed for every loaded point. -/
def loadControlPoints : Vec3 K → List (Vec3 K) → List (Vec3 K)
  | _, [] => []
  | currentpos, pt :: rest =>
    ((2 : K) • (currentpos + pt)) :: loadControlPoints (currentpos + pt) rest

/-- The value of `controlPoints.size() - 3` in `size_t` arithmetic (64 bits): below three
points the subtraction wraps around. -/
def sizeMinus3 (n : Nat) : Nat := if 3 ≤ n then n - 3 else 2 ^ 64 - 3 + n

/-- The body of the inner loop of `Track::create_track` (track.hpp, lines 193-203): returns
the pair `(Prev_P, Current_p)` that is passed to `makeRailPart`. -/
def railStep (sqrt : K → K) (controlPoints : List (Vec3 K)) (i : Nat) (u : K)
    (Current_p : Orientation K) : Except Fault (Orientation K × Orientation K) :=
  let Prev_P : Orientation K := Current_p
  match readPoint controlPoints (i : Int), readPoint controlPoints ((i : Int) + 1),
      readPoint controlPoints ((i : Int) + 2), readPoint controlPoints ((i : Int) + 3) with
  | .ok a, .ok b, .ok c, .ok d =>
    let position := interpolate a b c d (1 / 2) u
    let Front := normalize sqrt (position - Prev_P.position)
    let Right := normalize sqrt (cross Prev_P.Up Front)
    let Up := normalize sqrt (cross Front Right)
    .ok (Prev_P, ⟨Front, Up, Right, position⟩)
  | _, _, _, _ => .error .outOfRange

/-- The inner loop `for (float u = 0; u < 1; u += 0.05f)` of `Track::create_track`, run on
fuel; `acc` collects the pairs handed to `makeRailPart`, oldest first. -/
def uLoop (sqrt : K → K) (controlPoints : List (Vec3 K)) (i : Nat) :
    Nat → K → Orientation K → List (Orientation K × Orientation K) →
      Except Fault (Orientation K × List (Orientation K × Orientation K))
  | 0, _, _, _ => .error .outOfFuel
  | fuel + 1, u, Current_p, acc =>
    if u < 1 then
      match railStep sqrt controlPoints i u Current_p with
      | .ok (Prev_P, next) =>
        uLoop sqrt controlPoints i fuel (u + 1 / 20) next (acc ++ [(Prev_P, next)])
      | .error e => .error e
    else .ok (Current_p, acc)

/-- The outer loop `for (int i = 1; i < controlPoints.size() - 3; i++)` of
`Track::create_track`; the first argument counts the iterations still to run. -/
def iLoop (sqrt : K → K) (controlPoints : List (Vec3 K)) :
    Nat → Nat → Orientation K → List (Orientation K × Orientation K) →
      Except Fault (Orientation K × List (Orientation K × Orientation K))
  | 0, _, Current_p, acc => .ok (Current_p, acc)
  | todo + 1, i, Current_p, acc =>
    match uLoop sqrt controlPoints i 21 0 Current_p acc with
    | .ok (next, acc2) => iLoop sqrt controlPoints todo (i + 1) next acc2
    | .error e => .error e

/-- The frame part of `Track::create_track` (track.hpp, lines 184-205) on a given
control-point vector: the list of `(Prev_P, Current_p)` pairs passed to `makeRailPart`, in
call order. -/
def create_track (sqrt : K → K) (controlPoints : List (Vec3 K)) :
    Except Fault (List (Orientation K × Orientation K)) :=
  match readPoint controlPoints 1 with
  | .ok p1 =>
    let seed : Orientation K := ⟨⟨0, 0, 1⟩, ⟨0, 1, 0⟩, ⟨1, 0, 0⟩, p1⟩
    match iLoop sqrt controlPoints (sizeMinus3 controlPoints.length - 1) 1 seed [] with
    | .ok (_, acc) => .ok acc
    | .error e => .error e
  | .error e => .error e

/-- The type `glm::vec2`. -/
@[ext] structure Vec2 (K : Type) where
  x : K
  y : K
  deriving DecidableEq

/-- Modelled from the spec: the struct `Vertex`, which track.hpp uses and which is declared in
heightmap.hpp, a file that is not among the sources.  The specification gives it as
`Vertex{position: vec3, normal: vec3, texcoord: vec2}`; the member names are those that
track.hpp accesses. -/
structure Vertex (K : Type) where
  Position : Vec3 K
  Normal : Vec3 K
  TexCoords : Vec2 K
  deriving DecidableEq

/-- The method `Track::make_vertex` (track.hpp, lines 208-229).  The local `Vertex ret;` is
never given a `Normal` here; `uninit` stands for the content of that member after the
declaration (zero when `glm::vec3()` zero-initialises, indeterminate otherwise). -/
def make_vertex (uninit : Vec3 K) (myPoint : Vec3 K) (index : Int) : Vertex K :=
  { Position := ⟨myPoint.x, myPoint.y, myPoint.z⟩
    Normal := uninit
    TexCoords :=
      if index = 0 then ⟨0, 1⟩
      else if index = 1 then ⟨0, 0⟩
      else ⟨1, 0⟩ }

/-- The method `Track::set_normals` (track.hpp, lines 281-287); the three reference
parameters are returned. -/
def set_normals (p1 p2 p3 : Vertex K) : Vertex K × Vertex K × Vertex K :=
  let normal := cross (p2.Position - p1.Position) (p3.Position - p1.Position)
  ({ p1 with Normal := p1.Normal + normal },
   { p2 with Normal := p2.Normal + normal },
   { p3 with Normal := p3.Normal + normal })

/-- The method `Track::make_triangle` (track.hpp, lines 233-249): the member `vertices`
before the call is the argument, `vertices` after the three `push_back` calls is the
result. -/
def make_triangle (uninit : Vec3 K) (vertices : List (Vertex K)) (pointA pointB pointC : Vec3 K)
    (flipNormal : Bool) : List (Vertex K) :=
  let vertexA := make_vertex uninit pointA 0
  let vertexB := make_vertex uninit pointB 1
  let vertexC := make_vertex uninit pointC 2
  let r := set_normals vertexA vertexB vertexC
  let vertexA := if flipNormal then { r.1 with Normal := -r.1.Normal } else r.1
  let vertexB := if flipNormal then { r.2.1 with Normal := -r.2.1.Normal } else r.2.1
  let vertexC := if flipNormal then { r.2.2 with Normal := -r.2.2.Normal } else r.2.2
  vertices ++ [vertexA, vertexB, vertexC]

/-- The method `Track::makeRailPart` (track.hpp, lines 252-276), passing the member
`vertices` through its eight `make_triangle` calls; `offset` is not used by the source. -/
def makeRailPart (uninit : Vec3 K) (vertices : List (Vertex K)) (Prev_P Current_p : Orientation K)
    (_offset : Vec2 K) : List (Vertex K) :=
  let A := Prev_P.position - ((1 / 10 : K) • Prev_P.Up) - ((2 / 10 : K) • Prev_P.Right)
  let B := Current_p.position - ((1 / 10 : K) • Current_p.Up) - ((2 / 10 : K) • Current_p.Right)
  let C := Current_p.position - ((1 / 10 : K) • Current_p.Up) + ((2 / 10 : K) • Current_p.Right)
  let D := Prev_P.position - ((1 / 10 : K) • Prev_P.Up) + ((2 / 10 : K) • Prev_P.Right)
  let E := Prev_P.position - ((3 / 10 : K) • Prev_P.Up) - ((5 / 10 : K) • Prev_P.Right)
  let F := Current_p.position - ((3 / 10 : K) • Current_p.Up) - ((5 / 10 : K) • Current_p.Right)
  let G := Current_p.position - ((3 / 10 : K) • Current_p.Up) + ((5 / 10 : K) • Current_p.Right)
  let H := Prev_P.position - ((3 / 10 : K) • Prev_P.Up) + ((5 / 10 : K) • Prev_P.Right)
  -- bottom
  let vertices := make_triangle uninit vertices A B D true
  let vertices := make_triangle uninit vertices D C B true
  -- top
  let vertices := make_triangle uninit vertices E F H false
  let vertices := make_triangle uninit vertices H G F true
  -- left
  let vertices := make_triangle uninit vertices A B E false
  let vertices := make_triangle uninit vertices E F B true
  -- right
  let vertices := make_triangle uninit vertices C D H false
  make_triangle uninit vertices H G C false

/-- The member `vertices` after `Track::create_track` (track.hpp, lines 158-206): the loop
calls `makeRailPart(Prev_P, Current_p, glm::vec2(0, 0))` once for every pair that
`create_track` lists, in that order, each call appending to `vertices`. -/
def create_track_vertices (sqrt : K → K) (uninit : Vec3 K) (controlPoints : List (Vec3 K)) :
    Except Fault (List (Vertex K)) :=
  match create_track sqrt controlPoints with
  | .ok calls =>
    .ok (calls.foldl (fun vertices pc => makeRailPart uninit vertices pc.1 pc.2 ⟨0, 0⟩) [])
  | .error e => .error e

end Track

/-! ## class Camera -/

section Camera

variable {K : Type} [LinearOrderedField K]

/-- The enum `Camera_Movement` (camera.hpp, lines 14-19). -/
inductive Camera_Movement where
  | FORWARD
  | BACKWARD
  | LEFT
  | RIGHT
  deriving DecidableEq

/-- The constant `SENSITIVTY` (camera.hpp, line 25). -/
def SENSITIVTY : K := 1 / 10

/-- The constant `ZOOM` (camera.hpp, line 26). -/
def ZOOM : K := 45

/-- The constant member `heightMax` (camera.hpp, line 56). -/
def heightMax : K := 14

/-- The constant member `gravity` (camera.hpp, line 57). -/
def gravity : K := 981 / 100

/-- The data members of class `Camera` (camera.hpp, lines 34-61); `up`, `ft`, `rt` and `pos`
carry their in-class initialisers as defaults. -/
structure Camera (K : Type) [LinearOrderedField K] where
  Position : Vec3 K
  Front : Vec3 K
  Up : Vec3 K
  Right : Vec3 K
  WorldUp : Vec3 K
  prevPosition : Vec3 K
  prevFront : Vec3 K
  prevUp : Vec3 K
  prevRight : Vec3 K
  Yaw : K
  Pitch : K
  MovementSpeed : K
  MouseSensitivity : K
  Zoom : K
  currentpos : K := 1
  onTrack : Bool := false
  up : Vec3 K := ⟨0, 1, 0⟩
  ft : Vec3 K := ⟨0, 0, 1⟩
  rt : Vec3 K := ⟨1, 0, 0⟩
  pos : Vec3 K := ⟨0, 0, 0⟩

/-- The method `Camera::ProcessKeyboard` (camera.hpp, lines 89-100). -/
def ProcessKeyboard (c : Camera K) (direction : Camera_Movement) (deltaTime : K) : Camera K :=
  let velocity := c.MovementSpeed * deltaTime
  match direction with
  | .FORWARD => { c with Position := c.Position + velocity • c.Front }
  | .BACKWARD => { c with Position := c.Position - velocity • c.Front }
  | .LEFT => { c with Position := c.Position - velocity • c.Right }
  | .RIGHT => { c with Position := c.Position + velocity • c.Right }

/-- The method `Camera::get_distance` (camera.hpp, lines 102-105). -/
def get_distance (sqrt : K → K) (PointA PointB : Vec3 K) : K :=
  sqrt ((PointA.x - PointB.x) ^ 2 + (PointA.y - PointB.y) ^ 2 + (PointA.z - PointB.z) ^ 2)

/-- The assignments of the wrap branches of `Camera::ProcessTrackMovement` (camera.hpp,
lines 138-142 and 163-167). -/
def wrapToStart (c : Camera K) : Camera K :=
  { c with currentpos := 1, Up := c.up, Front := c.ft, Right := c.rt, Position := c.pos }

/-- One iteration of the body of `while (D > 0)` in `Camera::ProcessTrackMovement`
(camera.hpp, lines 136-159): the new camera and the new `D`. -/
def microStep [FloorRing K] (sqrt : K → K) (controlPoints : List (Vec3 K)) (c : Camera K)
    (D : K) : Except Fault (Camera K × K) :=
  if c.currentpos > (controlPoints.length : K) then
    .ok (wrapToStart c, D)
  else
    let currentpos := c.currentpos + 1 / 1000
    match get_point controlPoints currentpos with
    | .ok Position =>
      let Front := normalize sqrt (Position - c.Position)
      let Right := normalize sqrt (cross c.Up Front)
      let Up := normalize sqrt (cross Front Right)
      .ok ({ c with
              prevUp := c.Up, prevFront := c.Front, prevRight := c.Right,
              prevPosition := c.Position, currentpos := currentpos, Position := Position,
              Front := Front, Right := Right, Up := Up },
           D - get_distance sqrt c.Position Position)
    | .error e => .error e

/-- The loop `while (D > 0)` of `Camera::ProcessTrackMovement` (camera.hpp, lines 134-160),
run on fuel. -/
def whileD [FloorRing K] (sqrt : K → K) (controlPoints : List (Vec3 K)) :
    Nat → Camera K → K → Except Fault (Camera K × K)
  | 0, c, D => if D > 0 then .error .outOfFuel else .ok (c, D)
  | fuel + 1, c, D =>
    if D > 0 then
      match microStep sqrt controlPoints c D with
      | .ok (c2, D2) => whileD sqrt controlPoints fuel c2 D2
      | .error e => .error e
    else .ok (c, D)

/-- The method `Camera::ProcessTrackMovement` (camera.hpp, lines 108-170); `fuel` bounds the
number of iterations of its `while` loop. -/
def ProcessTrackMovement [FloorRing K] (sqrt : K → K) (fuel : Nat) (deltaTime : K)
    (controlPoints : List (Vec3 K)) (c : Camera K) : Except Fault (Camera K) :=
  if c.onTrack = false then
    .ok { c with
          Up := c.up, Front := c.ft, Right := c.rt, Position := c.pos,
          prevUp := c.up, prevFront := c.ft, prevRight := c.rt, prevPosition := c.pos,
          onTrack := true }
  else
    let c1 : Camera K :=
      { c with prevUp := c.Up, prevFront := c.Front, prevRight := c.Right,
               prevPosition := c.Position }
    let V : K := 1 / 2 * sqrt (2 * gravity * (heightMax - c1.Position.y))
    let D : K := V * deltaTime
    match whileD sqrt controlPoints fuel c1 D with
    | .ok (c2, _) =>
      if c2.currentpos > ((sizeMinus3 controlPoints.length : Nat) : K) then
        .ok (wrapToStart c2)
      else .ok c2
    | .error e => .error e

/-- The local `D = V * deltaTime` of `Camera::ProcessTrackMovement` (camera.hpp, lines
130-132) with the `sqrt` of the C library: for a negative argument, that is for
`Position.y > heightMax`, `sqrt` returns NaN, written `none`, and the products with `0.5` and
`deltaTime` stay NaN. -/
def budget (sqrt : K → K) (c : Camera K) (deltaTime : K) : Option K :=
  if 2 * gravity * (heightMax - c.Position.y) < 0 then none
  else some (1 / 2 * sqrt (2 * gravity * (heightMax - c.Position.y)) * deltaTime)

/-- The method `Camera::ProcessTrackMovement` (camera.hpp, lines 108-170) with the `sqrt` of
the C library (see `budget`): when `D` is NaN the test `D > 0` is false, the loop body is not
run, and the post-loop test follows. -/
def ProcessTrackMovementNaN [FloorRing K] (sqrt : K → K) (fuel : Nat) (deltaTime : K)
    (controlPoints : List (Vec3 K)) (c : Camera K) : Except Fault (Camera K) :=
  if c.onTrack = false then
    .ok { c with
          Up := c.up, Front := c.ft, Right := c.rt, Position := c.pos,
          prevUp := c.up, prevFront := c.ft, prevRight := c.rt, prevPosition := c.pos,
          onTrack := true }
  else
    let c1 : Camera K :=
      { c with prevUp := c.Up, prevFront := c.Front, prevRight := c.Right,
               prevPosition := c.Position }
    match budget sqrt c1 deltaTime with
    | some D =>
      match whileD sqrt controlPoints fuel c1 D with
      | .ok (c2, _) =>
        if c2.currentpos > ((sizeMinus3 controlPoints.length : Nat) : K) then
          .ok (wrapToStart c2)
        else .ok c2
      | .error e => .error e
    | none =>
      if c1.currentpos > ((sizeMinus3 controlPoints.length : Nat) : K) then
        .ok (wrapToStart c1)
      else .ok c1

/-- One iteration of the body of `while (D > 0)` in `Camera::ProcessTrackMovement`
(camera.hpp, lines 136-159) with unchecked reads: the new camera and the new `D`. -/
def microStep_unchecked [FloorRing K] (oob : Int → Vec3 K) (sqrt : K → K)
    (controlPoints : List (Vec3 K)) (c : Camera K) (D : K) : Camera K × K :=
  if c.currentpos > (controlPoints.length : K) then
    (wrapToStart c, D)
  else
    let currentpos := c.currentpos + 1 / 1000
    let Position := get_point_unchecked oob controlPoints currentpos
    let Front := normalize sqrt (Position - c.Position)
    let Right := normalize sqrt (cross c.Up Front)
    let Up := normalize sqrt (cross Front Right)
    ({ c with
        prevUp := c.Up, prevFront := c.Front, prevRight := c.Right,
        prevPosition := c.Position, currentpos := currentpos, Position := Position,
        Front := Front, Right := Right, Up := Up },
     D - get_distance sqrt c.Position Position)

/-- The loop `while (D > 0)` of `Camera::ProcessTrackMovement` (camera.hpp, lines 134-160)
with unchecked reads, run on fuel. -/
def whileD_unchecked [FloorRing K] (oob : Int → Vec3 K) (sqrt : K → K)
    (controlPoints : List (Vec3 K)) : Nat → Camera K → K → Except Fault (Camera K × K)
  | 0, c, D => if D > 0 then .error .outOfFuel else .ok (c, D)
  | fuel + 1, c, D =>
    if D > 0 then
      match microStep_unchecked oob sqrt controlPoints c D with
      | (c2, D2) => whileD_unchecked oob sqrt controlPoints fuel c2 D2
    else .ok (c, D)

/-- The method `Camera::ProcessTrackMovement` (camera.hpp, lines 108-170) with unchecked
reads; `fuel` bounds the number of iterations of its `while` loop. -/
def ProcessTrackMovement_unchecked [FloorRing K] (oob : Int → Vec3 K) (sqrt : K → K)
    (fuel : Nat) (deltaTime : K) (controlPoints : List (Vec3 K)) (c : Camera K) :
    Except Fault (Camera K) :=
  if c.onTrack = false then
    .ok { c with
          Up := c.up, Front := c.ft, Right := c.rt, Position := c.pos,
          prevUp := c.up, prevFront := c.ft, prevRight := c.rt, prevPosition := c.pos,
          onTrack := true }
  else
    let c1 : Camera K :=
      { c with prevUp := c.Up, prevFront := c.Front, prevRight := c.Right,
               prevPosition := c.Position }
    let V : K := 1 / 2 * sqrt (2 * gravity * (heightMax - c1.Position.y))
    let D : K := V * deltaTime
    match whileD_unchecked oob sqrt controlPoints fuel c1 D with
    | .ok (c2, _) =>
      if c2.currentpos > ((sizeMinus3 controlPoints.length : Nat) : K) then
        .ok (wrapToStart c2)
      else .ok c2
    | .error e => .error e

/-- A run of `T` consecutive calls of `Camera::ProcessTrackMovement` with unchecked reads, the
same elapsed time and the same track. -/
def runTicks_unchecked [FloorRing K] (oob : Int → Vec3 K) (sqrt : K → K) (fuel : Nat)
    (deltaTime : K) (controlPoints : List (Vec3 K)) : Nat → Camera K → Except Fault (Camera K)
  | 0, c => .ok c
  | T + 1, c =>
    match ProcessTrackMovement_unchecked oob sqrt fuel deltaTime controlPoints c with
    | .ok c2 => runTicks_unchecked oob sqrt fuel deltaTime controlPoints T c2
    | .error e => .error e

/-- The private method `Camera::updateCameraVectors` (camera.hpp, lines 208-219);
`radians` stands for `glm::radians`. -/
def updateCameraVectors (sqrt cos sin radians : K → K) (c : Camera K) : Camera K :=
  let front : Vec3 K :=
    ⟨cos (radians c.Yaw) * cos (radians c.Pitch),
     sin (radians c.Pitch),
     sin (radians c.Yaw) * cos (radians c.Pitch)⟩
  let Front := normalize sqrt front
  let Right := normalize sqrt (cross Front c.WorldUp)
  let Up := normalize sqrt (cross Right Front)
  { c with Front := Front, Right := Right, Up := Up }

/-- The method `Camera::ProcessMouseMovement` (camera.hpp, lines 173-192). -/
def ProcessMouseMovement (sqrt cos sin radians : K → K) (c : Camera K) (xoffset yoffset : K)
    (constrainPitch : Bool) : Camera K :=
  let xoffset := xoffset * c.MouseSensitivity
  let yoffset := yoffset * c.MouseSensitivity
  let Yaw := c.Yaw + xoffset
  let Pitch := c.Pitch + yoffset
  let Pitch :=
    if constrainPitch then
      let Pitch := if Pitch > 89 then 89 else Pitch
      if Pitch < -89 then -89 else Pitch
    else Pitch
  updateCameraVectors sqrt cos sin radians { c with Yaw := Yaw, Pitch := Pitch }

/-- The method `Camera::ProcessMouseScroll` (camera.hpp, lines 196-204). -/
def ProcessMouseScroll (c : Camera K) (yoffset : K) : Camera K :=
  let Zoom := if c.Zoom ≥ 1 ∧ c.Zoom ≤ 45 then c.Zoom - yoffset else c.Zoom
  let Zoom := if Zoom ≤ 1 then 1 else Zoom
  let Zoom := if Zoom ≥ 45 then 45 else Zoom
  { c with Zoom := Zoom }

end Camera

/-! ## Specification-side definitions and sample data -/

section SpecSide

variable {K : Type} [LinearOrderedField K]

/-- The blend matrix `M` of the specification (section 6), entered row by row as printed. -/
def specM (tau : K) : Matrix (Fin 4) (Fin 4) K :=
  !![0, -tau, 2 * tau, -tau;
     1, 0, tau - 3, 2 - tau;
     0, tau, 3 - 2 * tau, tau - 2;
     0, 0, -tau, tau]

/-- The product `[1, u, u², u³] · M · [a; b; c; d]` for one axis, as the specification
words it: the row vector multiplies `M` from the left and the column of the four coordinates
multiplies from the right. -/
def specBlend (M : Matrix (Fin 4) (Fin 4) K) (u a b c d : K) : K :=
  Matrix.dotProduct (Matrix.vecMul ![1, u, u ^ 2, u ^ 3] M) ![a, b, c, d]

/-- The coordinate of a vector on axis `k` (0, 1, 2 for x, y, z). -/
def coord (k : Fin 3) (v : Vec3 K) : K :=
  match k with
  | 0 => v.x
  | 1 => v.y
  | 2 => v.z

/-- The point returned by `get_point`, and the zero vector where `get_point` faults. -/
def pointAt [FloorRing K] (cps : List (Vec3 K)) (s : K) : Vec3 K :=
  match get_point cps s with
  | .ok p => p
  | .error _ => 0

/-- The difference quotient of one Catmull-Rom segment (tau = 1/2) at its start, as a
polynomial in the step `h`: `(segment(h) - b) / h` for the four coordinates `a b c d`. -/
def quotPoly (a b c d h : K) : K :=
  (-(1 / 2) + h - 1 / 2 * h ^ 2) * a + (-(5 / 2) * h + 3 / 2 * h ^ 2) * b
    + (1 / 2 + 2 * h - 3 / 2 * h ^ 2) * c + (-(1 / 2) * h + 1 / 2 * h ^ 2) * d

/-- The seed frame of `Track::create_track` (track.hpp, lines 186-189) at position `p1`. -/
def seedFrame (p1 : Vec3 K) : Orientation K := ⟨⟨0, 0, 1⟩, ⟨0, 1, 0⟩, ⟨1, 0, 0⟩, p1⟩

/-- A frame is orthonormal: `Front`, `Up` and `Right` have length one and are pairwise
orthogonal. -/
def Orthonormal (sqrt : K → K) (o : Orientation K) : Prop :=
  length sqrt o.Front = 1 ∧ length sqrt o.Up = 1 ∧ length sqrt o.Right = 1 ∧
    dot o.Front o.Up = 0 ∧ dot o.Front o.Right = 0 ∧ dot o.Up o.Right = 0

instance (sqrt : K → K) (o : Orientation K) : Decidable (Orthonormal sqrt o) := by
  unfold Orthonormal; infer_instance

/-- A step from `Prev_P` to `Current_p` is not degenerate: the position moves, and the
previous `Up` is not parallel to the displacement. -/
def NonDegenerate (pc : Orientation K × Orientation K) : Prop :=
  pc.2.position ≠ pc.1.position ∧ cross pc.1.Up (pc.2.position - pc.1.position) ≠ 0

instance (pc : Orientation K × Orientation K) : Decidable (NonDegenerate pc) := by
  unfold NonDegenerate; infer_instance

/-- The six collinear control points `(0,0,k)`, `k = 0..5`, of the specification's scenario. -/
def line6 : List (Vec3 K) :=
  [⟨0, 0, 0⟩, ⟨0, 0, 1⟩, ⟨0, 0, 2⟩, ⟨0, 0, 3⟩, ⟨0, 0, 4⟩, ⟨0, 0, 5⟩]

/-- Five control points `(0,k,0)`, `k = 0..4`: a track that climbs straight up. -/
def vertical5 : List (Vec3 K) :=
  [⟨0, 0, 0⟩, ⟨0, 1, 0⟩, ⟨0, 2, 0⟩, ⟨0, 3, 0⟩, ⟨0, 4, 0⟩]

/-- The state of a `Camera` built by its default constructor (yaw -90, pitch 0, world up
`(0,1,0)`); the `prev` members, which the constructor leaves unset, are taken as zero. -/
def freshCamera : Camera K :=
  { Position := ⟨0, 0, 0⟩, Front := ⟨0, 0, -1⟩, Up := ⟨0, 1, 0⟩, Right := ⟨1, 0, 0⟩,
    WorldUp := ⟨0, 1, 0⟩, prevPosition := ⟨0, 0, 0⟩, prevFront := ⟨0, 0, 0⟩,
    prevUp := ⟨0, 0, 0⟩, prevRight := ⟨0, 0, 0⟩, Yaw := -90, Pitch := 0,
    MovementSpeed := 5, MouseSensitivity := SENSITIVTY, Zoom := ZOOM }

/-- The camera `freshCamera` right after its first `ProcessTrackMovement` call: seated on
the track at `currentpos = 1`, `Position = pos = (0,0,0)`. -/
def seatedCamera : Camera K :=
  { (freshCamera : Camera K) with
    Up := ⟨0, 1, 0⟩, Front := ⟨0, 0, 1⟩, Right := ⟨1, 0, 0⟩, Position := ⟨0, 0, 0⟩,
    prevUp := ⟨0, 1, 0⟩, prevFront := ⟨0, 0, 1⟩, prevRight := ⟨1, 0, 0⟩,
    prevPosition := ⟨0, 0, 0⟩, onTrack := true }

/-- The assignments at the head of the on-track branch of `Camera::ProcessTrackMovement`
(camera.hpp, lines 125-128). -/
def tickStart (c : Camera K) : Camera K :=
  { c with prevUp := c.Up, prevFront := c.Front, prevRight := c.Right,
           prevPosition := c.Position }

/-- Memory beyond the control points of `line6` that continues the line: `(0,0,j)` at
index `j`. -/
def lineBeyond (j : Int) : Vec3 K := ⟨0, 0, (j : K)⟩
/-- A run of `T` consecutive calls of `Camera::ProcessTrackMovement` with the same elapsed
time and the same track. -/
def runTicks [FloorRing K] (sqrt : K → K) (fuel : Nat) (deltaTime : K)
    (controlPoints : List (Vec3 K)) : Nat → Camera K → Except Fault (Camera K)
  | 0, c => .ok c
  | T + 1, c =>
    match ProcessTrackMovement sqrt fuel deltaTime controlPoints c with
    | .ok c2 => runTicks sqrt fuel deltaTime controlPoints T c2
    | .error e => .error e

/-! ### The mesh -/

/-- The vertex list of a list of triangles: the three corners of each triangle in turn. -/
def flatten3 (tris : List (Vertex K × Vertex K × Vertex K)) : List (Vertex K) :=
  tris.flatMap fun t => [t.1, t.2.1, t.2.2]

/-- The triangles of a flat triangle list: consecutive groups of three vertices. -/
def triangles : List (Vertex K) → List (Vertex K × Vertex K × Vertex K)
  | a :: b :: c :: rest => (a, b, c) :: triangles rest
  | _ => []

/-- The three vertices that one call `make_triangle(a, b, c, f)` appends, written out: all
three carry the face normal `cross(b - a, c - a)` added to the initial content `g` of the
`Normal` member, negated when `f` is set. -/
def triangleOf (g : Vec3 K) (a b c : Vec3 K) (f : Bool) : Vertex K × Vertex K × Vertex K :=
  (⟨a, (if f then -(g + cross (b - a) (c - a)) else g + cross (b - a) (c - a)), ⟨0, 1⟩⟩,
   ⟨b, (if f then -(g + cross (b - a) (c - a)) else g + cross (b - a) (c - a)), ⟨0, 0⟩⟩,
   ⟨c, (if f then -(g + cross (b - a) (c - a)) else g + cross (b - a) (c - a)), ⟨1, 0⟩⟩)

/-- The eight corners `A .. H` of the box between two frames (track.hpp, lines 254-262), in
alphabetical order. -/
def boxCorners (Prev_P Current_p : Orientation K) : List (Vec3 K) :=
  [Prev_P.position - ((1 / 10 : K) • Prev_P.Up) - ((2 / 10 : K) • Prev_P.Right),
   Current_p.position - ((1 / 10 : K) • Current_p.Up) - ((2 / 10 : K) • Current_p.Right),
   Current_p.position - ((1 / 10 : K) • Current_p.Up) + ((2 / 10 : K) • Current_p.Right),
   Prev_P.position - ((1 / 10 : K) • Prev_P.Up) + ((2 / 10 : K) • Prev_P.Right),
   Prev_P.position - ((3 / 10 : K) • Prev_P.Up) - ((5 / 10 : K) • Prev_P.Right),
   Current_p.position - ((3 / 10 : K) • Current_p.Up) - ((5 / 10 : K) • Current_p.Right),
   Current_p.position - ((3 / 10 : K) • Current_p.Up) + ((5 / 10 : K) • Current_p.Right),
   Prev_P.position - ((3 / 10 : K) • Prev_P.Up) + ((5 / 10 : K) • Prev_P.Right)]

/-- The eight triangles of one rail part on the corners `A .. H`, in the order and with the
flip flags of `makeRailPart` (track.hpp, lines 264-275). -/
def railTrianglesOf (g : Vec3 K) (A B C D E F G H : Vec3 K) :
    List (Vertex K × Vertex K × Vertex K) :=
  [triangleOf g A B D true, triangleOf g D C B true, triangleOf g E F H false,
   triangleOf g H G F true, triangleOf g A B E false, triangleOf g E F B true,
   triangleOf g C D H false, triangleOf g H G C false]

/-- The eight triangles of the rail part between two frames. -/
def railTriangles (g : Vec3 K) (Prev_P Current_p : Orientation K) :
    List (Vertex K × Vertex K × Vertex K) :=
  match boxCorners Prev_P Current_p with
  | [A, B, C, D, E, F, G, H] => railTrianglesOf g A B C D E F G H
  | _ => []

/-- A triangle has a corner at position `p`. -/
def hasCorner (t : Vertex K × Vertex K × Vertex K) (p : Vec3 K) : Prop :=
  t.1.Position = p ∨ t.2.1.Position = p ∨ t.2.2.Position = p

instance (t : Vertex K × Vertex K × Vertex K) (p : Vec3 K) : Decidable (hasCorner t p) := by
  unfold hasCorner; infer_instance

/-- The number of triangles of a list that have both `p` and `q` among their corners, that
is, that have the segment from `p` to `q` as an edge when `p` and `q` differ. -/
def edgeCount (tris : List (Vertex K × Vertex K × Vertex K)) (p q : Vec3 K) : Nat :=
  (tris.filter fun t => decide (hasCorner t p ∧ hasCorner t q)).length

/-- The face normal of a triangle as `set_normals` computes it from the corner positions. -/
def faceNormal (t : Vertex K × Vertex K × Vertex K) : Vec3 K :=
  cross (t.2.1.Position - t.1.Position) (t.2.2.Position - t.1.Position)

/-- The sum of a list of vectors. -/
def vecSum (l : List (Vec3 K)) : Vec3 K := l.foldl (fun a b => a + b) 0

/-- The sum, over the triangles that have a corner at position `p`, of the normal that
`normalOf` assigns to a triangle. -/
def sharedNormalSum (normalOf : Vertex K × Vertex K × Vertex K → Vec3 K)
    (tris : List (Vertex K × Vertex K × Vertex K)) (p : Vec3 K) : Vec3 K :=
  vecSum ((tris.filter fun t => decide (hasCorner t p)).map normalOf)

/-- The centroid of the eight box corners. -/
def boxCentroid (corners : List (Vec3 K)) : Vec3 K := (1 / 8 : K) • vecSum corners

/-- The centroid of a triangle. -/
def triCentroid (t : Vertex K × Vertex K × Vertex K) : Vec3 K :=
  (1 / 3 : K) • (t.1.Position + t.2.1.Position + t.2.2.Position)

/-- The dot product of the normal stored in a triangle with the vector from the centroid of
the box corners to the centroid of the triangle: positive when the stored normal points out
of the tube. -/
def outwardDot (corners : List (Vec3 K)) (t : Vertex K × Vertex K × Vertex K) : K :=
  dot t.1.Normal (triCentroid t - boxCentroid corners)

/-- The seed frame of `create_track` at the origin. -/
def straightPrev : Orientation K := ⟨⟨0, 0, 1⟩, ⟨0, 1, 0⟩, ⟨1, 0, 0⟩, ⟨0, 0, 0⟩⟩

/-- The frame `straightPrev` moved one unit along its `Front`. -/
def straightCur : Orientation K := ⟨⟨0, 0, 1⟩, ⟨0, 1, 0⟩, ⟨1, 0, 0⟩, ⟨0, 0, 1⟩⟩

/-- Three control points `(0,0,k)`, `k = 0..2`. -/
def line3 : List (Vec3 K) := [⟨0, 0, 0⟩, ⟨0, 0, 1⟩, ⟨0, 0, 2⟩]

/-- Two control points `(0,0,k)`, `k = 0..1`. -/
def line2 : List (Vec3 K) := [⟨0, 0, 0⟩, ⟨0, 0, 1⟩]

/-! ### Frame propagation -/

/-- The frame propagation rule of the specification: from the previous `Up`, the previous
position and the new position, `Front = normalize(new - prev)`,
`Right = normalize(cross(prevUp, Front))`, `Up = normalize(cross(Front, Right))`. -/
def propagate (sqrt : K → K) (prevUp prevPosition position : Vec3 K) : Orientation K :=
  let Front := normalize sqrt (position - prevPosition)
  let Right := normalize sqrt (cross prevUp Front)
  let Up := normalize sqrt (cross Front Right)
  ⟨Front, Up, Right, position⟩

/-- The orientation frame that a camera holds: its `Front`, `Up`, `Right` and `Position`. -/
def cameraFrame (c : Camera K) : Orientation K := ⟨c.Front, c.Up, c.Right, c.Position⟩

end SpecSide

/-! ## Lemmas and theorems -/

/-! ### Reading control points -/

theorem readPoint_nat {K : Type} (cps : List (Vec3 K)) (j : Nat) (h : j < cps.length) :
    readPoint cps (j : Int) = .ok cps[j] := by
  simp [readPoint, List.getElem?_eq_getElem h]

theorem readPoint_fault_of_le {K : Type} (cps : List (Vec3 K)) (j : Int) (h : (cps.length : Int) ≤ j) :
    readPoint cps j = .error .outOfRange := by
  have h0 : (0 : Int) ≤ j := le_trans (Int.ofNat_nonneg _) h
  have h1 : cps.length ≤ j.toNat := by omega
  simp [readPoint, h0, List.getElem?_eq_none h1]

theorem readPoint_mem {K : Type} (cps : List (Vec3 K)) (j : Int) (p : Vec3 K)
    (h : readPoint cps j = .ok p) : p ∈ cps := by
  unfold readPoint at h
  split_ifs at h
  split at h
  · rename_i q hq
    injection h with h
    subst h
    exact List.mem_iff_getElem?.mpr ⟨_, hq⟩
  · cases h

theorem readPoint_ok_lt {K : Type} (cps : List (Vec3 K)) (n : Nat) (p : Vec3 K)
    (h : readPoint cps (n : Int) = .ok p) : ∃ hn : n < cps.length, p = cps[n] := by
  by_cases hn : n < cps.length
  · refine ⟨hn, ?_⟩
    rw [readPoint_nat cps n hn] at h
    injection h with h
    exact h.symm
  · rw [readPoint_fault_of_le cps _ (by omega)] at h
    cases h

theorem readPoint_unchecked_of_ok {K : Type} (oob : Int → Vec3 K) (cps : List (Vec3 K)) (j : Int)
    (p : Vec3 K) (h : readPoint cps j = .ok p) : readPoint_unchecked oob cps j = p := by
  simp only [readPoint_unchecked, h]

/-! ### Vector algebra -/

section VectorAlgebra

variable {K : Type} [LinearOrderedField K]

@[simp] theorem Vec3.zero_x : (0 : Vec3 K).x = 0 := rfl
@[simp] theorem Vec3.zero_y : (0 : Vec3 K).y = 0 := rfl
@[simp] theorem Vec3.zero_z : (0 : Vec3 K).z = 0 := rfl
@[simp] theorem Vec3.add_x (a b : Vec3 K) : (a + b).x = a.x + b.x := rfl
@[simp] theorem Vec3.add_y (a b : Vec3 K) : (a + b).y = a.y + b.y := rfl
@[simp] theorem Vec3.add_z (a b : Vec3 K) : (a + b).z = a.z + b.z := rfl
@[simp] theorem Vec3.sub_x (a b : Vec3 K) : (a - b).x = a.x - b.x := rfl
@[simp] theorem Vec3.sub_y (a b : Vec3 K) : (a - b).y = a.y - b.y := rfl
@[simp] theorem Vec3.sub_z (a b : Vec3 K) : (a - b).z = a.z - b.z := rfl
@[simp] theorem Vec3.neg_x (a : Vec3 K) : (-a).x = -a.x := rfl
@[simp] theorem Vec3.neg_y (a : Vec3 K) : (-a).y = -a.y := rfl
@[simp] theorem Vec3.neg_z (a : Vec3 K) : (-a).z = -a.z := rfl
@[simp] theorem Vec3.smul_x (k : K) (a : Vec3 K) : (k • a).x = k * a.x := rfl
@[simp] theorem Vec3.smul_y (k : K) (a : Vec3 K) : (k • a).y = k * a.y := rfl
@[simp] theorem Vec3.smul_z (k : K) (a : Vec3 K) : (k • a).z = k * a.z := rfl


theorem zline_point (s : K) :
    (⟨0, 0, 0⟩ : Vec3 K) + s • (⟨0, 0, 1⟩ : Vec3 K) = ⟨0, 0, s⟩ := by
  ext <;> simp

theorem dot_smul_left (k : K) (a b : Vec3 K) : dot (k • a) b = k * dot a b := by
  simp only [dot, Vec3.smul_x, Vec3.smul_y, Vec3.smul_z]; ring

theorem dot_smul_right (k : K) (a b : Vec3 K) : dot a (k • b) = k * dot a b := by
  simp only [dot, Vec3.smul_x, Vec3.smul_y, Vec3.smul_z]; ring

theorem cross_smul_right (k : K) (a b : Vec3 K) : cross a (k • b) = k • cross a b := by
  ext <;> simp only [cross, Vec3.smul_x, Vec3.smul_y, Vec3.smul_z] <;> ring

theorem dot_cross_left (a b : Vec3 K) : dot a (cross a b) = 0 := by
  simp only [dot, cross]; ring

theorem dot_cross_right (a b : Vec3 K) : dot b (cross a b) = 0 := by
  simp only [dot, cross]; ring

theorem dot_comm (a b : Vec3 K) : dot a b = dot b a := by
  simp only [dot]; ring

theorem dot_cross_cross (a b : Vec3 K) :
    dot (cross a b) (cross a b) = dot a a * dot b b - dot a b ^ 2 := by
  simp only [dot, cross]; ring

theorem dot_self_nonneg (a : Vec3 K) : 0 ≤ dot a a := by
  simp only [dot]; nlinarith [mul_self_nonneg a.x, mul_self_nonneg a.y, mul_self_nonneg a.z]

theorem dot_self_eq_zero (a : Vec3 K) : dot a a = 0 ↔ a = 0 := by
  constructor
  · intro h
    simp only [dot] at h
    have hx : a.x * a.x = 0 := by
      nlinarith [mul_self_nonneg a.x, mul_self_nonneg a.y, mul_self_nonneg a.z]
    have hy : a.y * a.y = 0 := by
      nlinarith [mul_self_nonneg a.x, mul_self_nonneg a.y, mul_self_nonneg a.z]
    have hz : a.z * a.z = 0 := by
      nlinarith [mul_self_nonneg a.x, mul_self_nonneg a.y, mul_self_nonneg a.z]
    ext
    · exact mul_self_eq_zero.mp hx
    · exact mul_self_eq_zero.mp hy
    · exact mul_self_eq_zero.mp hz
  · rintro rfl
    simp [dot]

theorem dot_self_pos (a : Vec3 K) (h : a ≠ 0) : 0 < dot a a :=
  lt_of_le_of_ne (dot_self_nonneg a) (fun h0 => h ((dot_self_eq_zero a).mp h0.symm))

theorem smul_zero_vec (k : K) : k • (0 : Vec3 K) = 0 := by
  ext <;> simp

theorem sub_ne_zero_vec (p q : Vec3 K) (h : q ≠ p) : q - p ≠ 0 := by
  intro h0
  apply h
  have hx := congrArg Vec3.x h0
  have hy := congrArg Vec3.y h0
  have hz := congrArg Vec3.z h0
  simp only [Vec3.sub_x, Vec3.sub_y, Vec3.sub_z, Vec3.zero_x, Vec3.zero_y, Vec3.zero_z] at hx hy hz
  ext
  · exact sub_eq_zero.mp hx
  · exact sub_eq_zero.mp hy
  · exact sub_eq_zero.mp hz


end VectorAlgebra

/-! ### The spline: `interpolate` and `get_point` -/

section Spline

variable {K : Type} [LinearOrderedField K]

theorem interpolate_x (A B C D : Vec3 K) (tau u : K) :
    (interpolate A B C D tau u).x =
      (-tau * u + 2 * tau * u ^ 2 - tau * u ^ 3) * A.x
        + (1 + (tau - 3) * u ^ 2 + (2 - tau) * u ^ 3) * B.x
        + (tau * u + (3 - 2 * tau) * u ^ 2 + (tau - 2) * u ^ 3) * C.x
        + (-tau * u ^ 2 + tau * u ^ 3) * D.x := by
  simp only [interpolate, mat4, Vec4.mulMat, Vec4.dot, Vec4.toVec3]
  ring

theorem interpolate_y (A B C D : Vec3 K) (tau u : K) :
    (interpolate A B C D tau u).y =
      (-tau * u + 2 * tau * u ^ 2 - tau * u ^ 3) * A.y
        + (1 + (tau - 3) * u ^ 2 + (2 - tau) * u ^ 3) * B.y
        + (tau * u + (3 - 2 * tau) * u ^ 2 + (tau - 2) * u ^ 3) * C.y
        + (-tau * u ^ 2 + tau * u ^ 3) * D.y := by
  simp only [interpolate, mat4, Vec4.mulMat, Vec4.dot, Vec4.toVec3]
  ring

theorem interpolate_z (A B C D : Vec3 K) (tau u : K) :
    (interpolate A B C D tau u).z =
      (-tau * u + 2 * tau * u ^ 2 - tau * u ^ 3) * A.z
        + (1 + (tau - 3) * u ^ 2 + (2 - tau) * u ^ 3) * B.z
        + (tau * u + (3 - 2 * tau) * u ^ 2 + (tau - 2) * u ^ 3) * C.z
        + (-tau * u ^ 2 + tau * u ^ 3) * D.z := by
  simp only [interpolate, mat4, Vec4.mulMat, Vec4.dot, Vec4.toVec3]
  ring

theorem interpolate_zero (A B C D : Vec3 K) (tau : K) : interpolate A B C D tau 0 = B := by
  ext <;> simp [interpolate_x, interpolate_y, interpolate_z]

theorem coord_interpolate (k : Fin 3) (A B C D : Vec3 K)
    (tau u : K) :
    coord k (interpolate A B C D tau u) =
      (-tau * u + 2 * tau * u ^ 2 - tau * u ^ 3) * coord k A
        + (1 + (tau - 3) * u ^ 2 + (2 - tau) * u ^ 3) * coord k B
        + (tau * u + (3 - 2 * tau) * u ^ 2 + (tau - 2) * u ^ 3) * coord k C
        + (-tau * u ^ 2 + tau * u ^ 3) * coord k D := by
  fin_cases k
  · exact interpolate_x A B C D tau u
  · exact interpolate_y A B C D tau u
  · exact interpolate_z A B C D tau u

theorem line6_collinear (k : Nat) (hk : k < (line6 : List (Vec3 K)).length) :
    (line6 : List (Vec3 K))[k] = (⟨0, 0, 0⟩ : Vec3 K) + (k : K) • (⟨0, 0, 1⟩ : Vec3 K) := by
  have hk6 : k < 6 := hk
  interval_cases k <;> ext <;> simp [line6]

theorem interpolate_blend_axes (A B C D : Vec3 K) (tau u : K) :
    (interpolate A B C D tau u).x = specBlend (specM tau).transpose u A.x B.x C.x D.x ∧
    (interpolate A B C D tau u).y = specBlend (specM tau).transpose u A.y B.y C.y D.y ∧
    (interpolate A B C D tau u).z = specBlend (specM tau).transpose u A.z B.z C.z D.z := by
  refine ⟨?_, ?_, ?_⟩
  · simp [specBlend, specM, Matrix.vecMul, Matrix.dotProduct, Fin.sum_univ_four,
      Matrix.vecHead, Matrix.vecTail, interpolate_x]
    ring
  · simp [specBlend, specM, Matrix.vecMul, Matrix.dotProduct, Fin.sum_univ_four,
      Matrix.vecHead, Matrix.vecTail, interpolate_y]
    ring
  · simp [specBlend, specM, Matrix.vecMul, Matrix.dotProduct, Fin.sum_univ_four,
      Matrix.vecHead, Matrix.vecTail, interpolate_z]
    ring

variable [FloorRing K]


theorem toInt_of_floor (s : K) (n : Nat) (h1 : (n : K) ≤ s) (h2 : s < (n : K) + 1) :
    toInt s = (n : Int) := by
  have h0 : (0 : K) ≤ s := le_trans (Nat.cast_nonneg n) h1
  simp only [toInt, h0, if_true]
  rw [Int.floor_eq_iff]
  exact ⟨by exact_mod_cast h1, by exact_mod_cast h2⟩

theorem toInt_ge (s : K) (m : Int) (h : (m : K) ≤ s) : m ≤ toInt s := by
  unfold toInt
  split_ifs with h0
  · exact Int.le_floor.mpr h
  · have : (m : K) ≤ ((⌈s⌉ : Int) : K) := le_trans h (Int.le_ceil s)
    exact_mod_cast this

theorem get_point_segment (cps : List (Vec3 K)) (s : K) (n : Nat)
    (h1 : (n : K) ≤ s) (h2 : s < (n : K) + 1) (hn : 1 ≤ n) (hN : n + 3 ≤ cps.length) :
    get_point cps s =
      .ok (interpolate cps[n - 1] cps[n] cps[n + 1] cps[n + 2] (1 / 2) (s - (n : K))) := by
  have hA : readPoint cps ((n : Int) - 1) = .ok cps[n - 1] := by
    have : ((n : Int) - 1) = ((n - 1 : Nat) : Int) := by omega
    rw [this]; exact readPoint_nat cps (n - 1) (by omega)
  have hB : readPoint cps (n : Int) = .ok cps[n] :=
    readPoint_nat cps n (by omega)
  have hC : readPoint cps ((n : Int) + 1) = .ok cps[n + 1] := by
    have : ((n : Int) + 1) = ((n + 1 : Nat) : Int) := by omega
    rw [this]; exact readPoint_nat cps (n + 1) (by omega)
  have hD : readPoint cps ((n : Int) + 2) = .ok cps[n + 2] := by
    have : ((n : Int) + 2) = ((n + 2 : Nat) : Int) := by omega
    rw [this]; exact readPoint_nat cps (n + 2) (by omega)
  simp only [get_point, toInt_of_floor s n h1 h2, hA, hB, hC, hD, Int.cast_natCast]

theorem floor_segment (s : K) (N : Nat) (h1 : 1 ≤ s) (h2 : s < (N : K) - 2) :
    ∃ n : Nat, (n : K) ≤ s ∧ s < (n : K) + 1 ∧ 1 ≤ n ∧ n + 3 ≤ N := by
  have h0 : (0 : K) ≤ s := le_trans zero_le_one h1
  refine ⟨⌊s⌋₊, Nat.floor_le h0, Nat.lt_floor_add_one s, ?_, ?_⟩
  · exact Nat.le_floor (by simpa using h1)
  · have h3 : ((⌊s⌋₊ : Nat) : K) < (N : K) - 2 := lt_of_le_of_lt (Nat.floor_le h0) h2
    have h4 : ((⌊s⌋₊ + 2 : Nat) : K) < (N : K) := by push_cast; linarith
    have h5 : ⌊s⌋₊ + 2 < N := by exact_mod_cast h4
    omega

theorem get_point_on_line (cps : List (Vec3 K)) (a d : Vec3 K)
    (hline : ∀ (k : Nat) (hk : k < cps.length), cps[k] = a + (k : K) • d)
    (s : K) (h1 : 1 ≤ s) (h2 : s < (cps.length : K) - 2) :
    get_point cps s = .ok (a + s • d) := by
  obtain ⟨n, hn1, hn2, hn3, hn4⟩ := floor_segment s cps.length h1 h2
  rw [get_point_segment cps s n hn1 hn2 hn3 hn4, hline, hline, hline, hline]
  have hc : ((n - 1 : Nat) : K) = (n : K) - 1 := by
    rw [Nat.cast_sub hn3]; simp
  congr 1
  ext <;> simp only [interpolate_x, interpolate_y, interpolate_z, Vec3.add_x, Vec3.add_y,
    Vec3.add_z, Vec3.smul_x, Vec3.smul_y, Vec3.smul_z, hc] <;> push_cast <;> ring

theorem pointAt_segment (cps : List (Vec3 K))
    (s : K) (n : Nat) (h1 : (n : K) ≤ s) (h2 : s < (n : K) + 1) (hn : 1 ≤ n)
    (hN : n + 3 ≤ cps.length) :
    pointAt cps s = interpolate (cps.getD (n - 1) 0) (cps.getD n 0) (cps.getD (n + 1) 0)
      (cps.getD (n + 2) 0) (1 / 2) (s - (n : K)) := by
  rw [pointAt, get_point_segment cps s n h1 h2 hn hN]
  simp only [List.getD_eq_getElem _ _ (show n - 1 < cps.length by omega),
    List.getD_eq_getElem _ _ (show n < cps.length by omega),
    List.getD_eq_getElem _ _ (show n + 1 < cps.length by omega),
    List.getD_eq_getElem _ _ (show n + 2 < cps.length by omega)]


/-- Claim C1 (interpolation identity): for every control-point list of length `N` and every
integer `i` with `1 ≤ i` and `i + 3 ≤ N` (that is `i ≤ N - 3`), `get_point` at the integer
`i` returns exactly `controlPoints[i]`; and the blend weights of `interpolate` at `u = 0`
are `(0, 1, 0, 0)`, for every `tau`. -/
theorem get_point_interpolation_identity (cps : List (Vec3 K)) (i : Nat) (h1 : 1 ≤ i)
    (h2 : i + 3 ≤ cps.length) :
    get_point cps (i : K) = .ok cps[i] ∧
      ∀ (A B C D : Vec3 K) (tau : K),
        (interpolate A B C D tau 0).x = 0 * A.x + 1 * B.x + 0 * C.x + 0 * D.x ∧
        (interpolate A B C D tau 0).y = 0 * A.y + 1 * B.y + 0 * C.y + 0 * D.y ∧
        (interpolate A B C D tau 0).z = 0 * A.z + 1 * B.z + 0 * C.z + 0 * D.z := by
  constructor
  · rw [get_point_segment cps (i : K) i le_rfl (by linarith) h1 h2]
    simp [interpolate_zero]
  · intro A B C D tau
    simp [interpolate_zero]

theorem get_point_interpolation_identity_witness :
    get_point (line6 : List (Vec3 ℚ)) (3 : ℚ) = .ok ⟨0, 0, 3⟩ := by
  have h := (get_point_interpolation_identity (line6 : List (Vec3 ℚ)) 3 (by decide)
    (by decide)).1
  simpa [line6] using h


/-- Claim C2 (straight lines are a fixed point of the spline): when the control points are
equally spaced on a line, `controlPoints[k] = a + k • d` for every index `k`, then
`get_point s = a + s • d` for every real `s` with `1 ≤ s < N - 2`. -/
theorem get_point_straight_line (cps : List (Vec3 K)) (a d : Vec3 K)
    (hline : ∀ (k : Nat) (hk : k < cps.length), cps[k] = a + (k : K) • d)
    (s : K) (h1 : 1 ≤ s) (h2 : s < (cps.length : K) - 2) :
    get_point cps s = .ok (a + s • d) :=
  get_point_on_line cps a d hline s h1 h2

theorem get_point_straight_line_witness :
    get_point (line6 : List (Vec3 ℚ)) (5 / 2 : ℚ) = .ok ⟨0, 0, 5 / 2⟩ ∧
      get_point (line6 : List (Vec3 ℚ)) (2 : ℚ) = .ok ⟨0, 0, 2⟩ := by
  have ha := get_point_straight_line (line6 : List (Vec3 ℚ)) ⟨0, 0, 0⟩ ⟨0, 0, 1⟩
    line6_collinear (5 / 2) (by norm_num) (by norm_num [line6])
  have hb := get_point_straight_line (line6 : List (Vec3 ℚ)) ⟨0, 0, 0⟩ ⟨0, 0, 1⟩
    line6_collinear 2 (by norm_num) (by norm_num [line6])
  refine ⟨ha.trans ?_, hb.trans ?_⟩ <;> congr 1 <;> ext <;> simp


/-- Claim C3, counterexample: with the blend matrix read row by row as the specification
prints it, `[1, u, u², u³] · M · [A; B; C; D]` at `tau = 1/2`, `u = 0`, `B.x = 1` and all
other coordinates `0` is `-1/2`, while `interpolate` returns `B.x = 1`. -/
theorem interpolate_not_rows_as_written :
    (interpolate ⟨0, 0, 0⟩ ⟨1, 0, 0⟩ ⟨0, 0, 0⟩ ⟨0, 0, 0⟩ (1 / 2 : ℚ) 0).x = 1 ∧
      specBlend (specM (1 / 2 : ℚ)) 0 0 1 0 0 = -1 / 2 ∧
      (interpolate ⟨0, 0, 0⟩ ⟨1, 0, 0⟩ ⟨0, 0, 0⟩ ⟨0, 0, 0⟩ (1 / 2 : ℚ) 0).x ≠
        specBlend (specM (1 / 2 : ℚ)) 0 0 1 0 0 := by
  have h1 : (interpolate ⟨0, 0, 0⟩ ⟨1, 0, 0⟩ ⟨0, 0, 0⟩ ⟨0, 0, 0⟩ (1 / 2 : ℚ) 0).x = 1 := by
    simp [interpolate_x]
  have h2 : specBlend (specM (1 / 2 : ℚ)) 0 0 1 0 0 = -1 / 2 := by
    simp [specBlend, specM, Matrix.vecMul, Matrix.dotProduct, Fin.sum_univ_four,
      Matrix.vecHead, Matrix.vecTail]
    norm_num
  refine ⟨h1, h2, ?_⟩
  rw [h1, h2]; norm_num


/-- Claim C3, amended: on each axis `interpolate A B C D tau u` is
`[1, u, u², u³] · Mᵀ · [A; B; C; D]`, where `M` is the matrix as printed: the printed lines
are the columns of the matrix that the row vector multiplies (glm fills a `mat4` column by
column).  And `get_point` uses it with `tau = 1/2`: for every `s` in a segment `[n, n + 1)`
with `1 ≤ n ≤ N - 3` it has `(int)s = n` and returns
`interpolate(controlPoints[n-1], controlPoints[n], controlPoints[n+1], controlPoints[n+2],
1/2, s - n)`, which on each axis is `[1, u, u², u³] · Mᵀ` at `tau = 1/2`, `u = s - n`, applied
to the coordinates of those four control points. -/
theorem interpolate_blend_matrix (A B C D : Vec3 K) (tau u : K) :
    (interpolate A B C D tau u).x = specBlend (specM tau).transpose u A.x B.x C.x D.x ∧
    (interpolate A B C D tau u).y = specBlend (specM tau).transpose u A.y B.y C.y D.y ∧
    (interpolate A B C D tau u).z = specBlend (specM tau).transpose u A.z B.z C.z D.z ∧
    ∀ (cps : List (Vec3 K)) (s : K) (n : Nat) (_ : (n : K) ≤ s) (_ : s < (n : K) + 1)
      (_ : 1 ≤ n) (_ : n + 3 ≤ cps.length),
      toInt s = (n : Int) ∧
      get_point cps s
        = .ok (interpolate cps[n - 1] cps[n] cps[n + 1] cps[n + 2] (1 / 2) (s - (n : K))) ∧
      ∃ P : Vec3 K, get_point cps s = .ok P ∧
        P.x = specBlend (specM (1 / 2)).transpose (s - (n : K))
          cps[n - 1].x cps[n].x cps[n + 1].x cps[n + 2].x ∧
        P.y = specBlend (specM (1 / 2)).transpose (s - (n : K))
          cps[n - 1].y cps[n].y cps[n + 1].y cps[n + 2].y ∧
        P.z = specBlend (specM (1 / 2)).transpose (s - (n : K))
          cps[n - 1].z cps[n].z cps[n + 1].z cps[n + 2].z := by
  obtain ⟨hx, hy, hz⟩ := interpolate_blend_axes A B C D tau u
  refine ⟨hx, hy, hz, ?_⟩
  intro cps s n h1 h2 hn hN
  have hg := get_point_segment cps s n h1 h2 hn hN
  exact ⟨toInt_of_floor s n h1 h2, hg, _, hg, interpolate_blend_axes _ _ _ _ _ _⟩

theorem interpolate_blend_matrix_witness :
    get_point (line6 : List (Vec3 ℚ)) (5 / 2 : ℚ)
        = .ok (interpolate ⟨0, 0, 1⟩ ⟨0, 0, 2⟩ ⟨0, 0, 3⟩ ⟨0, 0, 4⟩ (1 / 2) (1 / 2)) ∧
      (interpolate ⟨0, 0, 1⟩ ⟨0, 0, 2⟩ ⟨0, 0, 3⟩ ⟨0, 0, 4⟩ (1 / 2 : ℚ) (1 / 2)).z
        = specBlend (specM (1 / 2 : ℚ)).transpose (1 / 2) 1 2 3 4 := by
  have h := (interpolate_blend_matrix (⟨0, 0, 1⟩ : Vec3 ℚ) ⟨0, 0, 2⟩ ⟨0, 0, 3⟩ ⟨0, 0, 4⟩
    (1 / 2) (1 / 2))
  refine ⟨?_, h.2.2.1⟩
  have h2 := (h.2.2.2 (line6 : List (Vec3 ℚ)) (5 / 2) 2 (by norm_num) (by norm_num)
    (by decide) (by decide)).2.1
  rw [h2]
  norm_num [line6]

end Spline

/-! ### Smoothness at segment boundaries -/

section Smooth

theorem quotPoly_continuous (a b c d : ℝ) : Continuous (quotPoly a b c d) := by
  unfold quotPoly
  fun_prop

theorem quotPoly_zero (a b c d : ℝ) : quotPoly a b c d 0 = 1 / 2 * (c - a) := by
  unfold quotPoly; ring

theorem get_point_C1_core (cps : List (Vec3 ℝ)) (j : Nat) (hN : j + 5 ≤ cps.length)
    (k : Fin 3) :
    ContinuousAt (fun s => coord k (pointAt cps s)) ((j + 2 : Nat) : ℝ) ∧
      Filter.Tendsto
        (fun h => (coord k (pointAt cps ((j + 2 : Nat) : ℝ))
          - coord k (pointAt cps (((j + 2 : Nat) : ℝ) - h))) / h)
        (nhdsWithin 0 (Set.Ioi 0))
        (nhds (1 / 2 * (coord k (cps.getD (j + 3) 0) - coord k (cps.getD (j + 1) 0)))) ∧
      Filter.Tendsto
        (fun h => (coord k (pointAt cps (((j + 2 : Nat) : ℝ) + h))
          - coord k (pointAt cps ((j + 2 : Nat) : ℝ))) / h)
        (nhdsWithin 0 (Set.Ioi 0))
        (nhds (1 / 2 * (coord k (cps.getD (j + 3) 0) - coord k (cps.getD (j + 1) 0)))) := by
  have hj : (((j + 2 : Nat) : ℝ)) = (j : ℝ) + 2 := by push_cast; ring
  have hj1 : (((j + 1 : Nat) : ℝ)) = (j : ℝ) + 1 := by push_cast; ring
  set a0 := coord k (cps.getD j 0) with ha0
  set a1 := coord k (cps.getD (j + 1) 0) with ha1
  set a2 := coord k (cps.getD (j + 2) 0) with ha2
  set a3 := coord k (cps.getD (j + 3) 0) with ha3
  set a4 := coord k (cps.getD (j + 4) 0) with ha4
  -- the two segments meeting at the boundary
  have hL : ∀ s : ℝ, (j : ℝ) + 1 ≤ s → s < (j : ℝ) + 2 →
      coord k (pointAt cps s) =
        coord k (interpolate (cps.getD j 0) (cps.getD (j + 1) 0) (cps.getD (j + 2) 0)
          (cps.getD (j + 3) 0) (1 / 2) (s - ((j : ℝ) + 1))) := by
    intro s h1 h2
    rw [pointAt_segment cps s (j + 1) (by rw [hj1]; exact h1) (by rw [hj1]; linarith)
      (by omega) (by omega), hj1]
    rfl
  have hR : ∀ s : ℝ, (j : ℝ) + 2 ≤ s → s < (j : ℝ) + 3 →
      coord k (pointAt cps s) =
        coord k (interpolate (cps.getD (j + 1) 0) (cps.getD (j + 2) 0) (cps.getD (j + 3) 0)
          (cps.getD (j + 4) 0) (1 / 2) (s - ((j : ℝ) + 2))) := by
    intro s h1 h2
    rw [pointAt_segment cps s (j + 2) (by rw [hj]; exact h1) (by rw [hj]; linarith)
      (by omega) (by omega), hj]
    rfl
  have hmid : coord k (pointAt cps ((j : ℝ) + 2)) = a2 := by
    rw [hR _ le_rfl (by linarith), coord_interpolate]
    simp only [sub_self]
    ring
  rw [hj]
  refine ⟨?_, ?_, ?_⟩
  · -- continuity at the boundary
    rw [continuousAt_iff_continuous_left_right]
    constructor
    · have hc : ContinuousWithinAt (fun s : ℝ =>
          coord k (interpolate (cps.getD j 0) (cps.getD (j + 1) 0) (cps.getD (j + 2) 0)
            (cps.getD (j + 3) 0) (1 / 2) (s - ((j : ℝ) + 1)))) (Set.Iic ((j : ℝ) + 2))
            ((j : ℝ) + 2) := by
        simp only [coord_interpolate]
        exact Continuous.continuousWithinAt (by fun_prop)
      refine hc.congr_of_eventuallyEq ?_ ?_
      · have hmem : Set.Ioc ((j : ℝ) + 1) ((j : ℝ) + 2) ∈ nhdsWithin ((j : ℝ) + 2)
            (Set.Iic ((j : ℝ) + 2)) := Ioc_mem_nhdsWithin_Iic (by constructor <;> linarith)
        filter_upwards [hmem] with s hs
        rcases lt_or_eq_of_le hs.2 with h | h
        · exact hL s (le_of_lt hs.1) h
        · rw [h, hmid, coord_interpolate]
          simp only [← ha0, ← ha1, ← ha2, ← ha3]
          ring
      · show coord k (pointAt cps ((j : ℝ) + 2)) = _
        rw [hmid, coord_interpolate]
        simp only [← ha0, ← ha1, ← ha2, ← ha3]
        ring
    · have hc : ContinuousWithinAt (fun s : ℝ =>
          coord k (interpolate (cps.getD (j + 1) 0) (cps.getD (j + 2) 0) (cps.getD (j + 3) 0)
            (cps.getD (j + 4) 0) (1 / 2) (s - ((j : ℝ) + 2)))) (Set.Ici ((j : ℝ) + 2))
            ((j : ℝ) + 2) := by
        simp only [coord_interpolate]
        exact Continuous.continuousWithinAt (by fun_prop)
      refine hc.congr_of_eventuallyEq ?_ ?_
      · have hmem : Set.Ico ((j : ℝ) + 2) ((j : ℝ) + 3) ∈ nhdsWithin ((j : ℝ) + 2)
            (Set.Ici ((j : ℝ) + 2)) := Ico_mem_nhdsWithin_Ici (by constructor <;> linarith)
        filter_upwards [hmem] with s hs
        exact hR s hs.1 hs.2
      · exact hR _ le_rfl (by linarith)
  · -- backward difference
    have ht : Filter.Tendsto (fun h => -quotPoly a3 a2 a1 a0 h) (nhdsWithin 0 (Set.Ioi 0))
        (nhds (-quotPoly a3 a2 a1 a0 0)) :=
      ((quotPoly_continuous a3 a2 a1 a0).neg.tendsto 0).mono_left nhdsWithin_le_nhds
    have e0 : -quotPoly a3 a2 a1 a0 0 = 1 / 2 * (a3 - a1) := by rw [quotPoly_zero]; ring
    rw [e0] at ht
    refine ht.congr' ?_
    have hmem : Set.Ioo (0 : ℝ) 1 ∈ nhdsWithin (0 : ℝ) (Set.Ioi 0) :=
      Ioo_mem_nhdsWithin_Ioi (by constructor <;> norm_num)
    filter_upwards [hmem] with h hh
    have hne : h ≠ 0 := hh.1.ne'
    rw [hmid, hL _ (by linarith [hh.2]) (by linarith [hh.1]), coord_interpolate]
    simp only [← ha0, ← ha1, ← ha2, ← ha3, quotPoly]
    field_simp
    ring
  · -- forward difference
    have ht : Filter.Tendsto (fun h => quotPoly a1 a2 a3 a4 h) (nhdsWithin 0 (Set.Ioi 0))
        (nhds (quotPoly a1 a2 a3 a4 0)) :=
      ((quotPoly_continuous a1 a2 a3 a4).tendsto 0).mono_left nhdsWithin_le_nhds
    rw [quotPoly_zero] at ht
    refine ht.congr' ?_
    have hmem : Set.Ioo (0 : ℝ) 1 ∈ nhdsWithin (0 : ℝ) (Set.Ioi 0) :=
      Ioo_mem_nhdsWithin_Ioi (by constructor <;> norm_num)
    filter_upwards [hmem] with h hh
    have hne : h ≠ 0 := hh.1.ne'
    rw [hmid, hR _ (by linarith [hh.1]) (by linarith [hh.2]), coord_interpolate]
    simp only [← ha1, ← ha2, ← ha3, ← ha4, quotPoly]
    field_simp
    ring


/-- Claim C4 (C¹ continuity at segment boundaries): for every control-point list and every
integer boundary `i` with `2 ≤ i` and `i + 3 ≤ N`, on each axis `k`: `get_point` returns a
point on all of `[i - 1, i + 1)`, it is continuous at `s = i`, the backward difference
quotient `(get_point i - get_point (i - h)) / h` and the forward one
`(get_point (i + h) - get_point i) / h` both tend to `1/2 * (P[i+1] - P[i-1])` as `h → 0+`,
and hence for every `ε > 0` they differ by less than `ε` for all small enough `h > 0`. -/
theorem get_point_C1_at_boundary (cps : List (Vec3 ℝ)) (i : Nat) (h2 : 2 ≤ i)
    (hN : i + 3 ≤ cps.length) (k : Fin 3) :
    (∀ s : ℝ, (i : ℝ) - 1 ≤ s → s < (i : ℝ) + 1 → ∃ p, get_point cps s = .ok p) ∧
      ContinuousAt (fun s => coord k (pointAt cps s)) (i : ℝ) ∧
      Filter.Tendsto
        (fun h => (coord k (pointAt cps (i : ℝ)) - coord k (pointAt cps ((i : ℝ) - h))) / h)
        (nhdsWithin 0 (Set.Ioi 0))
        (nhds (1 / 2 * (coord k cps[i + 1] - coord k cps[i - 1]))) ∧
      Filter.Tendsto
        (fun h => (coord k (pointAt cps ((i : ℝ) + h)) - coord k (pointAt cps (i : ℝ))) / h)
        (nhdsWithin 0 (Set.Ioi 0))
        (nhds (1 / 2 * (coord k cps[i + 1] - coord k cps[i - 1]))) ∧
      ∀ ε > 0, ∃ δ > 0, ∀ h : ℝ, 0 < h → h < δ →
        |(coord k (pointAt cps ((i : ℝ) + h)) - coord k (pointAt cps (i : ℝ))) / h
          - (coord k (pointAt cps (i : ℝ)) - coord k (pointAt cps ((i : ℝ) - h))) / h| < ε := by
  obtain ⟨j, rfl⟩ : ∃ j, i = j + 2 := ⟨i - 2, by omega⟩
  obtain ⟨hc, hb, hf⟩ := get_point_C1_core cps j (by omega) k
  have e3 : cps.getD (j + 3) 0 = cps[j + 2 + 1] :=
    List.getD_eq_getElem _ _ (show j + 3 < cps.length by omega)
  have e1 : cps.getD (j + 1) 0 = cps[j + 2 - 1] :=
    List.getD_eq_getElem _ _ (show j + 1 < cps.length by omega)
  rw [e3, e1] at hb hf
  refine ⟨?_, hc, hb, hf, ?_⟩
  · intro s hs1 hs2
    have hi : (((j + 2 : Nat)) : ℝ) = (j : ℝ) + 2 := by push_cast; ring
    have hj0 : (0 : ℝ) ≤ (j : ℝ) := Nat.cast_nonneg j
    have hlen : ((j + 2 + 3 : Nat) : ℝ) ≤ (cps.length : ℝ) := by exact_mod_cast hN
    push_cast at hlen
    obtain ⟨n, hn1, hn2, hn3, hn4⟩ := floor_segment s cps.length (by linarith) (by linarith)
    exact ⟨_, get_point_segment cps s n hn1 hn2 hn3 hn4⟩
  · intro ε hε
    have hsub := hf.sub hb
    rw [sub_self] at hsub
    rw [Metric.tendsto_nhdsWithin_nhds] at hsub
    obtain ⟨δ, hδ, hd⟩ := hsub ε hε
    refine ⟨δ, hδ, fun h h0 hlt => ?_⟩
    have := hd (show h ∈ Set.Ioi (0 : ℝ) from h0)
      (by rw [Real.dist_eq, sub_zero, abs_of_pos h0]; exact hlt)
    rwa [Real.dist_eq, sub_zero] at this

theorem get_point_C1_at_boundary_witness :
    Filter.Tendsto
        (fun h : ℝ => (coord 2 (pointAt (line6 : List (Vec3 ℝ)) (((2 : Nat) : ℝ) + h))
          - coord 2 (pointAt (line6 : List (Vec3 ℝ)) ((2 : Nat) : ℝ))) / h)
        (nhdsWithin 0 (Set.Ioi 0)) (nhds 1) ∧
      Filter.Tendsto
        (fun h : ℝ => (coord 2 (pointAt (line6 : List (Vec3 ℝ)) ((2 : Nat) : ℝ))
          - coord 2 (pointAt (line6 : List (Vec3 ℝ)) (((2 : Nat) : ℝ) - h))) / h)
        (nhdsWithin 0 (Set.Ioi 0)) (nhds 1) := by
  have h := get_point_C1_at_boundary (line6 : List (Vec3 ℝ)) 2 le_rfl (by simp [line6]) 2
  have e : (1 / 2 : ℝ) * (coord 2 (line6 : List (Vec3 ℝ))[2 + 1]
      - coord 2 (line6 : List (Vec3 ℝ))[2 - 1]) = 1 := by
    simp [line6, coord]; norm_num
  rw [e] at h
  exact ⟨h.2.2.2.1, h.2.2.1⟩

end Smooth

/-! ### The frames of `create_track` -/

section Frames

variable {K : Type} [LinearOrderedField K]

theorem railStep_spec (sqrt : K → K) (cps : List (Vec3 K)) (i : Nat) (u : K)
    (cur p c : Orientation K) (h : railStep sqrt cps i u cur = .ok (p, c)) :
    p = cur ∧
      (∃ a ∈ cps, ∃ b ∈ cps, ∃ c3 ∈ cps, ∃ d ∈ cps,
        readPoint cps (i : Int) = .ok a ∧ readPoint cps ((i : Int) + 1) = .ok b ∧
        readPoint cps ((i : Int) + 2) = .ok c3 ∧ readPoint cps ((i : Int) + 3) = .ok d ∧
        c.position = interpolate a b c3 d (1 / 2) u) ∧
      c.Front = normalize sqrt (c.position - cur.position) ∧
      c.Right = normalize sqrt (cross cur.Up c.Front) ∧
      c.Up = normalize sqrt (cross c.Front c.Right) := by
  simp only [railStep] at h
  split at h
  · rename_i a b c3 d ha hb hc hd
    injection h with h
    injection h with h1 h2
    subst h1 h2
    exact ⟨rfl, ⟨a, readPoint_mem _ _ _ ha, b, readPoint_mem _ _ _ hb, c3,
      readPoint_mem _ _ _ hc, d, readPoint_mem _ _ _ hd, ha, hb, hc, hd, rfl⟩, rfl, rfl, rfl⟩
  · cases h

theorem railStep_total (sqrt : K → K) (cps : List (Vec3 K)) (i : Nat) (u : K)
    (cur : Orientation K) (hi : i + 3 < cps.length) :
    ∃ c, railStep sqrt cps i u cur = .ok (cur, c) := by
  have hA := readPoint_nat cps i (by omega)
  have hB : readPoint cps ((i : Int) + 1) = .ok cps[i + 1] := by
    have : ((i : Int) + 1) = ((i + 1 : Nat) : Int) := by omega
    rw [this]; exact readPoint_nat cps (i + 1) (by omega)
  have hC : readPoint cps ((i : Int) + 2) = .ok cps[i + 2] := by
    have : ((i : Int) + 2) = ((i + 2 : Nat) : Int) := by omega
    rw [this]; exact readPoint_nat cps (i + 2) (by omega)
  have hD : readPoint cps ((i : Int) + 3) = .ok cps[i + 3] := by
    have : ((i : Int) + 3) = ((i + 3 : Nat) : Int) := by omega
    rw [this]; exact readPoint_nat cps (i + 3) (by omega)
  simp only [railStep, hA, hB, hC, hD]
  exact ⟨_, rfl⟩

theorem uLoop_total (sqrt : K → K) (cps : List (Vec3 K)) (i : Nat) (hi : i + 3 < cps.length) :
    ∀ (n : Nat) (u : K) (cur : Orientation K) (acc : List (Orientation K × Orientation K)),
      1 ≤ u + (n : K) / 20 → ∃ r, uLoop sqrt cps i (n + 1) u cur acc = .ok r := by
  intro n
  induction n with
  | zero =>
    intro u cur acc h
    have : ¬ u < 1 := by simpa using h
    exact ⟨(cur, acc), by simp [uLoop, this]⟩
  | succ n ih =>
    intro u cur acc h
    by_cases hu : u < 1
    · obtain ⟨c, hc⟩ := railStep_total sqrt cps i u cur hi
      obtain ⟨r, hr⟩ := ih (u + 1 / 20) c (acc ++ [(cur, c)]) (by push_cast at h; linarith)
      exact ⟨r, by rw [uLoop, if_pos hu, hc]; exact hr⟩
    · exact ⟨(cur, acc), by rw [uLoop, if_neg hu]⟩

theorem iLoop_total (sqrt : K → K) (cps : List (Vec3 K)) :
    ∀ (todo i : Nat) (cur : Orientation K) (acc : List (Orientation K × Orientation K)),
      i + todo + 3 ≤ cps.length → ∃ r, iLoop sqrt cps todo i cur acc = .ok r := by
  intro todo
  induction todo with
  | zero => intro i cur acc _; exact ⟨(cur, acc), rfl⟩
  | succ n ih =>
    intro i cur acc h
    obtain ⟨⟨c2, acc2⟩, hr⟩ := uLoop_total sqrt cps i (by omega) 20 0 cur acc (by norm_num)
    obtain ⟨r, hr2⟩ := ih (i + 1) c2 acc2 (by omega)
    exact ⟨r, by rw [iLoop, hr]; exact hr2⟩

theorem uLoop_invariant (sqrt : K → K) (cps : List (Vec3 K)) (i : Nat)
    (Inv : K → Orientation K → List (Orientation K × Orientation K) → Prop)
    (hstep : ∀ u cur acc c, u < 1 → Inv u cur acc →
      railStep sqrt cps i u cur = .ok (cur, c) → Inv (u + 1 / 20) c (acc ++ [(cur, c)])) :
    ∀ (fuel : Nat) (u : K) (cur : Orientation K) (acc : List (Orientation K × Orientation K))
      (cur2 : Orientation K) (acc2 : List (Orientation K × Orientation K)),
      Inv u cur acc → uLoop sqrt cps i fuel u cur acc = .ok (cur2, acc2) →
      ∃ u2, ¬ u2 < 1 ∧ Inv u2 cur2 acc2 := by
  intro fuel
  induction fuel with
  | zero => intro u cur acc cur2 acc2 _ h; simp [uLoop] at h
  | succ n ih =>
    intro u cur acc cur2 acc2 hI h
    rw [uLoop] at h
    split_ifs at h with hu
    · cases hr : railStep sqrt cps i u cur with
      | error e => rw [hr] at h; cases h
      | ok pc =>
        obtain ⟨p, c⟩ := pc
        rw [hr] at h
        have hp : p = cur := (railStep_spec sqrt cps i u cur p c hr).1
        subst hp
        exact ih _ _ _ _ _ (hstep u p acc c hu hI hr) h
    · injection h with h
      injection h with h1 h2
      subst h1 h2
      exact ⟨u, hu, hI⟩

theorem iLoop_invariant (sqrt : K → K) (cps : List (Vec3 K))
    (J : Nat → Orientation K → List (Orientation K × Orientation K) → Prop)
    (hseg : ∀ i cur acc cur2 acc2, J i cur acc →
      uLoop sqrt cps i 21 0 cur acc = .ok (cur2, acc2) → J (i + 1) cur2 acc2) :
    ∀ (todo i : Nat) (cur : Orientation K) (acc : List (Orientation K × Orientation K))
      (cur2 : Orientation K) (acc2 : List (Orientation K × Orientation K)),
      J i cur acc → iLoop sqrt cps todo i cur acc = .ok (cur2, acc2) →
      J (i + todo) cur2 acc2 := by
  intro todo
  induction todo with
  | zero =>
    intro i cur acc cur2 acc2 hJ h
    rw [iLoop] at h
    injection h with h
    injection h with h1 h2
    subst h1 h2
    exact hJ
  | succ n ih =>
    intro i cur acc cur2 acc2 hJ h
    rw [iLoop] at h
    cases hr : uLoop sqrt cps i 21 0 cur acc with
    | error e => rw [hr] at h; cases h
    | ok r =>
      obtain ⟨c3, acc3⟩ := r
      rw [hr] at h
      have := ih (i + 1) c3 acc3 cur2 acc2 (hseg i cur acc c3 acc3 hJ hr) h
      rwa [show i + (n + 1) = i + 1 + n by omega]

theorem create_track_eq (sqrt : K → K) (cps : List (Vec3 K)) (hN : 4 ≤ cps.length) :
    ∃ cur2 frames,
      iLoop sqrt cps (cps.length - 4) 1 (seedFrame cps[1]) [] = .ok (cur2, frames) ∧
        create_track sqrt cps = .ok frames := by
  obtain ⟨⟨cur2, frames⟩, hr⟩ :=
    iLoop_total sqrt cps (cps.length - 4) 1 (seedFrame cps[1]) [] (by omega)
  refine ⟨cur2, frames, hr, ?_⟩
  have h1 : readPoint cps 1 = .ok cps[1] := readPoint_nat cps 1 (by omega)
  have h2 : sizeMinus3 cps.length - 1 = cps.length - 4 := by
    rw [sizeMinus3, if_pos (by omega)]; omega
  simp only [create_track, h1, h2]
  simp only [seedFrame] at hr
  rw [hr]


end Frames

section RealFrames

theorem length_eq_one_iff (a : Vec3 ℝ) : length Real.sqrt a = 1 ↔ dot a a = 1 := by
  unfold length
  exact Real.sqrt_eq_one

theorem normalize_dot_self (a : Vec3 ℝ) (h : a ≠ 0) :
    dot (normalize Real.sqrt a) (normalize Real.sqrt a) = 1 := by
  have hp := dot_self_pos a h
  have hs : Real.sqrt (dot a a) ^ 2 = dot a a := Real.sq_sqrt (le_of_lt hp)
  have hs0 : Real.sqrt (dot a a) ≠ 0 := (Real.sqrt_pos.mpr hp).ne'
  rw [normalize, dot_smul_left, dot_smul_right]
  generalize Real.sqrt (dot a a) = s at hs hs0
  rw [← hs]
  field_simp
  ring

theorem normalize_ne_zero (a : Vec3 ℝ) (h : a ≠ 0) : normalize Real.sqrt a ≠ 0 := by
  intro h0
  have := normalize_dot_self a h
  rw [h0] at this
  simp [dot] at this

theorem normalize_of_unit (a : Vec3 ℝ) (h : dot a a = 1) : normalize Real.sqrt a = a := by
  rw [normalize, h, Real.sqrt_one]
  ext <;> simp

theorem cross_normalize_ne_zero (up d : Vec3 ℝ) (hd : d ≠ 0) (h : cross up d ≠ 0) :
    cross up (normalize Real.sqrt d) ≠ 0 := by
  have hp := dot_self_pos d hd
  have hs0 : 0 < Real.sqrt (dot d d) := Real.sqrt_pos.mpr hp
  rw [normalize, cross_smul_right]
  intro h0
  have h1 := dot_self_pos _ h
  have h2 : dot ((1 / Real.sqrt (dot d d)) • cross up d)
      ((1 / Real.sqrt (dot d d)) • cross up d) = 0 := by rw [h0]; simp [dot]
  rw [dot_smul_left, dot_smul_right] at h2
  have h3 : 0 < 1 / Real.sqrt (dot d d) := by positivity
  have : 0 < 1 / Real.sqrt (dot d d) * (1 / Real.sqrt (dot d d) * dot (cross up d) (cross up d)) :=
    by positivity
  linarith

/-- One propagation step from a previous `Up` and position to a new position gives an
orthonormal frame when the step is not degenerate. -/
theorem propagate_orthonormal (up p q : Vec3 ℝ) (h1 : q ≠ p) (h2 : cross up (q - p) ≠ 0) :
    Orthonormal Real.sqrt
      ⟨normalize Real.sqrt (q - p),
       normalize Real.sqrt (cross (normalize Real.sqrt (q - p))
         (normalize Real.sqrt (cross up (normalize Real.sqrt (q - p))))),
       normalize Real.sqrt (cross up (normalize Real.sqrt (q - p))), q⟩ := by
  have hd := sub_ne_zero_vec p q h1
  generalize hF : normalize Real.sqrt (q - p) = F
  have hFF : dot F F = 1 := by rw [← hF]; exact normalize_dot_self _ hd
  have hc : cross up F ≠ 0 := by rw [← hF]; exact cross_normalize_ne_zero up _ hd h2
  generalize hR : normalize Real.sqrt (cross up F) = R
  have hRR : dot R R = 1 := by rw [← hR]; exact normalize_dot_self _ hc
  have hFR : dot F R = 0 := by
    rw [← hR, normalize, dot_smul_right, dot_cross_right]; simp
  have hcc : dot (cross F R) (cross F R) = 1 := by
    rw [dot_cross_cross, hFF, hRR, hFR]; norm_num
  rw [normalize_of_unit _ hcc]
  refine ⟨?_, ?_, ?_, ?_, ?_, ?_⟩
  · exact (length_eq_one_iff _).mpr hFF
  · exact (length_eq_one_iff _).mpr hcc
  · exact (length_eq_one_iff _).mpr hRR
  · exact dot_cross_left F R
  · exact hFR
  · rw [dot_comm]; exact dot_cross_right F R

theorem seedFrame_orthonormal (p1 : Vec3 ℝ) : Orthonormal Real.sqrt (seedFrame p1) := by
  refine ⟨?_, ?_, ?_, ?_, ?_, ?_⟩ <;> simp [seedFrame, length, dot]

theorem railStep_orthonormal (cps : List (Vec3 ℝ)) (i : Nat) (u : ℝ) (cur c : Orientation ℝ)
    (h : railStep Real.sqrt cps i u cur = .ok (cur, c)) (hnd : NonDegenerate (cur, c)) :
    Orthonormal Real.sqrt c := by
  obtain ⟨-, -, hF, hR, hU⟩ := railStep_spec Real.sqrt cps i u cur cur c h
  have := propagate_orthonormal cur.Up cur.position c.position hnd.1 hnd.2
  rw [← hF, ← hR, ← hU] at this
  exact this

theorem normalize_z (t : ℝ) (ht : 0 < t) : normalize Real.sqrt ⟨0, 0, t⟩ = ⟨0, 0, 1⟩ := by
  have h : dot (⟨0, 0, t⟩ : Vec3 ℝ) ⟨0, 0, t⟩ = t ^ 2 := by simp [dot]; ring
  rw [normalize, h, Real.sqrt_sq (le_of_lt ht)]
  ext <;> simp
  exact inv_mul_cancel₀ ht.ne'

theorem propagate_along_z (p q : Vec3 ℝ) (hx : q.x = p.x) (hy : q.y = p.y) (hz : p.z < q.z) :
    normalize Real.sqrt (q - p) = ⟨0, 0, 1⟩ ∧
      normalize Real.sqrt (cross ⟨0, 1, 0⟩ (⟨0, 0, 1⟩ : Vec3 ℝ)) = ⟨1, 0, 0⟩ ∧
      normalize Real.sqrt (cross ⟨0, 0, 1⟩ (⟨1, 0, 0⟩ : Vec3 ℝ)) = ⟨0, 1, 0⟩ := by
  refine ⟨?_, ?_, ?_⟩
  · have : q - p = ⟨0, 0, q.z - p.z⟩ := by ext <;> simp [hx, hy]
    rw [this]; exact normalize_z _ (by linarith)
  · have e : cross ⟨0, 1, 0⟩ (⟨0, 0, 1⟩ : Vec3 ℝ) = ⟨1, 0, 0⟩ := by ext <;> simp [cross]
    rw [e]; exact normalize_of_unit _ (by simp [dot])
  · have e : cross ⟨0, 0, 1⟩ (⟨1, 0, 0⟩ : Vec3 ℝ) = ⟨0, 1, 0⟩ := by ext <;> simp [cross]
    rw [e]; exact normalize_of_unit _ (by simp [dot])

/-- On a track whose control points are `(0,0,k)` every step of `create_track` moves along
`+Z` with `Up = (0,1,0)`, so no step is degenerate. -/
theorem line_frames_nondegenerate (cps : List (Vec3 ℝ)) (hN : 5 ≤ cps.length)
    (hline : ∀ (k : Nat) (hk : k < cps.length),
      cps[k] = (⟨0, 0, 0⟩ : Vec3 ℝ) + (k : ℝ) • (⟨0, 0, 1⟩ : Vec3 ℝ))
    (frames : List (Orientation ℝ × Orientation ℝ))
    (hct : create_track Real.sqrt cps = .ok frames) :
    frames ≠ [] ∧ ∀ pc ∈ frames, NonDegenerate pc := by
  obtain ⟨cur2, frames2, hloop, hct2⟩ := create_track_eq Real.sqrt cps (by omega)
  rw [hct] at hct2
  injection hct2 with hct2
  subst hct2
  let Inv : Nat → ℝ → Orientation ℝ → List (Orientation ℝ × Orientation ℝ) → Prop :=
    fun i u cur acc =>
      cur.Up = ⟨0, 1, 0⟩ ∧ cur.position.x = 0 ∧ cur.position.y = 0 ∧
        cur.position.z < (i : ℝ) + 1 + u ∧ cur.position.z < (i : ℝ) + 2 ∧
        (∀ pc ∈ acc, NonDegenerate pc) ∧ (acc ≠ [] ∨ u ≤ 0)
  let J : Nat → Orientation ℝ → List (Orientation ℝ × Orientation ℝ) → Prop :=
    fun i cur acc =>
      cur.Up = ⟨0, 1, 0⟩ ∧ cur.position.x = 0 ∧ cur.position.y = 0 ∧
        cur.position.z < (i : ℝ) + 1 ∧
        (∀ pc ∈ acc, NonDegenerate pc) ∧ (acc ≠ [] ∨ i ≤ 1)
  have hstep : ∀ (i : Nat) (u : ℝ) (cur : Orientation ℝ)
      (acc : List (Orientation ℝ × Orientation ℝ)) (c : Orientation ℝ), u < 1 →
      Inv i u cur acc → railStep Real.sqrt cps i u cur = .ok (cur, c) →
      Inv i (u + 1 / 20) c (acc ++ [(cur, c)]) := by
    intro i u cur acc c hu ⟨hUp, hx, hy, hz, _, hnd, _⟩ hr
    obtain ⟨-, ⟨a, -, b, -, c3, -, d, -, ha, hb, hc, hd, hpos⟩, hF, hR, hU⟩ :=
      railStep_spec Real.sqrt cps i u cur cur c hr
    have e1 : ((i : Int) + 1) = ((i + 1 : Nat) : Int) := by omega
    have e2 : ((i : Int) + 2) = ((i + 2 : Nat) : Int) := by omega
    have e3 : ((i : Int) + 3) = ((i + 3 : Nat) : Int) := by omega
    rw [e1] at hb; rw [e2] at hc; rw [e3] at hd
    obtain ⟨_, rfl⟩ := readPoint_ok_lt cps _ a ha
    obtain ⟨_, rfl⟩ := readPoint_ok_lt cps _ b hb
    obtain ⟨_, rfl⟩ := readPoint_ok_lt cps _ c3 hc
    obtain ⟨_, rfl⟩ := readPoint_ok_lt cps _ d hd
    have hp : c.position = ⟨0, 0, (i : ℝ) + 1 + u⟩ := by
      rw [hpos, hline, hline, hline, hline]
      ext <;> simp only [interpolate_x, interpolate_y, interpolate_z, Vec3.add_x, Vec3.add_y,
        Vec3.add_z, Vec3.smul_x, Vec3.smul_y, Vec3.smul_z] <;> push_cast <;> ring
    have hpx : c.position.x = cur.position.x := by rw [hp, hx]
    have hpy : c.position.y = cur.position.y := by rw [hp, hy]
    have hpz : cur.position.z < c.position.z := by rw [hp]; exact hz
    obtain ⟨q1, q2, q3⟩ := propagate_along_z cur.position c.position hpx hpy hpz
    rw [q1] at hF
    rw [hF, hUp, q2] at hR
    rw [hF, hR, q3] at hU
    refine ⟨hU, by rw [hp], by rw [hp], by rw [hp]; simp, by rw [hp]; simp; linarith,
      ?_, Or.inl (by simp)⟩
    intro pc hpc
    rcases List.mem_append.mp hpc with h | h
    · exact hnd pc h
    · rw [List.mem_singleton] at h
      subst h
      refine ⟨fun h0 => ?_, fun h0 => ?_⟩
      · have := congrArg Vec3.z h0
        simp only at this
        linarith
      · have := congrArg Vec3.x h0
        simp only [cross, hUp, Vec3.sub_z, Vec3.sub_y, Vec3.zero_x] at this
        linarith
  have hseg : ∀ (i : Nat) (cur : Orientation ℝ) (acc : List (Orientation ℝ × Orientation ℝ))
      (cur3 : Orientation ℝ) (acc3 : List (Orientation ℝ × Orientation ℝ)),
      J i cur acc → uLoop Real.sqrt cps i 21 0 cur acc = .ok (cur3, acc3) →
      J (i + 1) cur3 acc3 := by
    intro i cur acc cur3 acc3 ⟨hUp, hx, hy, hz, hnd, _⟩ hu
    obtain ⟨u2, hu2, k1, k2, k3, _, k5, k6, k7⟩ :=
      uLoop_invariant Real.sqrt cps i (Inv i) (hstep i) 21 0 cur acc cur3 acc3
        ⟨hUp, hx, hy, by linarith, by linarith, hnd, Or.inr le_rfl⟩ hu
    refine ⟨k1, k2, k3, by push_cast; linarith, k6, Or.inl ?_⟩
    rcases k7 with h | h
    · exact h
    · exact absurd (lt_of_le_of_lt h zero_lt_one) hu2
  have hseed : J 1 (seedFrame cps[1]) [] := by
    refine ⟨rfl, ?_, ?_, ?_, by simp, Or.inr le_rfl⟩
    · simp [seedFrame, hline]
    · simp [seedFrame, hline]
    · simp [seedFrame, hline]
  have hfin := iLoop_invariant Real.sqrt cps J hseg (cps.length - 4) 1
    (seedFrame cps[1]) [] cur2 frames hseed hloop
  obtain ⟨-, -, -, -, hnd, hne⟩ := hfin
  refine ⟨?_, hnd⟩
  rcases hne with h | h
  · exact h
  · omega

/-- On a track whose control points all lie on the `Y` axis every frame that
`create_track` emits has `Right = 0`. -/
theorem yaxis_frames_right_zero (sqrt : ℝ → ℝ) (cps : List (Vec3 ℝ)) (hN : 5 ≤ cps.length)
    (haxis : ∀ p ∈ cps, p.x = 0 ∧ p.z = 0)
    (frames : List (Orientation ℝ × Orientation ℝ))
    (hct : create_track sqrt cps = .ok frames) :
    frames ≠ [] ∧ ∀ pc ∈ frames, pc.2.Right = 0 := by
  obtain ⟨cur2, frames2, hloop, hct2⟩ := create_track_eq sqrt cps (by omega)
  rw [hct] at hct2
  injection hct2 with hct2
  subst hct2
  let Inv : ℝ → Orientation ℝ → List (Orientation ℝ × Orientation ℝ) → Prop :=
    fun u cur acc =>
      cur.Up.x = 0 ∧ cur.Up.z = 0 ∧ cur.position.x = 0 ∧ cur.position.z = 0 ∧
        (∀ pc ∈ acc, pc.2.Right = 0) ∧ (acc ≠ [] ∨ u ≤ 0)
  let J : Nat → Orientation ℝ → List (Orientation ℝ × Orientation ℝ) → Prop :=
    fun i cur acc =>
      cur.Up.x = 0 ∧ cur.Up.z = 0 ∧ cur.position.x = 0 ∧ cur.position.z = 0 ∧
        (∀ pc ∈ acc, pc.2.Right = 0) ∧ (acc ≠ [] ∨ i ≤ 1)
  have hstep : ∀ (i : Nat) (u : ℝ) (cur : Orientation ℝ)
      (acc : List (Orientation ℝ × Orientation ℝ)) (c : Orientation ℝ), u < 1 →
      Inv u cur acc → railStep sqrt cps i u cur = .ok (cur, c) →
      Inv (u + 1 / 20) c (acc ++ [(cur, c)]) := by
    intro i u cur acc c hu ⟨hUx, hUz, hx, hz, hr0, _⟩ hr
    obtain ⟨-, ⟨a, ha, b, hb, c3, hc, d, hd, -, -, -, -, hpos⟩, hF, hR, hU⟩ :=
      railStep_spec sqrt cps i u cur cur c hr
    have hpx : c.position.x = 0 := by
      rw [hpos, interpolate_x, (haxis a ha).1, (haxis b hb).1, (haxis c3 hc).1, (haxis d hd).1]
      ring
    have hpz : c.position.z = 0 := by
      rw [hpos, interpolate_z, (haxis a ha).2, (haxis b hb).2, (haxis c3 hc).2, (haxis d hd).2]
      ring
    have hFx : c.Front.x = 0 := by
      rw [hF]; simp [normalize, hpx, hx]
    have hFz : c.Front.z = 0 := by
      rw [hF]; simp [normalize, hpz, hz]
    have hcr : cross cur.Up c.Front = 0 := by
      ext <;> simp [cross, hFx, hFz, hUx, hUz]
    have hR0 : c.Right = 0 := by
      rw [hR, hcr, normalize]; exact smul_zero_vec _
    have hU0 : c.Up = 0 := by
      rw [hU, hR0]
      have : cross c.Front (0 : Vec3 ℝ) = 0 := by ext <;> simp [cross]
      rw [this, normalize]; exact smul_zero_vec _
    refine ⟨by rw [hU0]; rfl, by rw [hU0]; rfl, hpx, hpz, ?_, Or.inl (by simp)⟩
    intro pc hpc
    rcases List.mem_append.mp hpc with h | h
    · exact hr0 pc h
    · rw [List.mem_singleton] at h
      subst h
      exact hR0
  have hseg : ∀ (i : Nat) (cur : Orientation ℝ) (acc : List (Orientation ℝ × Orientation ℝ))
      (cur3 : Orientation ℝ) (acc3 : List (Orientation ℝ × Orientation ℝ)),
      J i cur acc → uLoop sqrt cps i 21 0 cur acc = .ok (cur3, acc3) →
      J (i + 1) cur3 acc3 := by
    intro i cur acc cur3 acc3 ⟨h1, h2, h3, h4, h5, _⟩ hu
    obtain ⟨u2, hu2, k1, k2, k3, k4, k5, k6⟩ :=
      uLoop_invariant sqrt cps i Inv (hstep i) 21 0 cur acc cur3 acc3
        ⟨h1, h2, h3, h4, h5, Or.inr le_rfl⟩ hu
    refine ⟨k1, k2, k3, k4, k5, Or.inl ?_⟩
    rcases k6 with h | h
    · exact h
    · exact absurd (lt_of_le_of_lt h zero_lt_one) hu2
  have hp1 := haxis cps[1] (List.getElem_mem _)
  have hseed : J 1 (seedFrame cps[1]) [] :=
    ⟨rfl, rfl, hp1.1, hp1.2, by simp, Or.inr le_rfl⟩
  have hfin := iLoop_invariant sqrt cps J hseg (cps.length - 4) 1
    (seedFrame cps[1]) [] cur2 frames hseed hloop
  obtain ⟨-, -, -, -, hr0, hne⟩ := hfin
  refine ⟨?_, hr0⟩
  rcases hne with h | h
  · exact h
  · omega

/-- Claim C5, counterexample: on the five control points `(0,k,0)`, `k = 0..4`, which climb
straight up, `create_track` returns a non-empty list of frame pairs and in every emitted
`Current_p` the vector `Right` has length `0` (it is `normalize` of the zero vector, NaN in
C++), so no emitted frame is orthonormal. -/
theorem create_track_vertical_not_orthonormal :
    ∃ frames : List (Orientation ℝ × Orientation ℝ),
      create_track Real.sqrt (vertical5 : List (Vec3 ℝ)) = .ok frames ∧ frames ≠ [] ∧
        ∀ pc ∈ frames, length Real.sqrt pc.2.Right = 0 ∧ ¬ Orthonormal Real.sqrt pc.2 := by
  obtain ⟨_, frames, _, hct⟩ :=
    create_track_eq Real.sqrt (vertical5 : List (Vec3 ℝ)) (by simp [vertical5])
  have haxis : ∀ p ∈ (vertical5 : List (Vec3 ℝ)), p.x = 0 ∧ p.z = 0 := by
    intro p hp
    simp only [vertical5, List.mem_cons, List.mem_singleton, List.not_mem_nil, or_false] at hp
    rcases hp with rfl | rfl | rfl | rfl | rfl <;> exact ⟨rfl, rfl⟩
  obtain ⟨hne, hr0⟩ := yaxis_frames_right_zero Real.sqrt (vertical5 : List (Vec3 ℝ))
    (by simp [vertical5]) haxis frames hct
  refine ⟨frames, hct, hne, fun pc hpc => ?_⟩
  have hl : length Real.sqrt pc.2.Right = 0 := by
    rw [hr0 pc hpc]; simp [length, dot]
  refine ⟨hl, fun ho => ?_⟩
  have := ho.2.2.1
  rw [hl] at this
  exact zero_ne_one this


/-- Claim C5, amended: for every control-point list with `N ≥ 4` points `create_track`
returns its list of frame pairs, and if no step is degenerate (at every step the new position
differs from the previous one and the previous `Up` is not parallel to the displacement) then
every frame passed to `makeRailPart`, `Prev_P` and `Current_p` alike, has `Front`, `Up`,
`Right` of length one and pairwise orthogonal. -/
theorem create_track_frames_orthonormal (cps : List (Vec3 ℝ)) (hN : 4 ≤ cps.length) :
    ∃ frames : List (Orientation ℝ × Orientation ℝ),
      create_track Real.sqrt cps = .ok frames ∧
        ((∀ pc ∈ frames, NonDegenerate pc) →
          ∀ pc ∈ frames, Orthonormal Real.sqrt pc.1 ∧ Orthonormal Real.sqrt pc.2) := by
  obtain ⟨cur2, frames, hloop, hct⟩ := create_track_eq Real.sqrt cps hN
  refine ⟨frames, hct, ?_⟩
  let G : Orientation ℝ → List (Orientation ℝ × Orientation ℝ) → Prop := fun cur acc =>
    (∀ pc ∈ acc, NonDegenerate pc) →
      (Orthonormal Real.sqrt cur ∧
        ∀ pc ∈ acc, Orthonormal Real.sqrt pc.1 ∧ Orthonormal Real.sqrt pc.2)
  have hstep : ∀ (i : Nat) (u : ℝ) (cur : Orientation ℝ)
      (acc : List (Orientation ℝ × Orientation ℝ)) (c : Orientation ℝ), u < 1 → G cur acc →
      railStep Real.sqrt cps i u cur = .ok (cur, c) → G c (acc ++ [(cur, c)]) := by
    intro i u cur acc c _ hG hr hall
    have hacc : ∀ pc ∈ acc, NonDegenerate pc := fun pc hpc =>
      hall pc (List.mem_append_left _ hpc)
    have hlast : NonDegenerate (cur, c) := hall _ (by simp)
    obtain ⟨hcur, hprev⟩ := hG hacc
    have hc := railStep_orthonormal cps i u cur c hr hlast
    refine ⟨hc, fun pc hpc => ?_⟩
    rcases List.mem_append.mp hpc with h | h
    · exact hprev pc h
    · rw [List.mem_singleton] at h
      subst h
      exact ⟨hcur, hc⟩
  have hseg : ∀ (i : Nat) (cur : Orientation ℝ) (acc : List (Orientation ℝ × Orientation ℝ))
      (cur3 : Orientation ℝ) (acc3 : List (Orientation ℝ × Orientation ℝ)),
      G cur acc → uLoop Real.sqrt cps i 21 0 cur acc = .ok (cur3, acc3) → G cur3 acc3 := by
    intro i cur acc cur3 acc3 hG hu
    obtain ⟨_, _, h⟩ := uLoop_invariant Real.sqrt cps i (fun _ => G) (hstep i) 21 0 cur acc
      cur3 acc3 hG hu
    exact h
  have hfin := iLoop_invariant Real.sqrt cps (fun _ => G) hseg (cps.length - 4) 1
    (seedFrame cps[1]) [] cur2 frames (fun _ => ⟨seedFrame_orthonormal _, by simp⟩) hloop
  exact fun hall => (hfin hall).2



theorem create_track_frames_orthonormal_witness :
    ∃ frames : List (Orientation ℝ × Orientation ℝ),
      create_track Real.sqrt (line6 : List (Vec3 ℝ)) = .ok frames ∧ frames ≠ [] ∧
        (∀ pc ∈ frames, NonDegenerate pc) ∧
        ∀ pc ∈ frames, Orthonormal Real.sqrt pc.1 ∧ Orthonormal Real.sqrt pc.2 := by
  obtain ⟨frames, hct, himp⟩ :=
    create_track_frames_orthonormal (line6 : List (Vec3 ℝ)) (by simp [line6])
  obtain ⟨hne, hnd⟩ := line_frames_nondegenerate (line6 : List (Vec3 ℝ)) (by simp [line6])
    line6_collinear frames hct
  exact ⟨frames, hct, hne, hnd, himp hnd⟩

end RealFrames

/-! ### The rider: `ProcessTrackMovement` -/

section Rider

variable {K : Type} [LinearOrderedField K] [FloorRing K]

theorem get_point_fault_high (cps : List (Vec3 K)) (s : K)
    (h : (cps.length : Int) ≤ toInt s + 2) : get_point cps s = .error .outOfRange := by
  have hD := readPoint_fault_of_le cps _ h
  simp only [get_point]
  split
  · rename_i h1 h2 h3 h4
    rw [hD] at h4
    cases h4
  · rfl

theorem microStep_wrap (sqrt : K → K) (cps : List (Vec3 K)) (c : Camera K) (D : K)
    (h : c.currentpos > (cps.length : K)) :
    microStep sqrt cps c D = .ok (wrapToStart c, D) := by
  simp [microStep, h]

theorem microStep_ok (sqrt : K → K) (cps : List (Vec3 K)) (c : Camera K) (D : K) (P : Vec3 K)
    (h : ¬ c.currentpos > (cps.length : K))
    (hP : get_point cps (c.currentpos + 1 / 1000) = .ok P) :
    ∃ c2 : Camera K,
      microStep sqrt cps c D = .ok (c2, D - get_distance sqrt c.Position P) ∧
        c2.currentpos = c.currentpos + 1 / 1000 ∧ c2.Position = P ∧
        c2.onTrack = c.onTrack := by
  simp only [microStep, if_neg h, hP]
  exact ⟨_, rfl, rfl, rfl, rfl⟩

theorem microStep_fault (sqrt : K → K) (cps : List (Vec3 K)) (c : Camera K) (D : K) (e : Fault)
    (h : ¬ c.currentpos > (cps.length : K))
    (hP : get_point cps (c.currentpos + 1 / 1000) = .error e) :
    microStep sqrt cps c D = .error e := by
  simp only [microStep, if_neg h, hP]

theorem microStep_cases (sqrt : K → K) (cps : List (Vec3 K)) (c c2 : Camera K) (D D2 : K)
    (h : microStep sqrt cps c D = .ok (c2, D2)) :
    (c.currentpos > (cps.length : K) ∧ c2 = wrapToStart c ∧ D2 = D) ∨
      (¬ c.currentpos > (cps.length : K) ∧ c2.currentpos = c.currentpos + 1 / 1000 ∧
        get_point cps (c.currentpos + 1 / 1000) = .ok c2.Position ∧
        D2 = D - get_distance sqrt c.Position c2.Position ∧ c2.onTrack = c.onTrack) := by
  by_cases hw : c.currentpos > (cps.length : K)
  · rw [microStep_wrap sqrt cps c D hw] at h
    injection h with h
    injection h with h1 h2
    exact Or.inl ⟨hw, h1.symm, h2.symm⟩
  · right
    cases hP : get_point cps (c.currentpos + 1 / 1000) with
    | error e => rw [microStep_fault sqrt cps c D e hw hP] at h; cases h
    | ok P =>
      obtain ⟨c3, h3, h4, h5, h6⟩ := microStep_ok sqrt cps c D P hw hP
      rw [h3] at h
      injection h with h
      injection h with h1 h2
      subst h1
      exact ⟨hw, h4, by rw [h5], by rw [h5, ← h2], h6⟩

theorem whileD_currentpos_ge (sqrt : K → K) (cps : List (Vec3 K)) :
    ∀ (fuel : Nat) (c c2 : Camera K) (D D2 : K),
      whileD sqrt cps fuel c D = .ok (c2, D2) → 1 ≤ c.currentpos → 1 ≤ c2.currentpos := by
  intro fuel
  induction fuel with
  | zero =>
    intro c c2 D D2 h hc
    simp only [whileD] at h
    split_ifs at h
    injection h with h
    injection h with h1 h2
    rw [← h1]; exact hc
  | succ n ih =>
    intro c c2 D D2 h hc
    simp only [whileD] at h
    split_ifs at h with hD
    · cases hm : microStep sqrt cps c D with
      | error e => rw [hm] at h; cases h
      | ok r =>
        obtain ⟨c3, D3⟩ := r
        rw [hm] at h
        refine ih c3 c2 D3 D2 h ?_
        rcases microStep_cases sqrt cps c c3 D D3 hm with ⟨_, h2, _⟩ | ⟨_, h2, _⟩
        · rw [h2]; simp [wrapToStart]
        · rw [h2]; linarith
    · injection h with h
      injection h with h1 h2
      rw [← h1]; exact hc

theorem ProcessTrackMovement_range (sqrt : K → K) (fuel : Nat) (dt : K) (cps : List (Vec3 K))
    (hN : 4 ≤ cps.length) (c c2 : Camera K)
    (h : ProcessTrackMovement sqrt fuel dt cps c = .ok c2)
    (hc : 1 ≤ c.currentpos ∧ c.currentpos ≤ (cps.length : K) - 3) :
    1 ≤ c2.currentpos ∧ c2.currentpos ≤ (cps.length : K) - 3 := by
  have hs : ((sizeMinus3 cps.length : Nat) : K) = (cps.length : K) - 3 := by
    have h3 : 3 ≤ cps.length := by omega
    rw [sizeMinus3, if_pos h3, Nat.cast_sub h3]; simp
  have h4 : (4 : K) ≤ (cps.length : K) := by exact_mod_cast hN
  simp only [ProcessTrackMovement] at h
  split_ifs at h with hon
  · injection h with h
    rw [← h]; exact hc
  · cases hw : whileD sqrt cps fuel
        { c with prevUp := c.Up, prevFront := c.Front, prevRight := c.Right,
                 prevPosition := c.Position }
        (1 / 2 * sqrt (2 * gravity * (heightMax - c.Position.y)) * dt) with
    | error e => rw [hw] at h; cases h
    | ok r =>
      obtain ⟨c3, D3⟩ := r
      rw [hw] at h
      have h1 := whileD_currentpos_ge sqrt cps fuel _ c3 _ D3 hw hc.1
      simp only at h
      split_ifs at h with hgt
      · injection h with h
        rw [← h]
        simp only [wrapToStart]
        constructor <;> linarith
      · injection h with h
        rw [← h]
        rw [hs] at hgt
        exact ⟨h1, not_lt.mp hgt⟩

theorem get_point_unchecked_of_ok (oob : Int → Vec3 K) (cps : List (Vec3 K)) (s : K)
    (P : Vec3 K) (h : get_point cps s = .ok P) : get_point_unchecked oob cps s = P := by
  simp only [get_point] at h
  split at h
  · rename_i a b c d ha hb hc hd
    injection h with h
    simp only [get_point_unchecked, readPoint_unchecked_of_ok oob cps _ _ ha,
      readPoint_unchecked_of_ok oob cps _ _ hb, readPoint_unchecked_of_ok oob cps _ _ hc,
      readPoint_unchecked_of_ok oob cps _ _ hd]
    exact h
  · cases h

theorem microStep_unchecked_of_ok (oob : Int → Vec3 K) (sqrt : K → K) (cps : List (Vec3 K))
    (c c2 : Camera K) (D D2 : K) (h : microStep sqrt cps c D = .ok (c2, D2)) :
    microStep_unchecked oob sqrt cps c D = (c2, D2) := by
  simp only [microStep] at h
  simp only [microStep_unchecked]
  split_ifs at h ⊢ with hw
  · injection h with h
  · cases hg : get_point cps (c.currentpos + 1 / 1000) with
    | error e => rw [hg] at h; cases h
    | ok P =>
      rw [hg] at h
      injection h with h
      rw [get_point_unchecked_of_ok oob cps _ P hg]
      exact h

theorem whileD_unchecked_of_ok (oob : Int → Vec3 K) (sqrt : K → K) (cps : List (Vec3 K)) :
    ∀ (fuel : Nat) (c c2 : Camera K) (D D2 : K),
      whileD sqrt cps fuel c D = .ok (c2, D2) →
      whileD_unchecked oob sqrt cps fuel c D = .ok (c2, D2) := by
  intro fuel
  induction fuel with
  | zero =>
    intro c c2 D D2 h
    simp only [whileD] at h
    simp only [whileD_unchecked]
    exact h
  | succ n ih =>
    intro c c2 D D2 h
    simp only [whileD] at h
    simp only [whileD_unchecked]
    split_ifs at h ⊢ with hD
    · cases hm : microStep sqrt cps c D with
      | error e => rw [hm] at h; cases h
      | ok r =>
        obtain ⟨c3, D3⟩ := r
        rw [hm] at h
        rw [microStep_unchecked_of_ok oob sqrt cps c c3 D D3 hm]
        exact ih c3 c2 D3 D2 h
    · exact h

theorem ProcessTrackMovement_unchecked_of_ok (oob : Int → Vec3 K) (sqrt : K → K)
    (fuel : Nat) (dt : K) (cps : List (Vec3 K)) (c c2 : Camera K)
    (h : ProcessTrackMovement sqrt fuel dt cps c = .ok c2) :
    ProcessTrackMovement_unchecked oob sqrt fuel dt cps c = .ok c2 := by
  simp only [ProcessTrackMovement] at h
  simp only [ProcessTrackMovement_unchecked]
  split_ifs at h ⊢ with hon
  · exact h
  · cases hw : whileD sqrt cps fuel
        { c with prevUp := c.Up, prevFront := c.Front, prevRight := c.Right,
                 prevPosition := c.Position }
        (1 / 2 * sqrt (2 * gravity * (heightMax - c.Position.y)) * dt) with
    | error e => rw [hw] at h; cases h
    | ok r =>
      obtain ⟨c3, D3⟩ := r
      rw [hw] at h
      rw [whileD_unchecked_of_ok oob sqrt cps fuel _ c3 _ D3 hw]
      exact h

theorem runTicks_unchecked_of_ok (oob : Int → Vec3 K) (sqrt : K → K)
    (fuel : Nat) (dt : K) (cps : List (Vec3 K)) :
    ∀ (T : Nat) (c c2 : Camera K), runTicks sqrt fuel dt cps T c = .ok c2 →
      runTicks_unchecked oob sqrt fuel dt cps T c = .ok c2 := by
  intro T
  induction T with
  | zero =>
    intro c c2 h
    simpa only [runTicks, runTicks_unchecked] using h
  | succ n ih =>
    intro c c2 h
    simp only [runTicks] at h
    simp only [runTicks_unchecked]
    cases hp : ProcessTrackMovement sqrt fuel dt cps c with
    | error e => rw [hp] at h; cases h
    | ok c1 =>
      rw [hp] at h
      rw [ProcessTrackMovement_unchecked_of_ok oob sqrt fuel dt cps c c1 hp]
      exact ih c1 c2 h

theorem microStep_unchecked_currentpos (oob : Int → Vec3 K) (sqrt : K → K)
    (cps : List (Vec3 K)) (c : Camera K) (D : K) :
    (c.currentpos > (cps.length : K) →
      microStep_unchecked oob sqrt cps c D = (wrapToStart c, D)) ∧
    (¬ c.currentpos > (cps.length : K) →
      (microStep_unchecked oob sqrt cps c D).1.currentpos = c.currentpos + 1 / 1000) := by
  constructor
  · intro h
    simp only [microStep_unchecked, if_pos h]
  · intro h
    simp only [microStep_unchecked, if_neg h]

theorem whileD_unchecked_currentpos_ge (oob : Int → Vec3 K) (sqrt : K → K)
    (cps : List (Vec3 K)) :
    ∀ (fuel : Nat) (c c2 : Camera K) (D D2 : K),
      whileD_unchecked oob sqrt cps fuel c D = .ok (c2, D2) → 1 ≤ c.currentpos →
      1 ≤ c2.currentpos := by
  intro fuel
  induction fuel with
  | zero =>
    intro c c2 D D2 h hc
    simp only [whileD_unchecked] at h
    split_ifs at h
    injection h with h
    injection h with h1 h2
    rw [← h1]; exact hc
  | succ n ih =>
    intro c c2 D D2 h hc
    simp only [whileD_unchecked] at h
    split_ifs at h with hD
    · refine ih _ c2 _ D2 h ?_
      by_cases hw : c.currentpos > (cps.length : K)
      · rw [(microStep_unchecked_currentpos oob sqrt cps c D).1 hw]
        simp [wrapToStart]
      · rw [(microStep_unchecked_currentpos oob sqrt cps c D).2 hw]
        linarith
    · injection h with h
      injection h with h1 h2
      rw [← h1]; exact hc

theorem ProcessTrackMovement_unchecked_range (oob : Int → Vec3 K) (sqrt : K → K)
    (fuel : Nat) (dt : K) (cps : List (Vec3 K))
    (hN : 4 ≤ cps.length) (c c2 : Camera K)
    (h : ProcessTrackMovement_unchecked oob sqrt fuel dt cps c = .ok c2)
    (hc : 1 ≤ c.currentpos ∧ c.currentpos ≤ (cps.length : K) - 3) :
    1 ≤ c2.currentpos ∧ c2.currentpos ≤ (cps.length : K) - 3 := by
  have hs : ((sizeMinus3 cps.length : Nat) : K) = (cps.length : K) - 3 := by
    have h3 : 3 ≤ cps.length := by omega
    rw [sizeMinus3, if_pos h3, Nat.cast_sub h3]; simp
  have h4 : (4 : K) ≤ (cps.length : K) := by exact_mod_cast hN
  simp only [ProcessTrackMovement_unchecked] at h
  split_ifs at h with hon
  · injection h with h
    rw [← h]; exact hc
  · cases hw : whileD_unchecked oob sqrt cps fuel
        { c with prevUp := c.Up, prevFront := c.Front, prevRight := c.Right,
                 prevPosition := c.Position }
        (1 / 2 * sqrt (2 * gravity * (heightMax - c.Position.y)) * dt) with
    | error e => rw [hw] at h; cases h
    | ok r =>
      obtain ⟨c3, D3⟩ := r
      rw [hw] at h
      have h1 := whileD_unchecked_currentpos_ge oob sqrt cps fuel _ c3 _ D3 hw hc.1
      simp only at h
      split_ifs at h with hgt
      · injection h with h
        rw [← h]
        simp only [wrapToStart]
        constructor <;> linarith
      · injection h with h
        rw [← h]
        rw [hs] at hgt
        exact ⟨h1, not_lt.mp hgt⟩

theorem runTicks_unchecked_range (oob : Int → Vec3 K) (sqrt : K → K)
    (fuel : Nat) (dt : K) (cps : List (Vec3 K)) (hN : 4 ≤ cps.length) :
    ∀ (T : Nat) (c0 c : Camera K),
      runTicks_unchecked oob sqrt fuel dt cps T c0 = .ok c →
      (1 ≤ c0.currentpos ∧ c0.currentpos ≤ (cps.length : K) - 3) →
      1 ≤ c.currentpos ∧ c.currentpos ≤ (cps.length : K) - 3 := by
  intro T
  induction T with
  | zero =>
    intro c0 c h hc
    simp only [runTicks_unchecked] at h
    injection h with h
    rw [← h]; exact hc
  | succ n ih =>
    intro c0 c h hc
    simp only [runTicks_unchecked] at h
    cases hp : ProcessTrackMovement_unchecked oob sqrt fuel dt cps c0 with
    | error e => rw [hp] at h; cases h
    | ok c1 =>
      rw [hp] at h
      exact ih c1 c h (ProcessTrackMovement_unchecked_range oob sqrt fuel dt cps hN c0 c1 hp hc)

/-- Claim C6 (wraparound range invariant): for every track with `N ≥ 4` control points, every
elapsed time `dt` and every number `T` of ticks, a camera that starts with `currentpos = 1`
(whatever its `onTrack` flag) has `1 ≤ currentpos ≤ N - 3`, hence `≤ N - 2`, after the `T`
ticks of `ProcessTrackMovement`.  This holds for the run with unchecked reads, in which a
read outside the control points yields an arbitrary value `oob j` and the tick goes on, for
every such `oob`; and a run of the checked model that returns is such a run, with the same
final camera.  A run returns when the loop of each tick stops within the fuel. -/
theorem currentpos_range_after_ticks (sqrt : K → K) (oob : Int → Vec3 K) (fuel : Nat)
    (dt : K) (cps : List (Vec3 K)) (hN : 4 ≤ cps.length) (T : Nat) (c0 : Camera K)
    (h0 : c0.currentpos = 1) :
    (∀ c, runTicks_unchecked oob sqrt fuel dt cps T c0 = .ok c →
      1 ≤ c.currentpos ∧ c.currentpos ≤ (cps.length : K) - 3 ∧
        c.currentpos ≤ (cps.length : K) - 2) ∧
    (∀ c, runTicks sqrt fuel dt cps T c0 = .ok c →
      runTicks_unchecked oob sqrt fuel dt cps T c0 = .ok c ∧
      1 ≤ c.currentpos ∧ c.currentpos ≤ (cps.length : K) - 3 ∧
        c.currentpos ≤ (cps.length : K) - 2) := by
  have h4 : (4 : K) ≤ (cps.length : K) := by exact_mod_cast hN
  have key : ∀ c, runTicks_unchecked oob sqrt fuel dt cps T c0 = .ok c →
      1 ≤ c.currentpos ∧ c.currentpos ≤ (cps.length : K) - 3 ∧
        c.currentpos ≤ (cps.length : K) - 2 := by
    intro c hrun
    have := runTicks_unchecked_range oob sqrt fuel dt cps hN T c0 c hrun
      ⟨by rw [h0], by rw [h0]; linarith⟩
    exact ⟨this.1, this.2, by linarith⟩
  refine ⟨key, fun c hrun => ?_⟩
  have hu := runTicks_unchecked_of_ok oob sqrt fuel dt cps T c0 c hrun
  exact ⟨hu, key c hu⟩

end Rider

section RealRider

theorem get_distance_z (a b : ℝ) :
    get_distance Real.sqrt ⟨0, 0, a⟩ ⟨0, 0, b⟩ = |a - b| := by
  simp [get_distance, Real.sqrt_sq_eq_abs]

theorem ground_speed_bounds :
    8 < 1 / 2 * Real.sqrt (2 * gravity * (heightMax - 0)) ∧
      1 / 2 * Real.sqrt (2 * gravity * (heightMax - 0)) < 9 := by
  have e : (2 * gravity * (heightMax - 0) : ℝ) = 27468 / 100 := by
    norm_num [gravity, heightMax]
  rw [e]
  have h1 : (16 : ℝ) < Real.sqrt (27468 / 100) := by
    rw [Real.lt_sqrt (by norm_num)]; norm_num
  have h2 : Real.sqrt (27468 / 100) < (18 : ℝ) := by
    rw [Real.sqrt_lt' (by norm_num)]; norm_num
  constructor <;> linarith

theorem whileD_zero_budget {K : Type} [LinearOrderedField K] [FloorRing K] (sqrt : K → K)
    (cps : List (Vec3 K)) (fuel : Nat) (c : Camera K) (D : K) (h : ¬ D > 0) :
    whileD sqrt cps fuel c D = .ok (c, D) := by
  cases fuel <;> simp [whileD, h]

theorem whileD_step {K : Type} [LinearOrderedField K] [FloorRing K] (sqrt : K → K)
    (cps : List (Vec3 K)) (fuel : Nat) (c c2 : Camera K) (D D2 : K) (h : D > 0)
    (hm : microStep sqrt cps c D = .ok (c2, D2)) :
    whileD sqrt cps (fuel + 1) c D = whileD sqrt cps fuel c2 D2 := by
  simp [whileD, h, hm]

theorem whileD_step_fault {K : Type} [LinearOrderedField K] [FloorRing K] (sqrt : K → K)
    (cps : List (Vec3 K)) (fuel : Nat) (c : Camera K) (D : K) (e : Fault) (h : D > 0)
    (hm : microStep sqrt cps c D = .error e) :
    whileD sqrt cps (fuel + 1) c D = .error e := by
  simp [whileD, h, hm]

/-- On a track whose control points are `(0,0,k)`, a rider that sits on the line `r + 1`
micro-steps before the arc parameter `N - 2`, with more budget left than those steps cover,
reads past the end of the control-point vector. -/
theorem whileD_line_fault (cps : List (Vec3 ℝ)) (hN : 4 ≤ cps.length)
    (hline : ∀ (k : Nat) (hk : k < cps.length),
      cps[k] = (⟨0, 0, 0⟩ : Vec3 ℝ) + (k : ℝ) • (⟨0, 0, 1⟩ : Vec3 ℝ)) :
    ∀ (r fuel : Nat) (c : Camera ℝ) (D : ℝ),
      c.currentpos = (cps.length : ℝ) - 2 - ((r : ℝ) + 1) / 1000 →
      1 ≤ c.currentpos + 1 / 1000 →
      c.Position = ⟨0, 0, c.currentpos⟩ →
      ((r : ℝ) + 1) / 1000 < D →
      r + 1 ≤ fuel →
      whileD Real.sqrt cps fuel c D = .error .outOfRange := by
  have h4 : (4 : ℝ) ≤ (cps.length : ℝ) := by exact_mod_cast hN
  intro r
  induction r with
  | zero =>
    intro fuel c D hc h1 hP hD hf
    obtain ⟨f, rfl⟩ : ∃ f, fuel = f + 1 := ⟨fuel - 1, by omega⟩
    have hD0 : D > 0 := by
      have : (0 : ℝ) < ((0 : Nat) + 1 : ℝ) / 1000 := by norm_num
      linarith
    have hnw : ¬ c.currentpos > (cps.length : ℝ) := by
      rw [hc, not_lt]; norm_num; linarith
    have hs : c.currentpos + 1 / 1000 = ((cps.length - 2 : Nat) : ℝ) := by
      rw [hc, Nat.cast_sub (by omega)]; norm_num
    have ht : toInt (c.currentpos + 1 / 1000) = ((cps.length - 2 : Nat) : Int) := by
      rw [hs]; exact toInt_of_floor _ _ le_rfl (by linarith)
    have hg : get_point cps (c.currentpos + 1 / 1000) = .error .outOfRange :=
      get_point_fault_high cps _ (by rw [ht]; omega)
    exact whileD_step_fault Real.sqrt cps f c D _ hD0
      (microStep_fault Real.sqrt cps c D _ hnw hg)
  | succ n ih =>
    intro fuel c D hc h1 hP hD hf
    obtain ⟨f, rfl⟩ : ∃ f, fuel = f + 1 := ⟨fuel - 1, by omega⟩
    push_cast at hc hD
    have hn0 : (0 : ℝ) ≤ (n : ℝ) := Nat.cast_nonneg n
    have hD0 : D > 0 := by
      have : (0 : ℝ) < ((n : ℝ) + 1 + 1) / 1000 := by positivity
      linarith
    have hnw : ¬ c.currentpos > (cps.length : ℝ) := by
      rw [hc, not_lt]
      have : (0 : ℝ) ≤ ((n : ℝ) + 1 + 1) / 1000 := by positivity
      linarith
    have hg : get_point cps (c.currentpos + 1 / 1000)
        = .ok ⟨0, 0, c.currentpos + 1 / 1000⟩ := by
      rw [get_point_on_line cps ⟨0, 0, 0⟩ ⟨0, 0, 1⟩ hline _ h1
        (by rw [hc]; have : (0 : ℝ) < ((n : ℝ) + 1) / 1000 := by positivity
            linarith), zline_point]
    obtain ⟨c2, hm, hcp, hpos, -⟩ := microStep_ok Real.sqrt cps c D _ hnw hg
    rw [whileD_step Real.sqrt cps f c c2 D _ hD0 hm]
    refine ih f c2 _ ?_ ?_ ?_ ?_ (by omega)
    · rw [hcp, hc]; ring
    · rw [hcp]; linarith
    · rw [hpos, hcp]
    · rw [hP, get_distance_z]
      have : c.currentpos - (c.currentpos + 1 / 1000) = -(1 / 1000) := by ring
      rw [this, abs_neg, abs_of_pos (by norm_num)]
      linarith


theorem ProcessTrackMovement_first {K : Type} [LinearOrderedField K] [FloorRing K]
    (sqrt : K → K) (fuel : Nat) (dt : K) (cps : List (Vec3 K)) :
    ProcessTrackMovement sqrt fuel dt cps (freshCamera : Camera K) = .ok seatedCamera := by
  simp [ProcessTrackMovement, freshCamera, seatedCamera]

theorem ProcessTrackMovement_of_fault {K : Type} [LinearOrderedField K] [FloorRing K]
    (sqrt : K → K) (fuel : Nat) (dt : K) (cps : List (Vec3 K)) (c : Camera K) (e : Fault)
    (hon : c.onTrack = true)
    (hw : whileD sqrt cps fuel (tickStart c)
      (1 / 2 * sqrt (2 * gravity * (heightMax - c.Position.y)) * dt) = .error e) :
    ProcessTrackMovement sqrt fuel dt cps c = .error e := by
  simp only [tickStart] at hw
  unfold ProcessTrackMovement
  rw [if_neg (by rw [hon]; decide)]
  dsimp only
  rw [hw]

theorem ProcessTrackMovement_of_ok {K : Type} [LinearOrderedField K] [FloorRing K]
    (sqrt : K → K) (fuel : Nat) (dt : K) (cps : List (Vec3 K)) (c c2 : Camera K) (D2 : K)
    (hon : c.onTrack = true)
    (hw : whileD sqrt cps fuel (tickStart c)
      (1 / 2 * sqrt (2 * gravity * (heightMax - c.Position.y)) * dt) = .ok (c2, D2))
    (hle : ¬ c2.currentpos > ((sizeMinus3 cps.length : Nat) : K)) :
    ProcessTrackMovement sqrt fuel dt cps c = .ok c2 := by
  simp only [tickStart] at hw
  unfold ProcessTrackMovement
  rw [if_neg (by rw [hon]; decide)]
  dsimp only
  rw [hw]
  dsimp only
  rw [if_neg hle]

theorem line6_first_step (D : ℝ) :
    ∃ c2 : Camera ℝ,
      microStep Real.sqrt (line6 : List (Vec3 ℝ)) (tickStart seatedCamera) D
          = .ok (c2, D - 1001 / 1000) ∧
        c2.currentpos = 1001 / 1000 ∧ c2.Position = ⟨0, 0, 1001 / 1000⟩ := by
  have hnw : ¬ (tickStart (seatedCamera : Camera ℝ)).currentpos
      > (((line6 : List (Vec3 ℝ)).length : Nat) : ℝ) := by
    norm_num [tickStart, seatedCamera, freshCamera, line6]
  have hg : get_point (line6 : List (Vec3 ℝ))
      ((tickStart (seatedCamera : Camera ℝ)).currentpos + 1 / 1000)
        = .ok ⟨0, 0, 1001 / 1000⟩ := by
    rw [get_point_on_line (line6 : List (Vec3 ℝ)) ⟨0, 0, 0⟩ ⟨0, 0, 1⟩ line6_collinear _
      (by norm_num [tickStart, seatedCamera, freshCamera])
      (by norm_num [tickStart, seatedCamera, freshCamera, line6]), zline_point]
    norm_num [tickStart, seatedCamera, freshCamera]
  obtain ⟨c2, hm, hcp, hpos, -⟩ := microStep_ok Real.sqrt _ _ D _ hnw hg
  refine ⟨c2, ?_, ?_, hpos⟩
  · rw [hm]
    have hd : get_distance Real.sqrt (tickStart (seatedCamera : Camera ℝ)).Position
        ⟨0, 0, 1001 / 1000⟩ = 1001 / 1000 := by
      have : (tickStart (seatedCamera : Camera ℝ)).Position = ⟨0, 0, 0⟩ := rfl
      rw [this, get_distance_z]
      norm_num [abs_of_pos]
    rw [hd]
  · rw [hcp]; norm_num [tickStart, seatedCamera, freshCamera]

theorem readPoint_unchecked_line6 (j : Int) (h : 0 ≤ j) :
    readPoint_unchecked lineBeyond (line6 : List (Vec3 ℝ)) j = ⟨0, 0, (j : ℝ)⟩ := by
  obtain ⟨n, rfl⟩ := Int.eq_ofNat_of_zero_le h
  cases hr : readPoint (line6 : List (Vec3 ℝ)) (n : Int) with
  | error e => simp only [readPoint_unchecked, hr, lineBeyond]
  | ok p =>
    obtain ⟨hn, hp⟩ := readPoint_ok_lt _ n p hr
    rw [readPoint_unchecked_of_ok _ _ _ p hr, hp, line6_collinear n hn, zline_point]
    simp

theorem get_point_unchecked_line6 (s : ℝ) (h : 1 ≤ s) :
    get_point_unchecked lineBeyond (line6 : List (Vec3 ℝ)) s = ⟨0, 0, s⟩ := by
  have h1 : (1 : Int) ≤ toInt s := toInt_ge s 1 (by simpa using h)
  simp only [get_point_unchecked]
  rw [readPoint_unchecked_line6 _ (by omega), readPoint_unchecked_line6 _ (by omega),
    readPoint_unchecked_line6 _ (by omega), readPoint_unchecked_line6 _ (by omega)]
  ext <;> simp only [interpolate_x, interpolate_y, interpolate_z] <;> push_cast <;> ring

/-- One micro-step with unchecked reads along the line `(0,0,s)`. -/
theorem line6_step_unchecked (c : Camera ℝ) (D p : ℝ)
    (hnw : ¬ c.currentpos > (((line6 : List (Vec3 ℝ)).length : Nat) : ℝ))
    (h1 : 1 ≤ c.currentpos + 1 / 1000) (hP : c.Position = ⟨0, 0, p⟩)
    (hp : p ≤ c.currentpos + 1 / 1000) :
    ∃ c2 : Camera ℝ,
      microStep_unchecked lineBeyond Real.sqrt (line6 : List (Vec3 ℝ)) c D
          = (c2, D - (c.currentpos + 1 / 1000 - p)) ∧
        c2.currentpos = c.currentpos + 1 / 1000 ∧
        c2.Position = ⟨0, 0, c.currentpos + 1 / 1000⟩ ∧ c2.pos = c.pos := by
  have hd : get_distance Real.sqrt c.Position ⟨0, 0, c.currentpos + 1 / 1000⟩
      = c.currentpos + 1 / 1000 - p := by
    rw [hP, get_distance_z, abs_sub_comm, abs_of_nonneg (by linarith)]
  simp only [microStep_unchecked, if_neg hnw, get_point_unchecked_line6 _ h1, hd]
  exact ⟨_, rfl, rfl, rfl, rfl⟩

theorem whileD_unchecked_step (oob : Int → Vec3 ℝ) (cps : List (Vec3 ℝ)) (fuel : Nat)
    (c c2 : Camera ℝ) (D D2 : ℝ) (h : D > 0)
    (hm : microStep_unchecked oob Real.sqrt cps c D = (c2, D2)) :
    whileD_unchecked oob Real.sqrt cps (fuel + 1) c D
      = whileD_unchecked oob Real.sqrt cps fuel c2 D2 := by
  simp only [whileD_unchecked, if_pos h, hm]

theorem whileD_unchecked_exit (oob : Int → Vec3 ℝ) (cps : List (Vec3 ℝ)) (fuel : Nat)
    (c : Camera ℝ) (D : ℝ) (h : ¬ D > 0) :
    whileD_unchecked oob Real.sqrt cps fuel c D = .ok (c, D) := by
  cases fuel <;> simp [whileD_unchecked, h]

/-- A walk of `m` micro-steps with unchecked reads along the line, from a rider whose position
is the point of its arc parameter. -/
theorem line6_walk_unchecked :
    ∀ (m fuel : Nat) (c : Camera ℝ) (D : ℝ),
      1 ≤ c.currentpos + 1 / 1000 →
      c.Position = ⟨0, 0, c.currentpos⟩ →
      c.currentpos + (m : ℝ) / 1000
        ≤ (((line6 : List (Vec3 ℝ)).length : Nat) : ℝ) + 1 / 1000 →
      (m : ℝ) / 1000 < D + 1 / 1000 →
      ∃ c2 : Camera ℝ,
        whileD_unchecked lineBeyond Real.sqrt (line6 : List (Vec3 ℝ)) (fuel + m) c D
            = whileD_unchecked lineBeyond Real.sqrt (line6 : List (Vec3 ℝ)) fuel c2
                (D - (m : ℝ) / 1000) ∧
          c2.currentpos = c.currentpos + (m : ℝ) / 1000 ∧
          c2.Position = ⟨0, 0, c.currentpos + (m : ℝ) / 1000⟩ ∧ c2.pos = c.pos := by
  intro m
  induction m with
  | zero =>
    intro fuel c D _ hP _ _
    refine ⟨c, ?_, ?_, ?_, rfl⟩
    · simp
    · simp
    · rw [hP]; simp
  | succ n ih =>
    intro fuel c D h1 hP hN hD
    push_cast at hN hD
    have hn0 : (0 : ℝ) ≤ (n : ℝ) / 1000 := by positivity
    have hnw : ¬ c.currentpos > (((line6 : List (Vec3 ℝ)).length : Nat) : ℝ) := by
      rw [not_lt]
      have e : ((n : ℝ) + 1) / 1000 = (n : ℝ) / 1000 + 1 / 1000 := by ring
      rw [e] at hN
      linarith
    have hD0 : D > 0 := by
      have e : ((n : ℝ) + 1) / 1000 = (n : ℝ) / 1000 + 1 / 1000 := by ring
      rw [e] at hD
      linarith
    obtain ⟨c1, hm, hcp, hpos, hpp⟩ :=
      line6_step_unchecked c D c.currentpos hnw h1 hP (by linarith)
    have e1 : D - (c.currentpos + 1 / 1000 - c.currentpos) = D - 1 / 1000 := by ring
    rw [e1] at hm
    obtain ⟨c2, hw, hcp2, hpos2, hpp2⟩ := ih fuel c1 (D - 1 / 1000)
      (by rw [hcp]; linarith) (by rw [hpos, hcp])
      (by rw [hcp]; have e : ((n : ℝ) + 1) / 1000 = (n : ℝ) / 1000 + 1 / 1000 := by ring
          rw [e] at hN; linarith)
      (by have e : ((n : ℝ) + 1) / 1000 = (n : ℝ) / 1000 + 1 / 1000 := by ring
          rw [e] at hD; linarith)
    refine ⟨c2, ?_, ?_, ?_, ?_⟩
    · have ef : fuel + (n + 1) = (fuel + n) + 1 := by omega
      rw [ef, whileD_unchecked_step _ _ (fuel + n) c c1 D _ hD0 hm, hw]
      congr 1
      push_cast; ring
    · rw [hcp2, hcp]; push_cast; ring
    · rw [hpos2, hcp]; congr 1; push_cast; ring
    · rw [hpp2, hpp]

theorem ground_speed_fine :
    8286 / 1000 < 1 / 2 * Real.sqrt (2 * gravity * (heightMax - 0)) ∧
      1 / 2 * Real.sqrt (2 * gravity * (heightMax - 0)) < 8287 / 1000 := by
  have e : (2 * gravity * (heightMax - 0) : ℝ) = 27468 / 100 := by
    norm_num [gravity, heightMax]
  rw [e]
  have h1 : (16572 / 1000 : ℝ) < Real.sqrt (27468 / 100) := by
    rw [Real.lt_sqrt (by norm_num)]; norm_num
  have h2 : Real.sqrt (27468 / 100) < (16574 / 1000 : ℝ) := by
    rw [Real.sqrt_lt' (by norm_num)]; norm_num
  constructor <;> linarith

/-- From the seat (`currentpos = 1`, `Position = (0,0,0)`): the first micro-step covers
`1001/1000`, and `m` more micro-steps cover `1/1000` each. -/
theorem line6_seat_walk_unchecked (m fuel : Nat) (c : Camera ℝ) (D : ℝ)
    (hc : c.currentpos = 1) (hP : c.Position = ⟨0, 0, 0⟩)
    (hm : 1001 / 1000 + (m : ℝ) / 1000 ≤ 6 + 1 / 1000)
    (hD : 1 + (m : ℝ) / 1000 < D) :
    ∃ c2 : Camera ℝ,
      whileD_unchecked lineBeyond Real.sqrt (line6 : List (Vec3 ℝ)) (fuel + m + 1) c D
          = whileD_unchecked lineBeyond Real.sqrt (line6 : List (Vec3 ℝ)) fuel c2
              (D - 1001 / 1000 - (m : ℝ) / 1000) ∧
        c2.currentpos = 1001 / 1000 + (m : ℝ) / 1000 ∧ c2.pos = c.pos := by
  have hn0 : (0 : ℝ) ≤ (m : ℝ) / 1000 := by positivity
  have hlen : (((line6 : List (Vec3 ℝ)).length : Nat) : ℝ) = 6 := by simp [line6]
  obtain ⟨c1, hs, hcp, hpos, hpp⟩ := line6_step_unchecked c D 0
    (by rw [hc, hlen]; norm_num) (by rw [hc]; norm_num) hP (by rw [hc]; norm_num)
  rw [hc] at hs hcp hpos
  have e1 : D - ((1 : ℝ) + 1 / 1000 - 0) = D - 1001 / 1000 := by ring
  have e2 : (1 : ℝ) + 1 / 1000 = 1001 / 1000 := by norm_num
  rw [e1] at hs
  rw [e2] at hcp hpos
  obtain ⟨c2, hw, hcp2, -, hpp2⟩ := line6_walk_unchecked m fuel c1 (D - 1001 / 1000)
    (by rw [hcp]; norm_num) (by rw [hpos, hcp]) (by rw [hcp, hlen]; exact hm) (by linarith)
  refine ⟨c2, ?_, by rw [hcp2, hcp], by rw [hpp2, hpp]⟩
  rw [whileD_unchecked_step _ _ (fuel + m) c c1 D _ (by linarith) hs, hw]


theorem ProcessTrackMovement_unchecked_first (oob : Int → Vec3 ℝ) (fuel : Nat) (dt : ℝ)
    (cps : List (Vec3 ℝ)) :
    ProcessTrackMovement_unchecked oob Real.sqrt fuel dt cps (freshCamera : Camera ℝ)
      = .ok seatedCamera := by
  simp [ProcessTrackMovement_unchecked, freshCamera, seatedCamera]

theorem ProcessTrackMovement_unchecked_tick (oob : Int → Vec3 ℝ) (fuel : Nat) (dt : ℝ)
    (cps : List (Vec3 ℝ)) (c c2 : Camera ℝ) (D2 : ℝ) (hon : c.onTrack = true)
    (hw : whileD_unchecked oob Real.sqrt cps fuel (tickStart c)
      (1 / 2 * Real.sqrt (2 * gravity * (heightMax - c.Position.y)) * dt) = .ok (c2, D2)) :
    ProcessTrackMovement_unchecked oob Real.sqrt fuel dt cps c =
      if c2.currentpos > ((sizeMinus3 cps.length : Nat) : ℝ) then .ok (wrapToStart c2)
      else .ok c2 := by
  simp only [tickStart] at hw
  unfold ProcessTrackMovement_unchecked
  rw [if_neg (by rw [hon]; decide)]
  dsimp only
  rw [hw]

theorem line6_tick_unchecked_full :
    ∃ c : Camera ℝ,
      ProcessTrackMovement_unchecked lineBeyond Real.sqrt 6288 1 (line6 : List (Vec3 ℝ))
          seatedCamera = .ok c ∧ c.currentpos = 2286 / 1000 := by
  obtain ⟨hlo, hhi⟩ := ground_speed_fine
  have hy : (seatedCamera : Camera ℝ).Position.y = 0 := rfl
  generalize hD : (1 / 2 * Real.sqrt (2 * gravity * (heightMax - 0)) : ℝ) = V at hlo hhi
  obtain ⟨c2, hw1, hcp2, hpp2⟩ := line6_seat_walk_unchecked 5000 1287
    (tickStart seatedCamera) (V * 1) rfl rfl (by norm_num) (by norm_num; linarith)
  have hwrap : c2.currentpos > (((line6 : List (Vec3 ℝ)).length : Nat) : ℝ) := by
    rw [hcp2]; norm_num [line6]
  have hm2 := (microStep_unchecked_currentpos lineBeyond Real.sqrt (line6 : List (Vec3 ℝ)) c2
    (V * 1 - 1001 / 1000 - (5000 : Nat) / 1000)).1 hwrap
  obtain ⟨c4, hw3, hcp4, -⟩ := line6_seat_walk_unchecked 1285 0 (wrapToStart c2)
    (V * 1 - 1001 / 1000 - (5000 : Nat) / 1000) rfl
    (by simp only [wrapToStart]; rw [hpp2]; rfl) (by norm_num) (by norm_num; linarith)
  have hw : whileD_unchecked lineBeyond Real.sqrt (line6 : List (Vec3 ℝ)) 6288
      (tickStart seatedCamera) (V * 1)
        = .ok (c4, V * 1 - 1001 / 1000 - (5000 : Nat) / 1000 - 1001 / 1000
            - (1285 : Nat) / 1000) := by
    have e : 6288 = 1287 + 5000 + 1 := by norm_num
    rw [e, hw1]
    have e2 : 1287 = (0 + 1285 + 1) + 1 := by norm_num
    rw [e2, whileD_unchecked_step _ _ _ c2 _ _ _ (by norm_num; linarith) hm2, hw3]
    exact whileD_unchecked_exit _ _ _ _ _ (by norm_num; linarith)
  refine ⟨c4, ?_, by rw [hcp4]; norm_num⟩
  have ht := ProcessTrackMovement_unchecked_tick lineBeyond 6288 1 (line6 : List (Vec3 ℝ))
    seatedCamera c4 _ rfl (by rw [hy, hD]; exact hw)
  rw [ht, if_neg (by rw [hcp4]; norm_num [sizeMinus3, line6])]

theorem line6_tick_unchecked_wrap :
    ∃ c : Camera ℝ,
      ProcessTrackMovement_unchecked lineBeyond Real.sqrt 2315 (2 / 5) (line6 : List (Vec3 ℝ))
          seatedCamera = .ok c ∧ c.currentpos = 1 := by
  obtain ⟨hlo, hhi⟩ := ground_speed_fine
  have hy : (seatedCamera : Camera ℝ).Position.y = 0 := rfl
  generalize hD : (1 / 2 * Real.sqrt (2 * gravity * (heightMax - 0)) : ℝ) = V at hlo hhi
  obtain ⟨c2, hw1, hcp2, -⟩ := line6_seat_walk_unchecked 2314 0
    (tickStart seatedCamera) (V * (2 / 5)) rfl rfl (by norm_num) (by norm_num; linarith)
  have hw : whileD_unchecked lineBeyond Real.sqrt (line6 : List (Vec3 ℝ)) 2315
      (tickStart seatedCamera) (V * (2 / 5))
        = .ok (c2, V * (2 / 5) - 1001 / 1000 - (2314 : Nat) / 1000) := by
    have e : 2315 = 0 + 2314 + 1 := by norm_num
    rw [e, hw1]
    exact whileD_unchecked_exit _ _ _ _ _ (by norm_num; linarith)
  refine ⟨wrapToStart c2, ?_, rfl⟩
  have ht := ProcessTrackMovement_unchecked_tick lineBeyond 2315 (2 / 5)
    (line6 : List (Vec3 ℝ)) seatedCamera c2 _ rfl (by rw [hy, hD]; exact hw)
  rw [ht, if_pos (by rw [hcp2]; norm_num [sizeMinus3, line6])]

theorem currentpos_range_after_ticks_witness :
    (∃ c : Camera ℝ,
      runTicks_unchecked lineBeyond Real.sqrt 6288 1 (line6 : List (Vec3 ℝ)) 2 freshCamera
          = .ok c ∧
        c.currentpos = 2286 / 1000 ∧
        1 ≤ c.currentpos ∧ c.currentpos ≤ (((line6 : List (Vec3 ℝ)).length : Nat) : ℝ) - 2) ∧
    (∃ c : Camera ℝ,
      runTicks_unchecked lineBeyond Real.sqrt 2315 (2 / 5) (line6 : List (Vec3 ℝ)) 2
          freshCamera = .ok c ∧
        c.currentpos = 1 ∧
        1 ≤ c.currentpos ∧ c.currentpos ≤ (((line6 : List (Vec3 ℝ)).length : Nat) : ℝ) - 2) ∧
    (∃ c : Camera ℝ,
      runTicks Real.sqrt 10 (1 / 10) (line6 : List (Vec3 ℝ)) 2 freshCamera = .ok c ∧
        c.currentpos = 1001 / 1000 ∧
        1 ≤ c.currentpos ∧ c.currentpos ≤ (((line6 : List (Vec3 ℝ)).length : Nat) : ℝ) - 2) := by
  obtain ⟨c, hc, hcp⟩ := line6_tick_unchecked_full
  obtain ⟨d, hd, hdp⟩ := line6_tick_unchecked_wrap
  have hrc : runTicks_unchecked lineBeyond Real.sqrt 6288 1 (line6 : List (Vec3 ℝ)) 2
      freshCamera = .ok c := by
    simp only [runTicks_unchecked, ProcessTrackMovement_unchecked_first, hc]
  have hrd : runTicks_unchecked lineBeyond Real.sqrt 2315 (2 / 5) (line6 : List (Vec3 ℝ)) 2
      freshCamera = .ok d := by
    simp only [runTicks_unchecked, ProcessTrackMovement_unchecked_first, hd]
  have h1 := (currentpos_range_after_ticks Real.sqrt lineBeyond 6288 1
    (line6 : List (Vec3 ℝ)) (by simp [line6]) 2 freshCamera rfl).1 c hrc
  have h2 := (currentpos_range_after_ticks Real.sqrt lineBeyond 2315 (2 / 5)
    (line6 : List (Vec3 ℝ)) (by simp [line6]) 2 freshCamera rfl).1 d hrd
  refine ⟨⟨c, hrc, hcp, h1.1, h1.2.2⟩, ⟨d, hrd, hdp, h2.1, h2.2.2⟩, ?_⟩
  have hb : 0 < 1 / 2 * Real.sqrt (2 * gravity
        * (heightMax - (seatedCamera : Camera ℝ).Position.y)) * (1 / 10) ∧
      1 / 2 * Real.sqrt (2 * gravity
        * (heightMax - (seatedCamera : Camera ℝ).Position.y)) * (1 / 10) < 1 := by
    have h := ground_speed_bounds
    have e : (seatedCamera : Camera ℝ).Position.y = 0 := rfl
    rw [e]
    constructor <;> linarith [h.1, h.2]
  obtain ⟨c2, hm, hcp, hpos⟩ :=
    line6_first_step (1 / 2 * Real.sqrt (2 * gravity
        * (heightMax - (seatedCamera : Camera ℝ).Position.y)) * (1 / 10))
  have hw : whileD Real.sqrt (line6 : List (Vec3 ℝ)) 10 (tickStart seatedCamera)
      (1 / 2 * Real.sqrt (2 * gravity
        * (heightMax - (seatedCamera : Camera ℝ).Position.y)) * (1 / 10))
        = .ok (c2, 1 / 2 * Real.sqrt (2 * gravity
        * (heightMax - (seatedCamera : Camera ℝ).Position.y)) * (1 / 10) - 1001 / 1000) := by
    rw [whileD_step Real.sqrt _ 9 _ c2 _ _ hb.1 hm]
    exact whileD_zero_budget _ _ _ _ _ (by linarith [hb.2])
  have ht : ProcessTrackMovement Real.sqrt 10 (1 / 10) (line6 : List (Vec3 ℝ)) seatedCamera
      = .ok c2 :=
    ProcessTrackMovement_of_ok _ _ _ _ _ c2 _ rfl hw (by rw [hcp]; norm_num [sizeMinus3, line6])
  have hrun : runTicks Real.sqrt 10 (1 / 10) (line6 : List (Vec3 ℝ)) 2 freshCamera = .ok c2 := by
    simp only [runTicks, ProcessTrackMovement_first, ht]
  have h := (currentpos_range_after_ticks Real.sqrt lineBeyond 10 (1 / 10)
    (line6 : List (Vec3 ℝ)) (by simp [line6]) 2 freshCamera rfl).2 c2 hrun
  exact ⟨c2, hrun, hcp, h.2.1, h.2.2.2⟩


/-- Claim C7, the code at the failing input: on the six control points `(0,0,k)`, `k = 0..5`,
the first tick seats the camera at `currentpos = 1` (within `[1, N - 3]`), and the next tick
with elapsed time `1` stops with an out-of-range read of the control-point vector, for
every fuel of at least 3000 iterations: the budget exceeds 8, the loop walks the arc
parameter up to `4 = N - 2` without the mid-loop wrap firing (it compares with `N`), and
`get_point 4` reads index `6`. -/
theorem rider_reads_past_track_end (k : Nat) :
    ProcessTrackMovement Real.sqrt (3000 + k) 1 (line6 : List (Vec3 ℝ)) freshCamera
        = .ok seatedCamera ∧
      (1 ≤ (seatedCamera : Camera ℝ).currentpos ∧
        (seatedCamera : Camera ℝ).currentpos ≤ (((line6 : List (Vec3 ℝ)).length : Nat) : ℝ) - 3) ∧
      ProcessTrackMovement Real.sqrt (3000 + k) 1 (line6 : List (Vec3 ℝ)) seatedCamera
        = .error .outOfRange := by
  refine ⟨ProcessTrackMovement_first _ _ _ _, by norm_num [seatedCamera, freshCamera, line6], ?_⟩
  apply ProcessTrackMovement_of_fault _ _ _ _ _ _ rfl
  have hb : 8 < 1 / 2 * Real.sqrt (2 * gravity
      * (heightMax - (seatedCamera : Camera ℝ).Position.y)) * 1 := by
    have := ground_speed_bounds.1
    simpa [seatedCamera, freshCamera] using this
  obtain ⟨c2, hm, hcp, hpos⟩ := line6_first_step (1 / 2 * Real.sqrt (2 * gravity
    * (heightMax - (seatedCamera : Camera ℝ).Position.y)) * 1)
  have e : 3000 + k = (2999 + k) + 1 := by omega
  rw [e, whileD_step Real.sqrt _ _ _ c2 _ _ (by linarith) hm]
  refine whileD_line_fault (line6 : List (Vec3 ℝ)) (by simp [line6]) line6_collinear 2998
    (2999 + k) c2 _ ?_ ?_ ?_ ?_ (by omega)
  · rw [hcp]; norm_num [line6]
  · rw [hcp]; norm_num
  · rw [hpos, hcp]
  · norm_num; linarith


end RealRider

/-! ### The loop `while (D > 0)` stops -/

section LoopTermination

variable {K : Type} [LinearOrderedField K] [FloorRing K]

end LoopTermination

section LoopBudget

end LoopBudget

/-! ### The free camera -/

section FreeCamera

variable {K : Type} [LinearOrderedField K]

/-- Claim C9 (zoom clamp): for every camera and every scroll delta `y`, after
`ProcessMouseScroll y` the zoom lies in `[1, 45]`; and when the zoom before the call is in
`[1, 45]` the result is `clamp (Zoom - y) 1 45`. -/
theorem ProcessMouseScroll_clamp (c : Camera K) (y : K) :
    1 ≤ (ProcessMouseScroll c y).Zoom ∧ (ProcessMouseScroll c y).Zoom ≤ 45 ∧
      (1 ≤ c.Zoom ∧ c.Zoom ≤ 45 →
        (ProcessMouseScroll c y).Zoom = max 1 (min (c.Zoom - y) 45)) := by
  simp only [ProcessMouseScroll, ge_iff_le]
  refine ⟨?_, ?_, ?_⟩
  · split_ifs <;> norm_num <;> linarith
  · split_ifs <;> norm_num <;> linarith
  · intro h
    rw [if_pos h]
    by_cases h1 : c.Zoom - y ≤ 1
    · rw [if_pos h1, if_neg (by norm_num), min_eq_left (by linarith), max_eq_left h1]
    · rw [if_neg h1]
      by_cases h2 : 45 ≤ c.Zoom - y
      · rw [if_pos h2, min_eq_right h2, max_eq_right (by norm_num)]
      · rw [if_neg h2, min_eq_left (by linarith), max_eq_right (by linarith)]

theorem ProcessMouseScroll_clamp_witness :
    (ProcessMouseScroll (freshCamera : Camera ℚ) 10).Zoom = 35 ∧
      (ProcessMouseScroll (ProcessMouseScroll (freshCamera : Camera ℚ) 10) (-100)).Zoom = 45 := by
  have h1 := (ProcessMouseScroll_clamp (freshCamera : Camera ℚ) 10).2.2
    (by norm_num [freshCamera, ZOOM])
  have e1 : (ProcessMouseScroll (freshCamera : Camera ℚ) 10).Zoom = 35 := by
    rw [h1]; norm_num [freshCamera, ZOOM]
  have h2 := (ProcessMouseScroll_clamp (ProcessMouseScroll (freshCamera : Camera ℚ) 10)
    (-100)).2.2 (by rw [e1]; norm_num)
  refine ⟨e1, ?_⟩
  rw [h2, e1]; norm_num


/-- Claim C10 (pitch clamp): for every camera and every pointer delta `(dx, dy)`, after
`ProcessMouseMovement dx dy` with the default `constrainPitch = true` the pitch lies in
`[-89, 89]`; with the default sensitivity `0.1` it equals `clamp (Pitch + 0.1 * dy) (-89) 89`
and the yaw equals `Yaw + 0.1 * dx`. -/
theorem ProcessMouseMovement_pitch_clamp (sqrt cos sin radians : K → K) (c : Camera K)
    (dx dy : K) :
    -89 ≤ (ProcessMouseMovement sqrt cos sin radians c dx dy true).Pitch ∧
      (ProcessMouseMovement sqrt cos sin radians c dx dy true).Pitch ≤ 89 ∧
      (c.MouseSensitivity = SENSITIVTY →
        (ProcessMouseMovement sqrt cos sin radians c dx dy true).Pitch
            = max (-89) (min (c.Pitch + 1 / 10 * dy) 89) ∧
          (ProcessMouseMovement sqrt cos sin radians c dx dy true).Yaw
            = c.Yaw + 1 / 10 * dx) := by
  simp only [ProcessMouseMovement, updateCameraVectors, if_true]
  refine ⟨?_, ?_, ?_⟩
  · split_ifs <;> norm_num
    linarith
  · split_ifs <;> norm_num
    linarith
  · intro hs
    rw [hs, SENSITIVTY]
    refine ⟨?_, by ring⟩
    have e : c.Pitch + dy * (1 / 10) = c.Pitch + 1 / 10 * dy := by ring
    rw [e]
    by_cases h1 : c.Pitch + 1 / 10 * dy > 89
    · rw [if_pos h1, if_neg (by norm_num), min_eq_right (le_of_lt h1),
        max_eq_right (by norm_num)]
    · rw [if_neg h1, min_eq_left (not_lt.mp h1)]
      by_cases h2 : c.Pitch + 1 / 10 * dy < -89
      · rw [if_pos h2, max_eq_left (le_of_lt h2)]
      · rw [if_neg h2, max_eq_right (not_lt.mp h2)]

theorem ProcessMouseMovement_pitch_clamp_witness :
    (ProcessMouseMovement Real.sqrt Real.cos Real.sin (fun d => d * (Real.pi / 180))
        (freshCamera : Camera ℝ) 30 1000 true).Pitch = 89 ∧
      (ProcessMouseMovement Real.sqrt Real.cos Real.sin (fun d => d * (Real.pi / 180))
        (freshCamera : Camera ℝ) 30 1000 true).Yaw = -87 := by
  have h := (ProcessMouseMovement_pitch_clamp Real.sqrt Real.cos Real.sin
    (fun d => d * (Real.pi / 180)) (freshCamera : Camera ℝ) 30 1000).2.2 rfl
  rw [h.1, h.2]
  norm_num [freshCamera]

end FreeCamera

/-! ### Track construction with fewer than four control points -/

section SmallTracks

variable {K : Type} [LinearOrderedField K]

theorem railStep_fault (sqrt : K → K) (cps : List (Vec3 K)) (i : Nat) (u : K)
    (cur : Orientation K) (h : cps.length ≤ i + 3) :
    railStep sqrt cps i u cur = .error .outOfRange := by
  have hD : readPoint cps ((i : Int) + 3) = .error .outOfRange :=
    readPoint_fault_of_le cps _ (by omega)
  simp only [railStep]
  split
  · rename_i h1 h2 h3 h4
    rw [hD] at h4
    cases h4
  · rfl

theorem create_track_three (sqrt : K → K) (cps : List (Vec3 K)) (h : cps.length = 3) :
    create_track sqrt cps = .ok [] := by
  have h1 : readPoint cps 1 = .ok cps[1] := readPoint_nat cps 1 (by omega)
  have h2 : sizeMinus3 cps.length - 1 = 0 := by rw [h]; rfl
  simp only [create_track, h1, h2, iLoop]

theorem create_track_few (sqrt : K → K) (cps : List (Vec3 K)) (h : cps.length < 3) :
    create_track sqrt cps = .error .outOfRange := by
  by_cases h2 : cps.length = 2
  · have h1 : readPoint cps 1 = .ok cps[1] := readPoint_nat cps 1 (by omega)
    obtain ⟨k, hk⟩ : ∃ k, sizeMinus3 cps.length - 1 = k + 1 :=
      ⟨2 ^ 64 - 3, by rw [h2]; rfl⟩
    have hr : ∀ cur : Orientation K, railStep sqrt cps 1 0 cur = .error .outOfRange :=
      fun cur => railStep_fault sqrt cps 1 0 cur (by omega)
    simp only [create_track, h1, hk, iLoop, uLoop, zero_lt_one, if_true, hr]
  · have h1 : readPoint cps 1 = .error .outOfRange :=
      readPoint_fault_of_le cps 1 (by omega)
    simp only [create_track, h1]

/-- Claim C11, counterexample: on the three control points `(0,0,k)`, `k = 0..2`,
`create_track` returns successfully, with an empty vertex list: `size() - 3` is `0`, the loop
`for (i = 1; i < 0; i++)` does not run, and nothing signals an error. -/
theorem create_track_three_points_returns :
    (line3 : List (Vec3 ℝ)).length < 4 ∧
      create_track_vertices Real.sqrt 0 (line3 : List (Vec3 ℝ)) = .ok [] := by
  have := create_track_three Real.sqrt (line3 : List (Vec3 ℝ)) rfl
  exact ⟨by simp [line3], by simp [create_track_vertices, this]⟩


/-- Claim C11, amended: `create_track` has no construction-error path.  For a control-point
list with exactly 3 points it returns successfully with no frame and an empty vertex list;
with fewer than 3 points it reads a control point outside the list (`controlPoints[1]`, or
`controlPoints[2]` inside the loop, whose bound `size() - 3` wraps around) before any vertex
is emitted. -/
theorem create_track_vertices_small (sqrt : K → K) (g : Vec3 K) (cps : List (Vec3 K))
    (h : cps.length < 4) :
    (cps.length = 3 ∧ create_track sqrt cps = .ok [] ∧
        create_track_vertices sqrt g cps = .ok []) ∨
      (cps.length < 3 ∧ create_track sqrt cps = .error .outOfRange ∧
        create_track_vertices sqrt g cps = .error .outOfRange) := by
  by_cases h3 : cps.length = 3
  · left
    have := create_track_three sqrt cps h3
    exact ⟨h3, this, by simp [create_track_vertices, this]⟩
  · right
    have h2 : cps.length < 3 := by omega
    have := create_track_few sqrt cps h2
    exact ⟨h2, this, by simp [create_track_vertices, this]⟩


theorem create_track_vertices_small_witness :
    create_track_vertices Real.sqrt 0 (line2 : List (Vec3 ℝ)) = .error .outOfRange := by
  rcases create_track_vertices_small Real.sqrt 0 (line2 : List (Vec3 ℝ)) (by simp [line2])
    with ⟨h, -, -⟩ | ⟨-, -, h⟩
  · simp [line2] at h
  · exact h


end SmallTracks

/-! ### The mesh of `create_track` -/

section MeshLists

variable {K : Type}

theorem flatten3_append (l1 l2 : List (Vertex K × Vertex K × Vertex K)) :
    flatten3 (l1 ++ l2) = flatten3 l1 ++ flatten3 l2 := by
  simp [flatten3]

theorem flatten3_cons (t : Vertex K × Vertex K × Vertex K)
    (ts : List (Vertex K × Vertex K × Vertex K)) :
    flatten3 (t :: ts) = t.1 :: t.2.1 :: t.2.2 :: flatten3 ts := by
  simp [flatten3]

theorem triangles_flatten3 (tris : List (Vertex K × Vertex K × Vertex K)) :
    triangles (flatten3 tris) = tris := by
  induction tris with
  | nil => simp [flatten3, triangles]
  | cons t ts ih => rw [flatten3_cons, triangles, ih]

theorem flatten3_length (tris : List (Vertex K × Vertex K × Vertex K)) :
    (flatten3 tris).length = 3 * tris.length := by
  induction tris with
  | nil => simp [flatten3]
  | cons t ts ih => rw [flatten3_cons]; simp [ih]; omega

end MeshLists

section Mesh

variable {K : Type} [LinearOrderedField K]

theorem make_triangle_eq (g : Vec3 K) (vs : List (Vertex K)) (a b c : Vec3 K) (f : Bool) :
    make_triangle g vs a b c f = vs ++ flatten3 [triangleOf g a b c f] := by
  cases f <;> simp [make_triangle, make_vertex, set_normals, flatten3, triangleOf]

theorem railTriangles_eq (g : Vec3 K) (p c : Orientation K) (A B C D E F G H : Vec3 K)
    (hc : boxCorners p c = [A, B, C, D, E, F, G, H]) :
    railTriangles g p c = railTrianglesOf g A B C D E F G H := by
  simp only [railTriangles, hc]

theorem railTriangles_length (g : Vec3 K) (p c : Orientation K) :
    (railTriangles g p c).length = 8 := by
  simp [railTriangles, boxCorners, railTrianglesOf]

theorem makeRailPart_eq (g : Vec3 K) (vs : List (Vertex K)) (p c : Orientation K)
    (o : Vec2 K) : makeRailPart g vs p c o = vs ++ flatten3 (railTriangles g p c) := by
  simp only [makeRailPart, make_triangle_eq, railTriangles, boxCorners, railTrianglesOf]
  simp [flatten3]

theorem foldl_makeRailPart (g : Vec3 K) (o : Vec2 K) :
    ∀ (calls : List (Orientation K × Orientation K)) (vs : List (Vertex K)),
      calls.foldl (fun vertices pc => makeRailPart g vertices pc.1 pc.2 o) vs
        = vs ++ flatten3 (calls.flatMap fun pc => railTriangles g pc.1 pc.2) := by
  intro calls
  induction calls with
  | nil => intro vs; simp [flatten3]
  | cons pc rest ih =>
    intro vs
    rw [List.foldl_cons, ih, makeRailPart_eq, List.flatMap_cons, flatten3_append,
      List.append_assoc]

theorem create_track_vertices_eq (sqrt : K → K) (g : Vec3 K) (cps : List (Vec3 K))
    (calls : List (Orientation K × Orientation K)) (h : create_track sqrt cps = .ok calls) :
    create_track_vertices sqrt g cps
      = .ok (flatten3 (calls.flatMap fun pc => railTriangles g pc.1 pc.2)) := by
  simp only [create_track_vertices, h, foldl_makeRailPart, List.nil_append]

theorem flatMap_railTriangles_length (g : Vec3 K)
    (calls : List (Orientation K × Orientation K)) :
    (calls.flatMap fun pc => railTriangles g pc.1 pc.2).length = 8 * calls.length := by
  induction calls with
  | nil => simp
  | cons pc rest ih =>
    rw [List.flatMap_cons, List.length_append, ih, railTriangles_length, List.length_cons]
    omega

theorem railTriangles_mem (g : Vec3 K) (p c : Orientation K)
    (t : Vertex K × Vertex K × Vertex K) (ht : t ∈ railTriangles g p c) :
    ∃ a b c3 f, t = triangleOf g a b c3 f := by
  simp only [railTriangles, boxCorners, railTrianglesOf, List.mem_cons, List.mem_singleton,
    List.not_mem_nil, or_false] at ht
  rcases ht with rfl | rfl | rfl | rfl | rfl | rfl | rfl | rfl <;> exact ⟨_, _, _, _, rfl⟩

theorem flatten3_tex (tris : List (Vertex K × Vertex K × Vertex K))
    (h : ∀ t ∈ tris, t.1.TexCoords = ⟨0, 1⟩ ∧ t.2.1.TexCoords = ⟨0, 0⟩ ∧
      t.2.2.TexCoords = ⟨1, 0⟩) :
    ∀ (j : Nat) (hj : j < (flatten3 tris).length),
      (j % 3 = 0 → (flatten3 tris)[j].TexCoords = ⟨0, 1⟩) ∧
      (j % 3 = 1 → (flatten3 tris)[j].TexCoords = ⟨0, 0⟩) ∧
      (j % 3 = 2 → (flatten3 tris)[j].TexCoords = ⟨1, 0⟩) := by
  induction tris with
  | nil => intro j hj; simp [flatten3] at hj
  | cons t ts ih =>
    intro j hj
    have ht := h t (List.mem_cons_self _ _)
    have hts := ih (fun t2 h2 => h t2 (List.mem_cons_of_mem _ h2))
    simp only [flatten3_cons] at hj ⊢
    match j, hj with
    | 0, _ => simp [ht.1]
    | 1, _ => simp [ht.2.1]
    | 2, _ => simp [ht.2.2]
    | j + 3, hj =>
      have hj2 : j < (flatten3 ts).length := by simpa using hj
      have := hts j hj2
      simp only [List.getElem_cons_succ]
      rw [show (j + 3) % 3 = j % 3 by omega]
      exact this

/-- The mesh of `create_track` for at least four control points: it is returned, and it is
the flat list of the eight triangles of every rail part. -/
theorem create_track_mesh (sqrt : K → K) (g : Vec3 K) (cps : List (Vec3 K))
    (hN : 4 ≤ cps.length) :
    ∃ (calls : List (Orientation K × Orientation K)) (tris : List (Vertex K × Vertex K × Vertex K)),
      create_track sqrt cps = .ok calls ∧
        create_track_vertices sqrt g cps = .ok (flatten3 tris) ∧
        tris.length = 8 * calls.length ∧
        ∀ t ∈ tris, ∃ a b c f, t = triangleOf g a b c f := by
  obtain ⟨_, calls, _, hct⟩ := create_track_eq sqrt cps hN
  refine ⟨calls, _, hct, create_track_vertices_eq sqrt g cps calls hct,
    flatMap_railTriangles_length g calls, ?_⟩
  intro t ht
  rw [List.mem_flatMap] at ht
  obtain ⟨pc, -, hpc⟩ := ht
  exact railTriangles_mem g pc.1 pc.2 t hpc

/-- Claim C12 (flat triangle list with triangle-local texcoords): for every control-point
list with `N ≥ 4` points `create_track` returns a vertex list whose length is a multiple of
3, and the vertex at list index `j` has texcoord `(0,1)` when `j mod 3 = 0`, `(0,0)` when
`j mod 3 = 1` and `(1,0)` when `j mod 3 = 2`. -/
theorem create_track_vertices_texcoords (sqrt : K → K) (g : Vec3 K) (cps : List (Vec3 K))
    (hN : 4 ≤ cps.length) :
    ∃ vertices : List (Vertex K),
      create_track_vertices sqrt g cps = .ok vertices ∧ vertices.length % 3 = 0 ∧
        ∀ (j : Nat) (hj : j < vertices.length),
          (j % 3 = 0 → vertices[j].TexCoords = ⟨0, 1⟩) ∧
          (j % 3 = 1 → vertices[j].TexCoords = ⟨0, 0⟩) ∧
          (j % 3 = 2 → vertices[j].TexCoords = ⟨1, 0⟩) := by
  obtain ⟨calls, tris, -, hv, -, hmem⟩ := create_track_mesh sqrt g cps hN
  refine ⟨flatten3 tris, hv, by rw [flatten3_length]; omega, ?_⟩
  apply flatten3_tex
  intro t ht
  obtain ⟨a, b, c, f, rfl⟩ := hmem t ht
  exact ⟨rfl, rfl, rfl⟩

theorem seam_core (g : Vec3 K) (A B C D E F G H : Vec3 K)
    (hd : [A, B, C, D, E, F, G, H].Nodup) :
    edgeCount (railTrianglesOf g A B C D E F G H) A B = 2 ∧
      edgeCount (railTrianglesOf g A B C D E F G H) D C = 2 ∧
      edgeCount (railTrianglesOf g A B C D E F G H) E F = 2 ∧
      edgeCount (railTrianglesOf g A B C D E F G H) H G = 2 := by
  simp only [List.nodup_cons, List.mem_cons, List.mem_singleton, List.not_mem_nil, not_or,
    or_false, List.nodup_nil, and_true, not_false_eq_true] at hd
  obtain ⟨⟨ab, ac, ad, ae, af, ag, ah⟩, ⟨bc, bd, be, bf, bg, bh⟩, ⟨cd, ce, cf, cg, ch⟩,
    ⟨de, df, dg, dh⟩, ⟨ef, eg, eh⟩, ⟨fg, fh⟩, gh⟩ := hd
  have ba := Ne.symm ab; have ca := Ne.symm ac; have da := Ne.symm ad; have ea := Ne.symm ae
  have fa := Ne.symm af; have ga := Ne.symm ag; have ha := Ne.symm ah
  have cb := Ne.symm bc; have db := Ne.symm bd; have eb := Ne.symm be; have fb := Ne.symm bf
  have gb := Ne.symm bg; have hb := Ne.symm bh
  have dc := Ne.symm cd; have ec := Ne.symm ce; have fc := Ne.symm cf; have gc := Ne.symm cg
  have hc := Ne.symm ch
  have ed := Ne.symm de; have fd := Ne.symm df; have gd := Ne.symm dg; have hd2 := Ne.symm dh
  have fe := Ne.symm ef; have ge := Ne.symm eg; have he := Ne.symm eh
  have gf := Ne.symm fg; have hf := Ne.symm fh
  have hg := Ne.symm gh
  refine ⟨?_, ?_, ?_, ?_⟩ <;>
    simp [edgeCount, railTrianglesOf, triangleOf, hasCorner, List.filter, *]



/-- Claim C13 (mesh closure): for every pair of frames whose eight box corners `A .. H` are
distinct, `makeRailPart` appends exactly 8 triangles, and each of the four lengthwise seam
edges `A-B`, `D-C`, `E-F`, `H-G` is an edge of exactly two of those 8 triangles. -/
theorem makeRailPart_seam_edges (g : Vec3 K) (p c : Orientation K) (o : Vec2 K)
    (A B C D E F G H : Vec3 K) (hc : boxCorners p c = [A, B, C, D, E, F, G, H])
    (hd : [A, B, C, D, E, F, G, H].Nodup) :
    (∀ vs, makeRailPart g vs p c o = vs ++ flatten3 (railTriangles g p c)) ∧
      triangles (makeRailPart g [] p c o) = railTriangles g p c ∧
      (railTriangles g p c).length = 8 ∧
      edgeCount (railTriangles g p c) A B = 2 ∧
      edgeCount (railTriangles g p c) D C = 2 ∧
      edgeCount (railTriangles g p c) E F = 2 ∧
      edgeCount (railTriangles g p c) H G = 2 := by
  refine ⟨fun vs => makeRailPart_eq g vs p c o, ?_, railTriangles_length g p c, ?_⟩
  · rw [makeRailPart_eq, List.nil_append, triangles_flatten3]
  · rw [railTriangles_eq g p c A B C D E F G H hc]
    exact seam_core g A B C D E F G H hd

theorem makeRailPart_seam_edges_witness :
    edgeCount (triangles (makeRailPart (0 : Vec3 ℚ) [] straightPrev straightCur ⟨0, 0⟩))
        ⟨-1 / 5, -1 / 10, 0⟩ ⟨-1 / 5, -1 / 10, 1⟩ = 2 := by
  have h := makeRailPart_seam_edges (0 : Vec3 ℚ) straightPrev straightCur ⟨0, 0⟩
    ⟨-1 / 5, -1 / 10, 0⟩ ⟨-1 / 5, -1 / 10, 1⟩ ⟨1 / 5, -1 / 10, 1⟩ ⟨1 / 5, -1 / 10, 0⟩
    ⟨-1 / 2, -3 / 10, 0⟩ ⟨-1 / 2, -3 / 10, 1⟩ ⟨1 / 2, -3 / 10, 1⟩ ⟨1 / 2, -3 / 10, 0⟩
    (by simp [boxCorners, straightPrev, straightCur, Vec3.ext_iff]; norm_num)
    (by simp [Vec3.ext_iff]; norm_num)
  rw [h.2.1]
  exact h.2.2.2.1


/-- On the six control points `(0,0,k)` the mesh of `create_track` is returned and is not
empty. -/
theorem line6_mesh_nonempty (g : Vec3 ℝ) :
    ∃ vertices : List (Vertex ℝ),
      create_track_vertices Real.sqrt g (line6 : List (Vec3 ℝ)) = .ok vertices ∧
        vertices ≠ [] := by
  obtain ⟨calls, tris, hct, hv, hl, -⟩ :=
    create_track_mesh Real.sqrt g (line6 : List (Vec3 ℝ)) (by simp [line6])
  obtain ⟨hne, -⟩ := line_frames_nondegenerate (line6 : List (Vec3 ℝ)) (by simp [line6])
    line6_collinear calls hct
  refine ⟨flatten3 tris, hv, ?_⟩
  intro h0
  have h3 : (flatten3 tris).length = 0 := by rw [h0]; rfl
  rw [flatten3_length, hl] at h3
  have : calls.length = 0 := by omega
  exact hne (List.length_eq_zero.mp this)

theorem create_track_vertices_texcoords_witness :
    ∃ vertices : List (Vertex ℝ),
      create_track_vertices Real.sqrt 0 (line6 : List (Vec3 ℝ)) = .ok vertices ∧
        vertices ≠ [] ∧ vertices.length % 3 = 0 ∧
        ∀ (j : Nat) (hj : j < vertices.length),
          (j % 3 = 0 → vertices[j].TexCoords = ⟨0, 1⟩) ∧
          (j % 3 = 1 → vertices[j].TexCoords = ⟨0, 0⟩) ∧
          (j % 3 = 2 → vertices[j].TexCoords = ⟨1, 0⟩) := by
  obtain ⟨vertices, hv, hlen, htex⟩ :=
    create_track_vertices_texcoords Real.sqrt 0 (line6 : List (Vec3 ℝ)) (by simp [line6])
  obtain ⟨w, hw, hne⟩ := line6_mesh_nonempty 0
  rw [hv] at hw
  injection hw with hw
  subst hw
  exact ⟨vertices, hv, hne, hlen, htex⟩

/-- Claim C14, counterexample: in the rail part between the seed frame at the origin and the
same frame one unit further along `Front`, with `Normal` starting at zero, the first vertex
sits at `A = (-1/5, -1/10, 0)` and stores the normal `(0, -2/5, 0)`; the triangles with a
corner at `A` are `(A,B,D)` and `(A,B,E)`, and the sum of their face normals is
`(1/5, 1/10, 0)` (and `(1/5, -7/10, 0)` when the flipped normals as stored are summed). -/
theorem vertex_normal_not_shared_sum :
    (makeRailPart (0 : Vec3 ℚ) [] straightPrev straightCur ⟨0, 0⟩)[0]?
        = some ⟨⟨-1 / 5, -1 / 10, 0⟩, ⟨0, -2 / 5, 0⟩, ⟨0, 1⟩⟩ ∧
      sharedNormalSum faceNormal
        (triangles (makeRailPart (0 : Vec3 ℚ) [] straightPrev straightCur ⟨0, 0⟩))
        ⟨-1 / 5, -1 / 10, 0⟩ = ⟨1 / 5, 1 / 10, 0⟩ ∧
      sharedNormalSum (fun t => t.1.Normal)
        (triangles (makeRailPart (0 : Vec3 ℚ) [] straightPrev straightCur ⟨0, 0⟩))
        ⟨-1 / 5, -1 / 10, 0⟩ = ⟨1 / 5, -7 / 10, 0⟩ := by
  refine ⟨?_, ?_, ?_⟩
  · simp [makeRailPart, make_triangle, make_vertex, set_normals, straightPrev, straightCur,
      cross, Vec3.ext_iff]
    norm_num
  · simp [makeRailPart, make_triangle, make_vertex, set_normals, triangles, straightPrev,
      straightCur, cross, sharedNormalSum, hasCorner, faceNormal, vecSum, List.filter,
      Vec3.ext_iff]
    unfold faceNormal
    simp [cross]
    norm_num
  · simp [makeRailPart, make_triangle, make_vertex, set_normals, triangles, straightPrev,
      straightCur, cross, sharedNormalSum, hasCorner, vecSum, List.filter,
      Vec3.ext_iff]
    norm_num

/-- Claim C14, amended: every vertex of the mesh of `create_track` belongs to one triangle of
the flat list, and its stored `Normal` is determined by that triangle alone: the three
vertices of a triangle store the same vector, which is the face normal
`cross(p2 - p1, p3 - p1)` of the triangle added to the initial content `g` of the `Normal`
member, or the negative of that (when the triangle was made with `flipNormal`); each
`make_triangle` call appends exactly such a triangle.  Nothing is summed across triangles. -/
theorem create_track_vertex_normals (sqrt : K → K) (g : Vec3 K) (cps : List (Vec3 K))
    (hN : 4 ≤ cps.length) :
    (∃ vertices : List (Vertex K),
      create_track_vertices sqrt g cps = .ok vertices ∧
        vertices = flatten3 (triangles vertices) ∧
        ∀ t ∈ triangles vertices,
          t.2.1.Normal = t.1.Normal ∧ t.2.2.Normal = t.1.Normal ∧
            (t.1.Normal = g + faceNormal t ∨ t.1.Normal = -(g + faceNormal t))) ∧
      ∀ (vs : List (Vertex K)) (a b c : Vec3 K) (f : Bool),
        make_triangle g vs a b c f = vs ++ flatten3 [triangleOf g a b c f] := by
  refine ⟨?_, fun vs a b c f => make_triangle_eq g vs a b c f⟩
  obtain ⟨calls, tris, -, hv, -, hmem⟩ := create_track_mesh sqrt g cps hN
  refine ⟨flatten3 tris, hv, by rw [triangles_flatten3], ?_⟩
  rw [triangles_flatten3]
  intro t ht
  obtain ⟨a, b, c, f, rfl⟩ := hmem t ht
  refine ⟨rfl, rfl, ?_⟩
  cases f
  · exact Or.inl rfl
  · exact Or.inr rfl

theorem create_track_vertex_normals_witness :
    ∃ vertices : List (Vertex ℝ),
      create_track_vertices Real.sqrt 0 (line6 : List (Vec3 ℝ)) = .ok vertices ∧
        triangles vertices ≠ [] ∧
        ∀ t ∈ triangles vertices,
          t.2.1.Normal = t.1.Normal ∧ t.2.2.Normal = t.1.Normal ∧
            (t.1.Normal = 0 + faceNormal t ∨ t.1.Normal = -(0 + faceNormal t)) := by
  obtain ⟨vertices, hv, hfl, hn⟩ :=
    (create_track_vertex_normals Real.sqrt 0 (line6 : List (Vec3 ℝ)) (by simp [line6])).1
  obtain ⟨w, hw, hne⟩ := line6_mesh_nonempty 0
  rw [hv] at hw
  injection hw with hw
  subst hw
  refine ⟨vertices, hv, ?_, hn⟩
  intro h0
  rw [h0] at hfl
  exact hne (by rw [hfl]; rfl)

/-- Claim C15, the code at the failing input: in the rail part between the seed frame at the
origin and the same frame one unit further along `Front` (a straight step with `d = 1`),
with `Normal` starting at zero, the normals stored in the eight triangles are as listed, and
their dot products with the vector from the centroid of the eight corners to the triangle's
centroid are negative for seven triangles and positive for the second one only; the two
triangles `(A,B,D)` and `(D,C,B)` of one face store opposite normals. -/
theorem straight_part_normals_point_inward :
    (triangles (makeRailPart (0 : Vec3 ℚ) [] straightPrev straightCur ⟨0, 0⟩)).map
        (fun t => t.1.Normal)
      = [⟨0, -2 / 5, 0⟩, ⟨0, 2 / 5, 0⟩, ⟨0, 1, 0⟩, ⟨0, 1, 0⟩, ⟨1 / 5, -3 / 10, 0⟩,
         ⟨1 / 5, -3 / 10, 0⟩, ⟨-1 / 5, -3 / 10, 0⟩, ⟨-1 / 5, -3 / 10, 0⟩] ∧
      (triangles (makeRailPart (0 : Vec3 ℚ) [] straightPrev straightCur ⟨0, 0⟩)).map
        (outwardDot (boxCorners (straightPrev : Orientation ℚ) straightCur))
      = [-1 / 25, 1 / 25, -1 / 10, -1 / 10, -7 / 100, -7 / 100, -7 / 100, -7 / 100] := by
  constructor
  · simp [makeRailPart, make_triangle, make_vertex, set_normals, triangles, straightPrev,
      straightCur, cross, Vec3.ext_iff]
    norm_num
  · simp [makeRailPart, make_triangle, make_vertex, set_normals, triangles, straightPrev,
      straightCur, cross, outwardDot, boxCorners, boxCentroid, triCentroid, vecSum, dot]
    norm_num

end Mesh

/-! ### The mesh centerline and the frame propagation -/

section Centerline

variable {K : Type} [LinearOrderedField K]

theorem create_track_first_pair (sqrt : K → K) (cps : List (Vec3 K)) (hN : 5 ≤ cps.length)
    (frames : List (Orientation K × Orientation K))
    (hct : create_track sqrt cps = .ok frames) :
    ∃ c rest, frames = (seedFrame cps[1], c) :: rest ∧ c.position = cps[2] := by
  obtain ⟨cur2, frames2, hloop, hct2⟩ := create_track_eq sqrt cps (by omega)
  rw [hct] at hct2
  injection hct2 with hct2
  subst hct2
  let Inv : Nat → K → Orientation K → List (Orientation K × Orientation K) → Prop :=
    fun i u cur acc =>
      (i = 1 ∧ u = 0 ∧ acc = [] ∧ cur = seedFrame cps[1]) ∨
        (∃ c rest, acc = (seedFrame cps[1], c) :: rest ∧ c.position = cps[2])
  let J : Nat → Orientation K → List (Orientation K × Orientation K) → Prop :=
    fun i cur acc =>
      (i = 1 ∧ acc = [] ∧ cur = seedFrame cps[1]) ∨
        (∃ c rest, acc = (seedFrame cps[1], c) :: rest ∧ c.position = cps[2])
  have hstep : ∀ (i : Nat) (u : K) (cur : Orientation K)
      (acc : List (Orientation K × Orientation K)) (c : Orientation K), u < 1 →
      Inv i u cur acc → railStep sqrt cps i u cur = .ok (cur, c) →
      Inv i (u + 1 / 20) c (acc ++ [(cur, c)]) := by
    intro i u cur acc c _ hI hr
    right
    rcases hI with ⟨rfl, rfl, rfl, rfl⟩ | ⟨c0, rest, rfl, hc0⟩
    · obtain ⟨-, ⟨a, -, b, -, c3, -, d, -, -, hb, -, -, hpos⟩, -⟩ :=
        railStep_spec sqrt cps 1 0 _ _ c hr
      have e1 : (((1 : Nat) : Int) + 1) = ((2 : Nat) : Int) := by norm_num
      rw [e1] at hb
      obtain ⟨_, rfl⟩ := readPoint_ok_lt cps _ b hb
      exact ⟨c, [], rfl, by rw [hpos, interpolate_zero]⟩
    · exact ⟨c0, rest ++ [(cur, c)], rfl, hc0⟩
  have hseg : ∀ (i : Nat) (cur : Orientation K) (acc : List (Orientation K × Orientation K))
      (cur3 : Orientation K) (acc3 : List (Orientation K × Orientation K)),
      J i cur acc → uLoop sqrt cps i 21 0 cur acc = .ok (cur3, acc3) →
      J (i + 1) cur3 acc3 := by
    intro i cur acc cur3 acc3 hJ hu
    have hI : Inv i 0 cur acc := by
      rcases hJ with ⟨h1, h2, h3⟩ | h
      · exact Or.inl ⟨h1, rfl, h2, h3⟩
      · exact Or.inr h
    obtain ⟨u2, hu2, hfin⟩ :=
      uLoop_invariant sqrt cps i (Inv i) (hstep i) 21 0 cur acc cur3 acc3 hI hu
    rcases hfin with ⟨-, h0, -, -⟩ | h
    · exact absurd (by rw [h0]; exact zero_lt_one) hu2
    · exact Or.inr h
  have hfin := iLoop_invariant sqrt cps J hseg (cps.length - 4) 1
    (seedFrame cps[1]) [] cur2 frames (Or.inl ⟨rfl, rfl, rfl⟩) hloop
  rcases hfin with ⟨h, -, -⟩ | h
  · omega
  · exact h

/-- Claim C16, the code at the failing input: on the six control points `(0,0,k)`,
`k = 0..5`, the first pair that `create_track` passes to `makeRailPart` goes from the seed
frame at `controlPoints[1] = (0,0,1)` to the frame computed for `(i, u) = (1, 0)`, whose
position is `(0,0,2) = get_point(1 + 1 + 0)`, while `get_point(1 + 0) = (0,0,1)`: the loop
interpolates `controlPoints[i .. i+3]`, one segment further than `get_point(i + u)`. -/
theorem create_track_off_by_one_segment :
    ∃ (c : Orientation ℝ) (rest : List (Orientation ℝ × Orientation ℝ)),
      create_track Real.sqrt (line6 : List (Vec3 ℝ)) = .ok ((seedFrame ⟨0, 0, 1⟩, c) :: rest) ∧
        c.position = ⟨0, 0, 2⟩ ∧
        get_point (line6 : List (Vec3 ℝ)) (((1 : Nat) : ℝ) + 0) = .ok ⟨0, 0, 1⟩ ∧
        get_point (line6 : List (Vec3 ℝ)) (((1 : Nat) : ℝ) + 1 + 0) = .ok ⟨0, 0, 2⟩ := by
  obtain ⟨_, frames, _, hct⟩ :=
    create_track_eq Real.sqrt (line6 : List (Vec3 ℝ)) (by simp [line6])
  obtain ⟨c, rest, hf, hc⟩ := create_track_first_pair Real.sqrt (line6 : List (Vec3 ℝ))
    (by simp [line6]) frames hct
  refine ⟨c, rest, ?_, ?_, ?_, ?_⟩
  · rw [hct, hf]; simp [line6]
  · rw [hc]; simp [line6]
  · rw [get_point_on_line (line6 : List (Vec3 ℝ)) ⟨0, 0, 0⟩ ⟨0, 0, 1⟩ line6_collinear _
      (by norm_num) (by norm_num [line6]), zline_point]
    norm_num
  · rw [get_point_on_line (line6 : List (Vec3 ℝ)) ⟨0, 0, 0⟩ ⟨0, 0, 1⟩ line6_collinear _
      (by norm_num) (by norm_num [line6]), zline_point]
    norm_num


theorem railStep_propagate (sqrt : K → K) (cps : List (Vec3 K)) (i : Nat) (u : K)
    (cur c : Orientation K) (h : railStep sqrt cps i u cur = .ok (cur, c)) :
    c = propagate sqrt cur.Up cur.position c.position := by
  obtain ⟨-, -, hF, hR, hU⟩ := railStep_spec sqrt cps i u cur cur c h
  cases c with
  | mk F U R q =>
    simp only at hF hR hU
    simp only [propagate]
    rw [← hF, ← hR, ← hU]

theorem microStep_propagate [FloorRing K] (sqrt : K → K) (cps : List (Vec3 K))
    (c c2 : Camera K) (D D2 : K) (hw : ¬ c.currentpos > (cps.length : K))
    (h : microStep sqrt cps c D = .ok (c2, D2)) :
    cameraFrame c2 = propagate sqrt c.Up c.Position c2.Position := by
  simp only [microStep, if_neg hw] at h
  cases hP : get_point cps (c.currentpos + 1 / 1000) with
  | error e => rw [hP] at h; cases h
  | ok P =>
    rw [hP] at h
    injection h with h
    injection h with h1 h2
    subst h1
    rfl

end Centerline

section Propagation

theorem railStep_eq {K : Type} [LinearOrderedField K] (sqrt : K → K) (cps : List (Vec3 K))
    (i : Nat) (u : K) (cur : Orientation K) (hi : i + 3 < cps.length) :
    railStep sqrt cps i u cur = .ok (cur, propagate sqrt cur.Up cur.position
      (interpolate cps[i] cps[i + 1] cps[i + 2] cps[i + 3] (1 / 2) u)) := by
  have hA := readPoint_nat cps i (by omega)
  have hB : readPoint cps ((i : Int) + 1) = .ok cps[i + 1] := by
    have : ((i : Int) + 1) = ((i + 1 : Nat) : Int) := by omega
    rw [this]; exact readPoint_nat cps (i + 1) (by omega)
  have hC : readPoint cps ((i : Int) + 2) = .ok cps[i + 2] := by
    have : ((i : Int) + 2) = ((i + 2 : Nat) : Int) := by omega
    rw [this]; exact readPoint_nat cps (i + 2) (by omega)
  have hD : readPoint cps ((i : Int) + 3) = .ok cps[i + 3] := by
    have : ((i : Int) + 3) = ((i + 3 : Nat) : Int) := by omega
    rw [this]; exact readPoint_nat cps (i + 3) (by omega)
  simp only [railStep, hA, hB, hC, hD, propagate]

theorem microStep_eq {K : Type} [LinearOrderedField K] [FloorRing K] (sqrt : K → K)
    (cps : List (Vec3 K)) (c : Camera K) (D : K) (P : Vec3 K)
    (h : ¬ c.currentpos > (cps.length : K))
    (hP : get_point cps (c.currentpos + 1 / 1000) = .ok P) :
    ∃ c2 : Camera K,
      microStep sqrt cps c D = .ok (c2, D - get_distance sqrt c.Position P) ∧
        cameraFrame c2 = propagate sqrt c.Up c.Position P ∧
        c2.currentpos = c.currentpos + 1 / 1000 := by
  simp only [microStep, if_neg h, hP]
  exact ⟨_, rfl, rfl, rfl⟩

theorem get_point_total {K : Type} [LinearOrderedField K] [FloorRing K]
    (cps : List (Vec3 K)) (s : K) (h1 : 1 ≤ s) (h2 : s < (cps.length : K) - 2) :
    ∃ q, get_point cps s = .ok q := by
  obtain ⟨n, hn1, hn2, hn3, hn4⟩ := floor_segment s cps.length h1 h2
  exact ⟨_, get_point_segment cps s n hn1 hn2 hn3 hn4⟩

/-- Claim C17 (one propagation step preserves orthonormality): for every previous `Up` (unit
or not), previous position `p` and new position `q` with `q ≠ p` and `Up` not parallel to
`q - p`, the frame `Front = normalize(q - p)`, `Right = normalize(cross(Up, Front))`,
`Up = normalize(cross(Front, Right))` has `Front`, `Up`, `Right` of length one and pairwise
orthogonal.  The loop body of `create_track`, run at a segment `i` with `i + 3 < N` from a
frame with that `Up` and position `p`, returns, and when its interpolated position is `q` its
new frame is exactly this frame, hence orthonormal.  The micro-step of
`ProcessTrackMovement`, run without the wrap from a camera with that `Up` and `Position = p`,
returns when `get_point` returns (it does for `1 ≤ s < N - 2`), and when the new position is
`q` the camera's new frame is exactly this frame, hence orthonormal.  Both steps compute the
same function of the previous frame and the new position. -/
theorem propagation_step_orthonormal (up p q : Vec3 ℝ) (hne : q ≠ p)
    (hnp : cross up (q - p) ≠ 0) :
    Orthonormal Real.sqrt (propagate Real.sqrt up p q) ∧
      (∀ (cps : List (Vec3 ℝ)) (i : Nat) (u : ℝ) (cur : Orientation ℝ)
        (_ : i + 3 < cps.length),
        cur.Up = up → cur.position = p →
        interpolate cps[i] cps[i + 1] cps[i + 2] cps[i + 3] (1 / 2) u = q →
        ∃ c, railStep Real.sqrt cps i u cur = .ok (cur, c) ∧
          c = propagate Real.sqrt up p q ∧ Orthonormal Real.sqrt c) ∧
      (∀ (cps : List (Vec3 ℝ)) (c : Camera ℝ) (D : ℝ),
        ¬ c.currentpos > (cps.length : ℝ) → c.Up = up → c.Position = p →
        get_point cps (c.currentpos + 1 / 1000) = .ok q →
        ∃ c2, microStep Real.sqrt cps c D = .ok (c2, D - get_distance Real.sqrt p q) ∧
          cameraFrame c2 = propagate Real.sqrt up p q ∧
          Orthonormal Real.sqrt (cameraFrame c2)) ∧
      (∀ (cps : List (Vec3 ℝ)) (s : ℝ), 1 ≤ s → s < (cps.length : ℝ) - 2 →
        ∃ P, get_point cps s = .ok P) ∧
      (∀ (cps : List (Vec3 ℝ)) (i : Nat) (u : ℝ) (cur c : Orientation ℝ),
        railStep Real.sqrt cps i u cur = .ok (cur, c) →
          c = propagate Real.sqrt cur.Up cur.position c.position) ∧
      (∀ (cps : List (Vec3 ℝ)) (c c2 : Camera ℝ) (D D2 : ℝ),
        ¬ c.currentpos > (cps.length : ℝ) → microStep Real.sqrt cps c D = .ok (c2, D2) →
          cameraFrame c2 = propagate Real.sqrt c.Up c.Position c2.Position) := by
  have ho := propagate_orthonormal up p q hne hnp
  refine ⟨ho, ?_, ?_, fun cps s h1 h2 => get_point_total cps s h1 h2,
    fun cps i u cur c h => railStep_propagate Real.sqrt cps i u cur c h,
    fun cps c c2 D D2 hw h => microStep_propagate Real.sqrt cps c c2 D D2 hw h⟩
  · intro cps i u cur hi hup hp hq
    refine ⟨_, railStep_eq Real.sqrt cps i u cur hi, ?_, ?_⟩
    · rw [hup, hp, hq]
    · rw [hup, hp, hq]; exact ho
  · intro cps c D hw hup hp hq
    obtain ⟨c2, hm, hf, -⟩ := microStep_eq Real.sqrt cps c D q hw hq
    rw [hup, hp] at hf
    rw [hp] at hm
    exact ⟨c2, hm, hf, by rw [hf]; exact ho⟩

theorem propagation_step_orthonormal_witness :
    railStep Real.sqrt (line6 : List (Vec3 ℝ)) 1 0 (seedFrame ⟨0, 0, 1⟩)
        = .ok (seedFrame ⟨0, 0, 1⟩, ⟨⟨0, 0, 1⟩, ⟨0, 1, 0⟩, ⟨1, 0, 0⟩, ⟨0, 0, 2⟩⟩) ∧
      Orthonormal Real.sqrt
        (⟨⟨0, 0, 1⟩, ⟨0, 1, 0⟩, ⟨1, 0, 0⟩, ⟨0, 0, 2⟩⟩ : Orientation ℝ) ∧
      ∃ c2 : Camera ℝ,
        microStep Real.sqrt (line6 : List (Vec3 ℝ)) (tickStart seatedCamera) 1
            = .ok (c2, 1 - get_distance Real.sqrt ⟨0, 0, 0⟩ ⟨0, 0, 1001 / 1000⟩) ∧
          cameraFrame c2 = ⟨⟨0, 0, 1⟩, ⟨0, 1, 0⟩, ⟨1, 0, 0⟩, ⟨0, 0, 1001 / 1000⟩⟩ ∧
          Orthonormal Real.sqrt (cameraFrame c2) := by
  have hval : ∀ a b : ℝ, a < b →
      propagate Real.sqrt ⟨0, 1, 0⟩ ⟨0, 0, a⟩ ⟨0, 0, b⟩
        = ⟨⟨0, 0, 1⟩, ⟨0, 1, 0⟩, ⟨1, 0, 0⟩, ⟨0, 0, b⟩⟩ := by
    intro a b hab
    obtain ⟨h1, h2, h3⟩ := propagate_along_z ⟨0, 0, a⟩ ⟨0, 0, b⟩ rfl rfl hab
    simp only [propagate, h1, h2, h3]
  have hne : ∀ a b : ℝ, a < b → (⟨0, 0, b⟩ : Vec3 ℝ) ≠ ⟨0, 0, a⟩ := by
    intro a b hab h
    have := congrArg Vec3.z h
    simp at this
    linarith
  have hnp : ∀ a b : ℝ, a < b →
      cross (⟨0, 1, 0⟩ : Vec3 ℝ) ((⟨0, 0, b⟩ : Vec3 ℝ) - ⟨0, 0, a⟩) ≠ 0 := by
    intro a b hab h
    have := congrArg Vec3.x h
    simp [cross] at this
    linarith
  have hA := propagation_step_orthonormal ⟨0, 1, 0⟩ ⟨0, 0, 1⟩ ⟨0, 0, 2⟩
    (hne 1 2 (by norm_num)) (hnp 1 2 (by norm_num))
  have hB := propagation_step_orthonormal ⟨0, 1, 0⟩ ⟨0, 0, 0⟩ ⟨0, 0, 1001 / 1000⟩
    (hne 0 (1001 / 1000) (by norm_num)) (hnp 0 (1001 / 1000) (by norm_num))
  rw [hval 1 2 (by norm_num)] at hA
  rw [hval 0 (1001 / 1000) (by norm_num)] at hB
  obtain ⟨c, hc1, hc2, hc3⟩ := hA.2.1 (line6 : List (Vec3 ℝ)) 1 0 (seedFrame ⟨0, 0, 1⟩)
    (by simp [line6]) rfl rfl (by simp [line6, interpolate_zero])
  refine ⟨by rw [hc1, hc2], hA.1, ?_⟩
  have hg : get_point (line6 : List (Vec3 ℝ))
      ((tickStart (seatedCamera : Camera ℝ)).currentpos + 1 / 1000)
        = .ok ⟨0, 0, 1001 / 1000⟩ := by
    rw [get_point_on_line (line6 : List (Vec3 ℝ)) ⟨0, 0, 0⟩ ⟨0, 0, 1⟩ line6_collinear _
      (by norm_num [tickStart, seatedCamera, freshCamera])
      (by norm_num [tickStart, seatedCamera, freshCamera, line6]), zline_point]
    norm_num [tickStart, seatedCamera, freshCamera]
  exact hB.2.2.1 (line6 : List (Vec3 ℝ)) (tickStart seatedCamera) 1
    (by norm_num [tickStart, seatedCamera, freshCamera, line6]) rfl rfl hg

end Propagation

/-! ### The rider state machine, its seed frame and its budget -/

section RiderState

variable {K : Type} [LinearOrderedField K] [FloorRing K]

theorem whileD_onTrack (sqrt : K → K) (cps : List (Vec3 K)) :
    ∀ (fuel : Nat) (c c2 : Camera K) (D D2 : K),
      whileD sqrt cps fuel c D = .ok (c2, D2) → c2.onTrack = c.onTrack := by
  intro fuel
  induction fuel with
  | zero =>
    intro c c2 D D2 h
    simp only [whileD] at h
    split_ifs at h
    injection h with h
    injection h with h1 h2
    rw [← h1]
  | succ n ih =>
    intro c c2 D D2 h
    simp only [whileD] at h
    split_ifs at h with hD
    · cases hm : microStep sqrt cps c D with
      | error e => rw [hm] at h; cases h
      | ok r =>
        obtain ⟨c3, D3⟩ := r
        rw [hm] at h
        rw [ih c3 c2 D3 D2 h]
        rcases microStep_cases sqrt cps c c3 D D3 hm with ⟨_, h2, _⟩ | ⟨_, _, _, _, h2⟩
        · rw [h2]; rfl
        · exact h2
    · injection h with h
      injection h with h1 h2
      rw [← h1]

theorem ProcessTrackMovement_onTrack (sqrt : K → K) (fuel : Nat) (dt : K)
    (cps : List (Vec3 K)) (c c2 : Camera K)
    (h : ProcessTrackMovement sqrt fuel dt cps c = .ok c2) : c2.onTrack = true := by
  simp only [ProcessTrackMovement] at h
  split_ifs at h with hon
  · injection h with h
    rw [← h]
  · have hon2 : c.onTrack = true := by
      cases hc : c.onTrack
      · exact absurd hc hon
      · rfl
    cases hw : whileD sqrt cps fuel
        { c with prevUp := c.Up, prevFront := c.Front, prevRight := c.Right,
                 prevPosition := c.Position }
        (1 / 2 * sqrt (2 * gravity * (heightMax - c.Position.y)) * dt) with
    | error e => rw [hw] at h; cases h
    | ok r =>
      obtain ⟨c3, D3⟩ := r
      rw [hw] at h
      have h1 := whileD_onTrack sqrt cps fuel _ c3 _ D3 hw
      simp only at h h1
      split_ifs at h with hgt
      · injection h with h
        rw [← h]
        simp only [wrapToStart]
        rw [h1, hon2]
      · injection h with h
        rw [← h, h1, hon2]

/-- Claim C18 (rider state machine): for every track, elapsed time and fuel, a camera with
`onTrack = false` is taken by `ProcessTrackMovement` to a camera with `onTrack = true` and
the same `currentpos` (the call always returns, no loop is run); and from a camera with
`onTrack = true`, every `ProcessTrackMovement` call that returns, and every
`ProcessKeyboard`, `ProcessMouseMovement` and `ProcessMouseScroll` call, leaves
`onTrack = true`. -/
theorem rider_state_machine (sqrt cos sin radians : K → K) (fuel : Nat) (dt : K)
    (cps : List (Vec3 K)) (c : Camera K) :
    (c.onTrack = false →
      ∃ c2, ProcessTrackMovement sqrt fuel dt cps c = .ok c2 ∧ c2.onTrack = true ∧
        c2.currentpos = c.currentpos) ∧
      (c.onTrack = true →
        (∀ c2, ProcessTrackMovement sqrt fuel dt cps c = .ok c2 → c2.onTrack = true) ∧
        (∀ direction, (ProcessKeyboard c direction dt).onTrack = true) ∧
        (∀ dx dy constrainPitch,
          (ProcessMouseMovement sqrt cos sin radians c dx dy constrainPitch).onTrack = true) ∧
        (∀ y, (ProcessMouseScroll c y).onTrack = true)) := by
  constructor
  · intro hoff
    refine ⟨{ c with
        Up := c.up, Front := c.ft, Right := c.rt, Position := c.pos,
        prevUp := c.up, prevFront := c.ft, prevRight := c.rt, prevPosition := c.pos,
        onTrack := true }, ?_, rfl, rfl⟩
    simp only [ProcessTrackMovement, hoff, if_true]
  · intro hon
    refine ⟨fun c2 h => ProcessTrackMovement_onTrack sqrt fuel dt cps c c2 h, ?_, ?_, ?_⟩
    · intro direction
      cases direction <;> simpa [ProcessKeyboard] using hon
    · intro dx dy cp
      simpa [ProcessMouseMovement, updateCameraVectors] using hon
    · intro y
      simpa [ProcessMouseScroll] using hon


theorem rider_state_machine_witness :
    ∃ c2 : Camera ℝ,
      ProcessTrackMovement Real.sqrt 10 (1 / 60) (line6 : List (Vec3 ℝ)) freshCamera = .ok c2 ∧
        c2.onTrack = true ∧ c2.currentpos = 1 ∧
        (ProcessMouseScroll (ProcessKeyboard c2 Camera_Movement.FORWARD (1 / 60)) 3).onTrack
          = true := by
  obtain ⟨c2, h1, h2, h3⟩ := (rider_state_machine Real.sqrt Real.cos Real.sin
    (fun d => d * (Real.pi / 180)) 10 (1 / 60) (line6 : List (Vec3 ℝ)) freshCamera).1 rfl
  refine ⟨c2, h1, h2, by rw [h3]; rfl, ?_⟩
  have hk := ((rider_state_machine Real.sqrt Real.cos Real.sin
    (fun d => d * (Real.pi / 180)) 10 (1 / 60) (line6 : List (Vec3 ℝ)) c2).2 h2).2.1
    Camera_Movement.FORWARD
  exact ((rider_state_machine Real.sqrt Real.cos Real.sin
    (fun d => d * (Real.pi / 180)) 10 (1 / 60) (line6 : List (Vec3 ℝ))
    (ProcessKeyboard c2 Camera_Movement.FORWARD (1 / 60))).2 hk).2.2.2 3

end RiderState

section RiderSeed

/-- Claim C19, the code at the failing input: on the six control points `(0,0,k)`,
`k = 0..5`, the first tick takes the fresh camera to `up = (0,1,0)`, `tangent = (0,0,1)`,
`right = (1,0,0)`, `currentpos = 1` and `Position = pos = (0,0,0)`, and a wrap sets
`Position = (0,0,0)` again, while `get_point(1) = controlPoints[1] = (0,0,1)`. -/
theorem rider_seed_position_is_origin :
    ProcessTrackMovement Real.sqrt 0 (1 / 60) (line6 : List (Vec3 ℝ)) freshCamera
        = .ok seatedCamera ∧
      (seatedCamera : Camera ℝ).Up = ⟨0, 1, 0⟩ ∧ (seatedCamera : Camera ℝ).Front = ⟨0, 0, 1⟩ ∧
      (seatedCamera : Camera ℝ).Right = ⟨1, 0, 0⟩ ∧
      (seatedCamera : Camera ℝ).currentpos = 1 ∧
      (seatedCamera : Camera ℝ).Position = ⟨0, 0, 0⟩ ∧
      (wrapToStart (seatedCamera : Camera ℝ)).Position = ⟨0, 0, 0⟩ ∧
      get_point (line6 : List (Vec3 ℝ)) 1 = .ok ⟨0, 0, 1⟩ ∧
      (line6 : List (Vec3 ℝ))[1]? = some ⟨0, 0, 1⟩ ∧
      ((seatedCamera : Camera ℝ).Position ≠ ⟨0, 0, 1⟩) := by
  refine ⟨ProcessTrackMovement_first _ _ _ _, rfl, rfl, rfl, rfl, rfl, rfl, ?_, rfl, ?_⟩
  · rw [get_point_on_line (line6 : List (Vec3 ℝ)) ⟨0, 0, 0⟩ ⟨0, 0, 1⟩ line6_collinear _
      (by norm_num) (by norm_num [line6]), zline_point]
  · intro h
    have := congrArg Vec3.z h
    simp [seatedCamera] at this


theorem ProcessTrackMovement_of_ok_wrap {K : Type} [LinearOrderedField K] [FloorRing K]
    (sqrt : K → K) (fuel : Nat) (dt : K) (cps : List (Vec3 K)) (c c2 : Camera K) (D2 : K)
    (hon : c.onTrack = true)
    (hw : whileD sqrt cps fuel (tickStart c)
      (1 / 2 * sqrt (2 * gravity * (heightMax - c.Position.y)) * dt) = .ok (c2, D2))
    (hgt : c2.currentpos > ((sizeMinus3 cps.length : Nat) : K)) :
    ProcessTrackMovement sqrt fuel dt cps c = .ok (wrapToStart c2) := by
  simp only [tickStart] at hw
  unfold ProcessTrackMovement
  rw [if_neg (by rw [hon]; decide)]
  dsimp only
  rw [hw]
  dsimp only
  rw [if_pos hgt]

theorem budget_of_le (c : Camera ℝ) (dt : ℝ) (h : c.Position.y ≤ 14) :
    budget Real.sqrt c dt
      = some (1 / 2 * Real.sqrt (2 * (981 / 100) * (14 - c.Position.y)) * dt) := by
  simp only [budget, gravity, heightMax]
  rw [if_neg (by nlinarith)]

theorem budget_of_gt (sqrt : ℝ → ℝ) (c : Camera ℝ) (dt : ℝ) (h : 14 < c.Position.y) :
    budget sqrt c dt = none := by
  simp only [budget, gravity, heightMax]
  rw [if_pos (by nlinarith)]

theorem ProcessTrackMovementNaN_some {K : Type} [LinearOrderedField K] [FloorRing K]
    (sqrt : K → K) (fuel : Nat) (dt : K) (cps : List (Vec3 K)) (c : Camera K) (D : K)
    (hon : c.onTrack = true) (hb : budget sqrt c dt = some D) :
    ProcessTrackMovementNaN sqrt fuel dt cps c =
      (match whileD sqrt cps fuel (tickStart c) D with
        | .ok (c2, _) =>
          if c2.currentpos > ((sizeMinus3 cps.length : Nat) : K) then .ok (wrapToStart c2)
          else .ok c2
        | .error e => .error e) := by
  have hb2 : budget sqrt (tickStart c) dt = some D := hb
  unfold ProcessTrackMovementNaN
  rw [if_neg (by rw [hon]; decide)]
  simp only [tickStart] at hb2
  simp only [hb2]
  rfl

theorem ProcessTrackMovementNaN_none {K : Type} [LinearOrderedField K] [FloorRing K]
    (sqrt : K → K) (fuel : Nat) (dt : K) (cps : List (Vec3 K)) (c : Camera K)
    (hon : c.onTrack = true) (hb : budget sqrt c dt = none) :
    ProcessTrackMovementNaN sqrt fuel dt cps c =
      if c.currentpos > ((sizeMinus3 cps.length : Nat) : K) then
        .ok (wrapToStart (tickStart c))
      else .ok (tickStart c) := by
  have hb2 : budget sqrt (tickStart c) dt = none := hb
  unfold ProcessTrackMovementNaN
  rw [if_neg (by rw [hon]; decide)]
  simp only [tickStart] at hb2
  simp only [hb2]
  rfl

theorem ProcessTrackMovement_unfold {K : Type} [LinearOrderedField K] [FloorRing K]
    (sqrt : K → K) (fuel : Nat) (dt : K) (cps : List (Vec3 K)) (c : Camera K)
    (hon : c.onTrack = true) :
    ProcessTrackMovement sqrt fuel dt cps c =
      (match whileD sqrt cps fuel (tickStart c)
          (1 / 2 * sqrt (2 * gravity * (heightMax - c.Position.y)) * dt) with
        | .ok (c2, _) =>
          if c2.currentpos > ((sizeMinus3 cps.length : Nat) : K) then .ok (wrapToStart c2)
          else .ok c2
        | .error e => .error e) := by
  unfold ProcessTrackMovement
  rw [if_neg (by rw [hon]; decide)]
  rfl

theorem ProcessTrackMovementNaN_eq (fuel : Nat) (dt : ℝ) (cps : List (Vec3 ℝ))
    (c : Camera ℝ) :
    ProcessTrackMovementNaN Real.sqrt fuel dt cps c
      = ProcessTrackMovement Real.sqrt fuel dt cps c := by
  cases hon : c.onTrack
  · simp only [ProcessTrackMovementNaN, ProcessTrackMovement, hon, if_true]
  · rw [ProcessTrackMovement_unfold Real.sqrt fuel dt cps c hon]
    rcases le_or_lt c.Position.y 14 with h | h
    · rw [ProcessTrackMovementNaN_some Real.sqrt fuel dt cps c _ hon (budget_of_le c dt h)]
      simp only [gravity, heightMax]
    · rw [ProcessTrackMovementNaN_none Real.sqrt fuel dt cps c hon (budget_of_gt _ c dt h)]
      have h0 : (1 / 2 * Real.sqrt (2 * gravity * (heightMax - c.Position.y)) * dt : ℝ) = 0 := by
        rw [Real.sqrt_eq_zero'.mpr (by simp only [gravity, heightMax]; nlinarith)]
        simp
      rw [h0, whileD_zero_budget Real.sqrt cps fuel (tickStart c) 0 (lt_irrefl 0)]
      rfl

/-- Claim C20, counterexample: for the seated camera (height `0 < 14`) and elapsed time
`-1 ≤ 0` the budget `D` is a number below `-8`, not `0`; and for a camera at height
`15 ≥ 14` the argument of `sqrt` is negative and `D` is NaN, not `0`. -/
theorem negative_time_budget_not_zero :
    (seatedCamera : Camera ℝ).onTrack = true ∧ (-1 : ℝ) ≤ 0 ∧
      (∃ D : ℝ, budget Real.sqrt (seatedCamera : Camera ℝ) (-1) = some D ∧ D < -8 ∧ D ≠ 0) ∧
      budget Real.sqrt ({ (seatedCamera : Camera ℝ) with Position := ⟨0, 15, 0⟩ }) 1 = none ∧
      budget Real.sqrt ({ (seatedCamera : Camera ℝ) with Position := ⟨0, 15, 0⟩ }) 1
        ≠ some 0 := by
  have h := ground_speed_bounds.1
  have e : budget Real.sqrt (seatedCamera : Camera ℝ) (-1)
      = some (1 / 2 * Real.sqrt (2 * gravity * (heightMax - 0)) * (-1)) := by
    rw [budget_of_le _ _ (by norm_num [seatedCamera, freshCamera])]
    simp [seatedCamera, freshCamera, gravity, heightMax]
  have hn : budget Real.sqrt ({ (seatedCamera : Camera ℝ) with Position := ⟨0, 15, 0⟩ }) 1
      = none := budget_of_gt _ _ _ (by norm_num)
  refine ⟨rfl, by norm_num, ⟨_, e, by linarith, ?_⟩, hn, by rw [hn]; simp⟩
  intro h0; linarith

/-- Claim C20, amended: on a camera with `onTrack = true`, `ProcessTrackMovement` computes
`V = 0.5 * sqrt(2 * 9.81 * (14 - Position.y))`, with no `max(0, .)`, and `D = V * dt`: a
number for `Position.y ≤ 14`, and NaN for `Position.y > 14`, where the argument of `sqrt` is
negative.  With the real square root the tick of the model without NaN returns the same as
the tick with NaN, on every input.  A `D` that is a number is the budget the loop starts
with, and the post-loop wrap is applied to what the loop returns.  When `Position.y ≥ 14` or `dt ≤ 0`, `D` is NaN or a number
that is not positive (`0` exactly when `Position.y = 14` or `dt = 0`), the loop runs zero
times for every fuel, and the tick returns the camera with only the `prev` members updated,
so `currentpos` and `Position` are unchanged, unless `currentpos > N - 3`, in which case the
post-loop wrap is applied. -/
theorem tick_without_budget (fuel : Nat) (dt : ℝ) (cps : List (Vec3 ℝ)) (c : Camera ℝ)
    (hon : c.onTrack = true) :
    (c.Position.y ≤ 14 → budget Real.sqrt c dt
        = some (1 / 2 * Real.sqrt (2 * (981 / 100) * (14 - c.Position.y)) * dt)) ∧
      (14 < c.Position.y → budget Real.sqrt c dt = none) ∧
      ProcessTrackMovementNaN Real.sqrt fuel dt cps c
        = ProcessTrackMovement Real.sqrt fuel dt cps c ∧
      (∀ D c2 D2, budget Real.sqrt c dt = some D →
        whileD Real.sqrt cps fuel (tickStart c) D = .ok (c2, D2) →
        ProcessTrackMovementNaN Real.sqrt fuel dt cps c =
          if c2.currentpos > ((sizeMinus3 cps.length : Nat) : ℝ) then .ok (wrapToStart c2)
          else .ok c2) ∧
      (14 ≤ c.Position.y ∨ dt ≤ 0 →
        (∀ D, budget Real.sqrt c dt = some D →
          D ≤ 0 ∧ (D = 0 ↔ c.Position.y = 14 ∨ dt = 0) ∧
          whileD Real.sqrt cps fuel (tickStart c) D = .ok (tickStart c, D)) ∧
        (c.currentpos > ((sizeMinus3 cps.length : Nat) : ℝ) →
          ProcessTrackMovementNaN Real.sqrt fuel dt cps c = .ok (wrapToStart (tickStart c))) ∧
        (¬ c.currentpos > ((sizeMinus3 cps.length : Nat) : ℝ) →
          ProcessTrackMovementNaN Real.sqrt fuel dt cps c = .ok (tickStart c) ∧
            (tickStart c).currentpos = c.currentpos ∧
            (tickStart c).Position = c.Position)) := by
  refine ⟨budget_of_le c dt, budget_of_gt _ c dt, ProcessTrackMovementNaN_eq fuel dt cps c,
    fun D c2 D2 hb hw => ?_, fun h => ?_⟩
  · rw [ProcessTrackMovementNaN_some Real.sqrt fuel dt cps c D hon hb, hw]
  have key : ∀ D, budget Real.sqrt c dt = some D →
      D ≤ 0 ∧ (D = 0 ↔ c.Position.y = 14 ∨ dt = 0) := by
    intro D hD
    have hy : c.Position.y ≤ 14 := by
      by_contra hgt
      rw [budget_of_gt _ c dt (not_le.mp hgt)] at hD
      cases hD
    rw [budget_of_le c dt hy] at hD
    injection hD with hD
    have hs0 : 0 ≤ Real.sqrt (2 * (981 / 100) * (14 - c.Position.y)) := Real.sqrt_nonneg _
    have hsz : Real.sqrt (2 * (981 / 100) * (14 - c.Position.y)) = 0 ↔ c.Position.y = 14 := by
      rw [Real.sqrt_eq_zero (by nlinarith)]
      constructor
      · intro h1; nlinarith
      · intro h1; rw [h1]; norm_num
    constructor
    · rw [← hD]
      rcases h with h14 | hdt
      · have : c.Position.y = 14 := le_antisymm hy h14
        rw [hsz.mpr this]; simp
      · exact mul_nonpos_of_nonneg_of_nonpos (by positivity) hdt
    · rw [← hD, mul_eq_zero, mul_eq_zero, hsz]
      constructor
      · rintro ((h1 | h1) | h1)
        · norm_num at h1
        · exact Or.inl h1
        · exact Or.inr h1
      · rintro (h1 | h1)
        · exact Or.inl (Or.inr h1)
        · exact Or.inr h1
  have tick : ProcessTrackMovementNaN Real.sqrt fuel dt cps c =
      if c.currentpos > ((sizeMinus3 cps.length : Nat) : ℝ) then
        .ok (wrapToStart (tickStart c))
      else .ok (tickStart c) := by
    cases hb : budget Real.sqrt c dt with
    | none => exact ProcessTrackMovementNaN_none Real.sqrt fuel dt cps c hon hb
    | some D =>
      rw [ProcessTrackMovementNaN_some Real.sqrt fuel dt cps c D hon hb,
        whileD_zero_budget Real.sqrt cps fuel (tickStart c) D (not_lt.mpr (key D hb).1)]
      rfl
  refine ⟨fun D hD => ⟨(key D hD).1, (key D hD).2,
    whileD_zero_budget Real.sqrt cps fuel (tickStart c) D (not_lt.mpr (key D hD).1)⟩, ?_, ?_⟩
  · intro hgt
    rw [tick, if_pos hgt]
  · intro hgt
    rw [tick, if_neg hgt]
    exact ⟨rfl, rfl, rfl⟩

theorem tick_without_budget_witness :
    (∃ D : ℝ, budget Real.sqrt (seatedCamera : Camera ℝ) (-1) = some D ∧ D ≤ 0) ∧
      ProcessTrackMovementNaN Real.sqrt 0 (-1) (line6 : List (Vec3 ℝ)) seatedCamera
        = .ok (tickStart seatedCamera) ∧
      ProcessTrackMovementNaN Real.sqrt 0 1 (line6 : List (Vec3 ℝ))
          { (seatedCamera : Camera ℝ) with Position := ⟨0, 15, 0⟩ }
        = .ok (tickStart { (seatedCamera : Camera ℝ) with Position := ⟨0, 15, 0⟩ }) := by
  have hA := tick_without_budget 0 (-1) (line6 : List (Vec3 ℝ)) seatedCamera rfl
  have hB := tick_without_budget 0 1 (line6 : List (Vec3 ℝ))
    { (seatedCamera : Camera ℝ) with Position := ⟨0, 15, 0⟩ } rfl
  have hA2 := hA.2.2.2.2 (Or.inr (by norm_num))
  have hB2 := hB.2.2.2.2 (Or.inl (by norm_num))
  have hb := hA.1 (by norm_num [seatedCamera, freshCamera])
  refine ⟨⟨_, hb, (hA2.1 _ hb).1⟩, (hA2.2.2 ?_).1, (hB2.2.2 ?_).1⟩
  · norm_num [seatedCamera, freshCamera, sizeMinus3, line6]
  · norm_num [seatedCamera, freshCamera, sizeMinus3, line6]
end RiderSeed

end RollerCoaster
